import Mathlib

/-!
Verification of the bucket KD-tree in `KDTree.h` (namespace `jk::tree`).

The embedding models scalars as exact rationals.  The C++ initialises every
bounding box to the sentinel pair `(+inf, -inf)` per dimension; since a box
either is in that fresh state in every dimension or in no dimension, the model
stores bounds as `Option (List (ℚ × ℚ))`, with `none` standing for the fresh
sentinel box.  Buckets are lists (`std::vector` contents), the node arena is a
list of nodes addressed by position, and `std::set<std::size_t>` is a sorted
duplicate-free list.  The unbounded C++ `while` loops are modelled with an
explicit fuel argument (`none` = the fuel ran out); fuel sufficiency for
reachable states is proved separately, which keeps termination an actual
theorem rather than an artifact of the embedding.
-/

namespace KD

/-- Entry stored in a leaf bucket: a point (one rational per dimension)
together with its caller-supplied payload (`LocationPayload` in the header). -/
structure LocationPayload (α : Type) where
  location : List ℚ
  payload : α
deriving DecidableEq

/-- Query result: the metric distance to the query point and the payload
(`DistancePayload` in the header). -/
structure DistancePayload (α : Type) where
  distance : ℚ
  payload : α
deriving DecidableEq

/-- L1 metric of the header: sum of absolute coordinate differences. -/
def L1.distance (a b : List ℚ) : ℚ :=
  (List.zipWith (fun x y => |x - y|) a b).sum

/-- L2 metric of the header: sum of squared coordinate differences
(squared euclidean distance, no square root). -/
def L2.distance (a b : List ℚ) : ℚ :=
  (List.zipWith (fun x y => (x - y) * (x - y)) a b).sum

/-- Arena node (`KDTree::Node`).  `m_splitDimension = D` is the leaf sentinel
exactly as in the header.  `m_bounds = none` models the freshly initialised
`(+inf, -inf)` box. -/
structure Node (α : Type) where
  m_entries : ℕ := 0
  m_splitDimension : ℕ
  m_splitValue : ℚ := 0
  m_bounds : Option (List (ℚ × ℚ)) := none
  m_children : ℕ × ℕ := (0, 0)
  m_locationPayloads : List (LocationPayload α) := []
deriving DecidableEq

/-- A node as freshly constructed by `Node(recycle, capacity)`: leaf sentinel,
sentinel bounds, zero entries, and the (possibly recycled) backing buffer as
bucket contents.  `Node(capacity)` is `freshNode D []`. -/
def freshNode (D : ℕ) (bucket : List (LocationPayload α)) : Node α :=
  { m_splitDimension := D, m_locationPayloads := bucket }

/-- Widening a sentinel or existing box by one point, per dimension
(the loop body of `Node::expandBounds` without the entry-count update). -/
def expandB (b : Option (List (ℚ × ℚ))) (loc : List ℚ) : Option (List (ℚ × ℚ)) :=
  match b with
  | none => some (loc.map fun x => (x, x))
  | some bs => some (List.zipWith (fun pr x => (min pr.1 x, max pr.2 x)) bs loc)

/-- `Node::expandBounds`: widen the box and increment the subtree entry count. -/
def Node.expandBounds (n : Node α) (loc : List ℚ) : Node α :=
  { n with m_bounds := expandB n.m_bounds loc, m_entries := n.m_entries + 1 }

/-- `Node::add`: expand bounds with the new location and append the entry to
the bucket. -/
def Node.add (n : Node α) (lp : LocationPayload α) : Node α :=
  { n.expandBounds lp.location with
    m_locationPayloads := n.m_locationPayloads ++ [lp] }

/-- `Node::shouldSplit`: the bucket has reached the size threshold. -/
def Node.shouldSplit (B : ℕ) (n : Node α) : Prop :=
  B ≤ n.m_entries

instance (B : ℕ) (n : Node α) : Decidable (n.shouldSplit B) := by
  unfold Node.shouldSplit; infer_instance

/-- Clamp the query point into a box per dimension (the loop of
`Node::pointRectDist` computing `closestBoundsPoint`). -/
def clampIn (bs : List (ℚ × ℚ)) (loc : List ℚ) : List ℚ :=
  List.zipWith (fun pr x => if pr.1 > x then pr.1 else if pr.2 < x then pr.2 else x) bs loc

/-- `Node::pointRectDist`: metric distance from the query point to its clamp
into the node's box.  A sentinel (fresh) box yields `none`, the model of the
infinite distance the C++ computes from the `(+inf, -inf)` sentinel. -/
def Node.pointRectDist (dist : List ℚ → List ℚ → ℚ) (n : Node α) (loc : List ℚ) : Option ℚ :=
  match n.m_bounds with
  | none => none
  | some bs => some (dist (clampIn bs loc) loc)

/-- Comparison `a > b` against a possibly-infinite lower bound: a finite value
is never greater than the infinite sentinel. -/
def gtO (a : ℚ) : Option ℚ → Bool
  | none => false
  | some q => decide (q < a)

/-- `Node::addChildren`: push both children, the child on the query's side of
the split plane pushed last so it is popped first.  The stack's head is its
top (the back of the C++ `std::vector`). -/
def Node.addChildren (n : Node α) (q : List ℚ) (stack : List ℕ) : List ℕ :=
  if q.getD n.m_splitDimension 0 < n.m_splitValue then
    n.m_children.1 :: n.m_children.2 :: stack
  else
    n.m_children.2 :: n.m_children.1 :: stack

/-- Insert into the bounded max-heap, modelled as a list sorted descending by
distance whose head is the heap top (the worst retained candidate). -/
def hInsert (dp : DistancePayload α) : List (DistancePayload α) → List (DistancePayload α)
  | [] => [dp]
  | x :: xs => if x.distance < dp.distance then dp :: x :: xs else x :: hInsert dp xs

/-- One entry of `Node::searchBucket`: fill the heap while it is smaller than
`K`, afterwards replace the worst element whenever the entry is strictly
closer.  The two consecutive `for` loops of the C++ are equivalent to this
single per-entry rule because each insertion of the first loop grows the heap
by one. -/
def bucketStep (dist : List ℚ → List ℚ → ℚ) (q : List ℚ) (K : ℕ)
    (h : List (DistancePayload α)) (lp : LocationPayload α) : List (DistancePayload α) :=
  let d := dist q lp.location
  if h.length < K then hInsert ⟨d, lp.payload⟩ h
  else
    match h with
    | [] => []
    | top :: rest => if d < top.distance then hInsert ⟨d, lp.payload⟩ rest else top :: rest

/-- `Node::searchBucket`: offer the first `m_entries` bucket entries to the
heap (the C++ loops index up to `m_entries`). -/
def Node.searchBucket (dist : List ℚ → List ℚ → ℚ) (q : List ℚ) (K : ℕ)
    (n : Node α) (h : List (DistancePayload α)) : List (DistancePayload α) :=
  (n.m_locationPayloads.take n.m_entries).foldl (bucketStep dist q K) h

/-- The KNN branch-and-bound loop of `KDTree::searchK`, with explicit fuel. -/
def searchLoop (dist : List ℚ → List ℚ → ℚ) (D : ℕ) (q : List ℚ) (K : ℕ)
    (nodes : List (Node α)) :
    ℕ → List ℕ → List (DistancePayload α) → Option (List (DistancePayload α))
  | 0, _, _ => none
  | _ + 1, [], h => some h
  | fuel + 1, i :: rest, h =>
    let n := nodes.getD i (freshNode D [])
    let live : Bool :=
      decide (h.length < K) ||
        (match h with
         | [] => false
         | top :: _ => gtO top.distance (n.pointRectDist dist q))
    if live then
      if n.m_splitDimension = D then
        searchLoop dist D q K nodes fuel rest (n.searchBucket dist q K h)
      else
        searchLoop dist D q K nodes fuel (n.addChildren q rest) h
    else
      searchLoop dist D q K nodes fuel rest h

/-- The liveness (non-pruning) test of the KNN loop body: the heap still has
room, or the node's lower bound beats the current worst candidate. -/
def sLive (dist : List ℚ → List ℚ → ℚ) (D : ℕ) (q : List ℚ) (K : ℕ)
    (nodes : List (Node α)) (i : ℕ) (h : List (DistancePayload α)) : Bool :=
  decide (h.length < K) ||
    (match h with
     | [] => false
     | top :: _ => gtO top.distance ((nodes.getD i (freshNode D [])).pointRectDist dist q))

/-- Fuel that suffices for any arena whose internal nodes point to strictly
larger child indices (proved later). -/
def searchFuel (nodes : List (Node α)) : ℕ :=
  3 ^ nodes.length + 1

/-- The whole index (`KDTree`): node arena (handle 0 is the root), the
pending-split set, and the recycled bucket buffer. -/
structure KDTree (α : Type) where
  m_nodes : List (Node α)
  waitingForSplit : List ℕ := []
  m_bucketRecycle : List (LocationPayload α) := []
deriving DecidableEq

/-- A fresh index: one fresh leaf as root. -/
def KDTree.init (D : ℕ) : KDTree α :=
  { m_nodes := [freshNode D []] }

/-- Entry count of the root, i.e. `size()` of the index. -/
def rootEntries (st : KDTree α) : ℕ :=
  (st.m_nodes.getD 0 (freshNode 0 [])).m_entries

/-- `KDTree::searchK`: clamp `k` to the index size, run the branch-and-bound
loop from the root with an empty heap, then reverse the drained heap into
ascending order.  Draining the max-heap yields the descending list itself, so
the returned list is the final heap reversed. -/
def searchK (dist : List ℚ → List ℚ → ℚ) (D : ℕ) (st : KDTree α) (q : List ℚ)
    (k : ℕ) : Option (List (DistancePayload α)) :=
  let k2 := if rootEntries st < k then rootEntries st else k
  if 0 < k2 then
    (searchLoop dist D q k2 st.m_nodes (searchFuel st.m_nodes) [0] []).map List.reverse
  else
    some []

/-- One bucket entry of `KDTree::search`: keep the strictly closer candidate;
`none` is the infinite-distance sentinel the C++ starts from. -/
def bestStep (dist : List ℚ → List ℚ → ℚ) (q : List ℚ)
    (best : Option (DistancePayload α)) (lp : LocationPayload α) :
    Option (DistancePayload α) :=
  let d := dist q lp.location
  match best with
  | none => some ⟨d, lp.payload⟩
  | some b => if d < b.distance then some ⟨d, lp.payload⟩ else some b

/-- The pruning test of `KDTree::search`: `result.distance > pointRectDist`,
where the running best starts at the infinite sentinel. -/
def bestGt (best : Option (DistancePayload α)) (prd : Option ℚ) : Bool :=
  match prd with
  | none => false
  | some p =>
    match best with
    | none => true
    | some b => decide (p < b.distance)

/-- The traversal loop of `KDTree::search` (single nearest neighbour).  Note
the C++ scans the whole `m_locationPayloads` vector here, not only the first
`m_entries` elements as `searchBucket` does. -/
def searchOneLoop (dist : List ℚ → List ℚ → ℚ) (D : ℕ) (q : List ℚ)
    (nodes : List (Node α)) :
    ℕ → List ℕ → Option (DistancePayload α) → Option (Option (DistancePayload α))
  | 0, _, _ => none
  | _ + 1, [], best => some best
  | fuel + 1, i :: rest, best =>
    let n := nodes.getD i (freshNode D [])
    if bestGt best (n.pointRectDist dist q) then
      if n.m_splitDimension = D then
        searchOneLoop dist D q nodes fuel rest (n.m_locationPayloads.foldl (bestStep dist q) best)
      else
        searchOneLoop dist D q nodes fuel (n.addChildren q rest) best
    else
      searchOneLoop dist D q nodes fuel rest best

/-- `KDTree::search`: result `some none` models the sentinel of the C++
(infinite distance, default payload) returned for an empty index. -/
def search (dist : List ℚ → List ℚ → ℚ) (D : ℕ) (st : KDTree α) (q : List ℚ) :
    Option (Option (DistancePayload α)) :=
  if 0 < rootEntries st then
    searchOneLoop dist D q st.m_nodes (searchFuel st.m_nodes) [0] none
  else
    some none

/-- Widest-dimension selection of `KDTree::split`: the first dimension of
strictly maximal positive width, or `D` if no width is positive.  A sentinel
box yields `D` as well: in the C++ its widths are `-inf`, never above the
initial `width = 0`. -/
def chooseDim (D : ℕ) (b : Option (List (ℚ × ℚ))) : ℕ × ℚ :=
  match b with
  | none => (D, 0)
  | some bs =>
    bs.enum.foldl
      (fun best ip => if best.2 < ip.2.2 - ip.2.1 then (ip.1, ip.2.2 - ip.2.1) else best)
      (D, 0)

/-- The dimension-and-width pair `KDTree::split` selects for a node. -/
def splitSel (D : ℕ) (st : KDTree α) (index : ℕ) : ℕ × ℚ :=
  chooseDim D ((st.m_nodes.getD index (freshNode D [])).m_bounds)

/-- The midpoint `splitValue` of the selected dimension's bounds. -/
def splitMid (D : ℕ) (st : KDTree α) (index : ℕ) : ℚ :=
  let bs := (st.m_nodes.getD index (freshNode D [])).m_bounds.getD []
  let pr := bs.getD (splitSel D st index).1 (0, 0)
  (pr.1 + pr.2) / 2

/-- The entries of the node's bucket whose selected coordinate is strictly
below the midpoint (they go to the left child). -/
def leftOf (D : ℕ) (st : KDTree α) (index : ℕ) : List (LocationPayload α) :=
  (st.m_nodes.getD index (freshNode D [])).m_locationPayloads.filter fun lp =>
    decide (lp.location.getD (splitSel D st index).1 0 < splitMid D st index)

/-- The remaining entries (they go to the right child). -/
def rightOf (D : ℕ) (st : KDTree α) (index : ℕ) : List (LocationPayload α) :=
  (st.m_nodes.getD index (freshNode D [])).m_locationPayloads.filter fun lp =>
    ! decide (lp.location.getD (splitSel D st index).1 0 < splitMid D st index)

/-- The left child `KDTree::split` builds: a fresh leaf whose backing buffer
is the recycled one (`Node(recycle, capacity)` swaps it in), filled with the
left partition. -/
def leftNodeOf (D : ℕ) (st : KDTree α) (index : ℕ) : Node α :=
  (leftOf D st index).foldl Node.add (freshNode D st.m_bucketRecycle)

/-- The right child: a fresh leaf filled with the right partition. -/
def rightNodeOf (D : ℕ) (st : KDTree α) (index : ℕ) : Node α :=
  (rightOf D st index).foldl Node.add (freshNode D [])

/-- `KDTree::split`.  Returns the success flag and the updated state.

If no bounds width is positive the node is left as a leaf and the call fails.
Otherwise the bucket is partitioned at the midpoint of the widest dimension;
a partition with an empty side is rolled back: the two freshly appended
children are popped again, the node is restored to a leaf (`splitValue = 0`,
children `(0, 0)` — the values every reachable leaf already has), and the
left child's buffer — the old recycle contents plus the left partition — is
swapped back into the recycle buffer.  On success the node becomes internal,
its cleared bucket leaves the recycle buffer empty (the capacity-conditional
swap of the C++ only ever moves an empty buffer; capacity is a storage notion
outside this model), and the children sit at the end of the arena. -/
def split (D : ℕ) (st : KDTree α) (index : ℕ) : Bool × KDTree α :=
  let n := st.m_nodes.getD index (freshNode D [])
  if (splitSel D st index).1 = D then
    (false, { st with m_nodes := st.m_nodes.set index { n with m_splitDimension := D } })
  else
    if (leftNodeOf D st index).m_entries = 0 ∨ (rightNodeOf D st index).m_entries = 0 then
      (false,
        { st with
          m_nodes := st.m_nodes.set index
            { n with m_splitDimension := D, m_splitValue := 0, m_children := (0, 0) },
          m_bucketRecycle := st.m_bucketRecycle ++ leftOf D st index })
    else
      (true,
        { st with
          m_nodes :=
            (st.m_nodes.set index
              { n with m_splitDimension := (splitSel D st index).1,
                       m_splitValue := splitMid D st index,
                       m_children := (st.m_nodes.length, st.m_nodes.length + 1),
                       m_locationPayloads := [] }) ++
              [leftNodeOf D st index, rightNodeOf D st index],
          m_bucketRecycle := [] })

/-- Ordered insertion into the sorted duplicate-free list modelling
`std::set<std::size_t>::insert`. -/
def insertSorted (x : ℕ) : List ℕ → List ℕ
  | [] => [x]
  | y :: ys =>
    if x < y then x :: y :: ys
    else if x = y then y :: ys
    else y :: insertSorted x ys

/-- The descent of `KDTree::addPoint`: expand bounds at every internal node
on the path and follow the split test; stops at a leaf.  Fuel covers the
unbounded C++ `while`. -/
def addCore (D : ℕ) : ℕ → List (Node α) → ℕ → List ℚ → Option (List (Node α) × ℕ)
  | 0, _, _, _ => none
  | fuel + 1, nodes, i, loc =>
    let n := nodes.getD i (freshNode D [])
    if n.m_splitDimension = D then some (nodes, i)
    else
      addCore D fuel (nodes.set i (n.expandBounds loc))
        (if loc.getD n.m_splitDimension 0 < n.m_splitValue then n.m_children.1
         else n.m_children.2)
        loc

/-- `KDTree::addPoint`: descend to a leaf, append the entry there, and if the
bucket just crossed a multiple of the bucket size either split immediately
(`autosplit`) or record the leaf in the pending-split set. -/
def addPoint (D B : ℕ) (st : KDTree α) (loc : List ℚ) (payload : α)
    (autosplit : Bool) : Option (KDTree α) :=
  match addCore D (st.m_nodes.length + 1) st.m_nodes 0 loc with
  | none => none
  | some (nodes1, leafIdx) =>
    let nodes2 := nodes1.set leafIdx ((nodes1.getD leafIdx (freshNode D [])).add ⟨loc, payload⟩)
    let st2 : KDTree α := { st with m_nodes := nodes2 }
    let nAdded := nodes2.getD leafIdx (freshNode D [])
    if nAdded.shouldSplit B ∧ nAdded.m_entries % B = 0 then
      if autosplit then some (split D st2 leafIdx).2
      else some { st2 with waitingForSplit := insertSorted leafIdx st2.waitingForSplit }
    else some st2

/-- The worklist loop of `KDTree::splitOutstanding`: pop a handle; a leaf
below the threshold is skipped, a leaf at or above it is split (children of a
successful split are pushed, a failed split leaves the worklist alone), and an
already-internal handle just pushes its children. -/
def soLoop (D B : ℕ) : ℕ → KDTree α → List ℕ → Option (KDTree α)
  | 0, _, _ => none
  | _ + 1, st, [] => some st
  | fuel + 1, st, i :: rest =>
    let n := st.m_nodes.getD i (freshNode D [])
    if n.m_splitDimension = D then
      if n.shouldSplit B then
        let res := split D st i
        if res.1 then
          let n2 := res.2.m_nodes.getD i (freshNode D [])
          soLoop D B fuel res.2 (n2.m_children.2 :: n2.m_children.1 :: rest)
        else soLoop D B fuel res.2 rest
      else soLoop D B fuel st rest
    else soLoop D B fuel st (n.m_children.2 :: n.m_children.1 :: rest)

/-- Fuel for the worklist loop, sufficient for reachable states
(proved later). -/
def soFuel (st : KDTree α) (stack : List ℕ) : ℕ :=
  (stack.map fun i => 2 * (st.m_nodes.getD i (freshNode 0 [])).m_entries).sum + stack.length + 1

/-- `KDTree::splitOutstanding`: seed the worklist with the pending-split set
(the C++ copies the ascending `std::set` into a vector and pops from the
back, hence the reversal), run the loop, then clear the set. -/
def splitOutstanding (D B : ℕ) (st : KDTree α) : Option (KDTree α) :=
  (soLoop D B (soFuel st st.waitingForSplit.reverse) st st.waitingForSplit.reverse).map
    fun st2 => { st2 with waitingForSplit := [] }

/-- Modelled from the spec: `searchBall` is not present in `src/KDTree.h`
(only its callers in the example/test programs are), so this follows spec
section 4.3: the identical branch-and-bound traversal, an unbounded working
set keeping an entry iff its distance is at most the radius, and a pruning
test comparing the node's lower bound to the radius. -/
def ballLoop (dist : List ℚ → List ℚ → ℚ) (D : ℕ) (q : List ℚ) (r : ℚ)
    (nodes : List (Node α)) :
    ℕ → List ℕ → List (DistancePayload α) → Option (List (DistancePayload α))
  | 0, _, _ => none
  | _ + 1, [], acc => some acc
  | fuel + 1, i :: rest, acc =>
    let n := nodes.getD i (freshNode D [])
    let live : Bool :=
      match n.pointRectDist dist q with
      | none => false
      | some p => decide (p ≤ r)
    if live then
      if n.m_splitDimension = D then
        ballLoop dist D q r nodes fuel rest
          (acc ++ (n.m_locationPayloads.take n.m_entries).filterMap fun lp =>
            let d := dist q lp.location
            if d ≤ r then some ⟨d, lp.payload⟩ else none)
      else
        ballLoop dist D q r nodes fuel (n.addChildren q rest) acc
    else
      ballLoop dist D q r nodes fuel rest acc

/-- Stable insertion into a list ascending by distance. -/
def insD (x : DistancePayload α) : List (DistancePayload α) → List (DistancePayload α)
  | [] => [x]
  | y :: ys => if x.distance ≤ y.distance then x :: y :: ys else y :: insD x ys

/-- Stable insertion sort ascending by distance; this is the tie-consistent
order of the brute-force reference (sorting `(distance, insertion index)`
pairs keeps insertion order among equal distances). -/
def sortD : List (DistancePayload α) → List (DistancePayload α)
  | [] => []
  | x :: xs => insD x (sortD xs)

/-- Modelled from the spec: the result of `searchBall`, returned sorted
ascending by distance. -/
def searchBall (dist : List ℚ → List ℚ → ℚ) (D : ℕ) (st : KDTree α) (q : List ℚ)
    (r : ℚ) : Option (List (DistancePayload α)) :=
  (ballLoop dist D q r st.m_nodes (searchFuel st.m_nodes) [0] []).map sortD

/-- External operations of the index: `addPoint` (with its autosplit flag)
and `splitOutstanding`. -/
inductive Op (α : Type) where
  | add (loc : List ℚ) (payload : α) (autosplit : Bool)
  | splitOut
deriving DecidableEq

/-- Apply one operation. -/
def applyOp (D B : ℕ) (st : KDTree α) : Op α → Option (KDTree α)
  | .add loc p auto => addPoint D B st loc p auto
  | .splitOut => splitOutstanding D B st

/-- Run a sequence of operations from a fresh index. -/
def run (D B : ℕ) (ops : List (Op α)) : Option (KDTree α) :=
  ops.foldlM (applyOp D B) (KDTree.init D)

/-- The entries inserted by a sequence of operations, in insertion order. -/
def insertedEntries : List (Op α) → List (LocationPayload α)
  | [] => []
  | .add loc p _ :: rest => ⟨loc, p⟩ :: insertedEntries rest
  | .splitOut :: rest => insertedEntries rest

/-- Every inserted location has the index's dimension count (the C++ type
system enforces this through the fixed-size `std::array` parameter). -/
def DimOk (D : ℕ) (ops : List (Op α)) : Prop :=
  ∀ lp ∈ insertedEntries ops, lp.location.length = D

/-- Distance/payload view of an entry for a fixed query point. -/
def dpOf (dist : List ℚ → List ℚ → ℚ) (q : List ℚ) (lp : LocationPayload α) :
    DistancePayload α :=
  ⟨dist q lp.location, lp.payload⟩

/-- Brute-force k-nearest reference: stable-sort all entries by distance to
the query and take the first `k`. -/
def bruteKnn (dist : List ℚ → List ℚ → ℚ) (q : List ℚ) (k : ℕ)
    (pts : List (LocationPayload α)) : List (DistancePayload α) :=
  (sortD (pts.map (dpOf dist q))).take k

/-- The node stored at a handle; out-of-range handles give a fresh leaf (the
C++ would be out of bounds there, which never happens in reachable states). -/
def nodeAt (D : ℕ) (nodes : List (Node α)) (i : ℕ) : Node α :=
  nodes.getD i (freshNode D [])

/-- The handle holds a leaf (the split-dimension sentinel). -/
def leafAt (D : ℕ) (nodes : List (Node α)) (i : ℕ) : Prop :=
  (nodeAt D nodes i).m_splitDimension = D

instance (D : ℕ) (nodes : List (Node α)) (i : ℕ) : Decidable (leafAt D nodes i) := by
  unfold leafAt; infer_instance

/-- Handles of the subtree rooted at a handle, in depth-first order, with
explicit fuel (the arena is not intrinsically well-founded; fuel
`nodes.length + 1` suffices whenever children have strictly larger handles). -/
def subIdx (D : ℕ) (nodes : List (Node α)) : ℕ → ℕ → List ℕ
  | 0, _ => []
  | fuel + 1, i =>
    let n := nodeAt D nodes i
    if n.m_splitDimension = D then [i]
    else i :: (subIdx D nodes fuel n.m_children.1 ++ subIdx D nodes fuel n.m_children.2)

/-- Handles of the subtree rooted at a handle, at the canonical fuel. -/
def subtreeIdx (D : ℕ) (nodes : List (Node α)) (i : ℕ) : List ℕ :=
  subIdx D nodes (nodes.length + 1) i

/-- The entries a search visits at one handle: the first `m_entries` bucket
elements of a leaf, nothing at an internal node. -/
def contribAt (D : ℕ) (nodes : List (Node α)) (j : ℕ) : List (LocationPayload α) :=
  let n := nodeAt D nodes j
  if n.m_splitDimension = D then n.m_locationPayloads.take n.m_entries else []

/-- All entries stored in the subtree rooted at a handle. -/
def subEnt (D : ℕ) (nodes : List (Node α)) (i : ℕ) : List (LocationPayload α) :=
  (subtreeIdx D nodes i).flatMap (contribAt D nodes)

/-- Per-dimension min/max envelope of a set of locations, `none` when there
are none; this is precisely what `expandB` folds up. -/
def hullOf (locs : List (List ℚ)) : Option (List (ℚ × ℚ)) :=
  locs.foldl expandB none

/-- Per-dimension containment of a location in a box. -/
def inBox (bs : List (ℚ × ℚ)) (loc : List ℚ) : Prop :=
  ∀ d < bs.length, (bs.getD d (0, 0)).1 ≤ loc.getD d 0 ∧ loc.getD d 0 ≤ (bs.getD d (0, 0)).2

instance (bs : List (ℚ × ℚ)) (loc : List ℚ) : Decidable (inBox bs loc) := by
  unfold inBox; infer_instance

/-- The property of a metric that makes branch-and-bound pruning sound: the
distance from the query to its clamp into a box is a lower bound on the
distance from the query to any point of the box. -/
def MetricLB (D : ℕ) (dist : List ℚ → List ℚ → ℚ) : Prop :=
  ∀ (bs : List (ℚ × ℚ)) (q loc : List ℚ),
    bs.length = D → q.length = D → loc.length = D → inBox bs loc →
      dist (clampIn bs q) q ≤ dist q loc

/-- Well-formed arena shape: every internal node's children are strictly
larger handles (splits append fresh nodes), in range, and distinct. -/
def StructOk (D : ℕ) (nodes : List (Node α)) : Prop :=
  ∀ i < nodes.length, (nodeAt D nodes i).m_splitDimension ≠ D →
    i < (nodeAt D nodes i).m_children.1 ∧
    (nodeAt D nodes i).m_children.1 < (nodeAt D nodes i).m_children.2 ∧
    (nodeAt D nodes i).m_children.2 < nodes.length

/-- Structural and semantic invariant of every reachable index state. -/
structure Inv (D B : ℕ) (st : KDTree α) : Prop where
  lenPos : 0 < st.m_nodes.length
  struct : StructOk D st.m_nodes
  nodup0 : (subtreeIdx D st.m_nodes 0).Nodup
  complete : ∀ j < st.m_nodes.length, j ∈ subtreeIdx D st.m_nodes 0
  leafLen : ∀ i < st.m_nodes.length, (nodeAt D st.m_nodes i).m_splitDimension = D →
    (nodeAt D st.m_nodes i).m_locationPayloads.length = (nodeAt D st.m_nodes i).m_entries
  leafDefaults : ∀ i < st.m_nodes.length, (nodeAt D st.m_nodes i).m_splitDimension = D →
    (nodeAt D st.m_nodes i).m_splitValue = 0 ∧ (nodeAt D st.m_nodes i).m_children = (0, 0)
  tight : ∀ i < st.m_nodes.length, (nodeAt D st.m_nodes i).m_splitDimension = D →
    (nodeAt D st.m_nodes i).m_bounds =
      hullOf ((nodeAt D st.m_nodes i).m_locationPayloads.map LocationPayload.location)
  sizeL : ∀ i < st.m_nodes.length, (nodeAt D st.m_nodes i).m_splitDimension ≠ D →
    (nodeAt D st.m_nodes i).m_entries =
      (nodeAt D st.m_nodes (nodeAt D st.m_nodes i).m_children.1).m_entries +
      (nodeAt D st.m_nodes (nodeAt D st.m_nodes i).m_children.2).m_entries
  posL : ∀ i < st.m_nodes.length, (nodeAt D st.m_nodes i).m_splitDimension ≠ D →
    0 < (nodeAt D st.m_nodes (nodeAt D st.m_nodes i).m_children.1).m_entries ∧
    0 < (nodeAt D st.m_nodes (nodeAt D st.m_nodes i).m_children.2).m_entries
  boundsI : ∀ i < st.m_nodes.length, (nodeAt D st.m_nodes i).m_splitDimension ≠ D →
    ∃ bs, (nodeAt D st.m_nodes i).m_bounds = some bs ∧
      ∀ lp ∈ subEnt D st.m_nodes i, inBox bs lp.location
  dimsBucket : ∀ i < st.m_nodes.length, ∀ lp ∈ (nodeAt D st.m_nodes i).m_locationPayloads,
    lp.location.length = D
  dimsBounds : ∀ i < st.m_nodes.length, ∀ bs, (nodeAt D st.m_nodes i).m_bounds = some bs →
    bs.length = D
  recycleNil : st.m_bucketRecycle = []
  waitingOk : ∀ i ∈ st.waitingForSplit, i < st.m_nodes.length ∧
    1 ≤ (nodeAt D st.m_nodes i).m_entries

/-- Everything the descent-and-append step of `addPoint` does to the arena,
relative to the subtree it descended into: structure fields untouched, the
new entry appended to the bucket of the reached leaf `L`, entry counts and
bounds updated exactly on the path (the nodes of the descent subtree that
have `L` below them), and every other node untouched. -/
structure AddFrame (D : ℕ) (nodes nodes2 : List (Node α)) (i L : ℕ)
    (e : LocationPayload α) : Prop where
  len_eq : nodes2.length = nodes.length
  sd : ∀ j, (nodeAt D nodes2 j).m_splitDimension = (nodeAt D nodes j).m_splitDimension
  sv : ∀ j, (nodeAt D nodes2 j).m_splitValue = (nodeAt D nodes j).m_splitValue
  ch : ∀ j, (nodeAt D nodes2 j).m_children = (nodeAt D nodes j).m_children
  bucket_ne : ∀ j, j ≠ L →
    (nodeAt D nodes2 j).m_locationPayloads = (nodeAt D nodes j).m_locationPayloads
  bucket_L : (nodeAt D nodes2 L).m_locationPayloads =
    (nodeAt D nodes L).m_locationPayloads ++ [e]
  leafL : (nodeAt D nodes L).m_splitDimension = D
  memL : L ∈ subtreeIdx D nodes i
  outside : ∀ j, j ∉ subtreeIdx D nodes i → nodeAt D nodes2 j = nodeAt D nodes j
  inside : ∀ j ∈ subtreeIdx D nodes i,
    (L ∈ subtreeIdx D nodes j →
      (nodeAt D nodes2 j).m_entries = (nodeAt D nodes j).m_entries + 1 ∧
      (nodeAt D nodes2 j).m_bounds = expandB (nodeAt D nodes j).m_bounds e.location) ∧
    (L ∉ subtreeIdx D nodes j → nodeAt D nodes2 j = nodeAt D nodes j)
  frame : ∀ j, nodeAt D nodes2 j = nodeAt D nodes j ∨
    nodeAt D nodes2 j = (nodeAt D nodes j).expandBounds e.location ∨
    (j = L ∧ nodeAt D nodes2 j = (nodeAt D nodes j).add e)

/-- Sorted descending by distance (heap shape: the head is the worst). -/
def descD (h : List (DistancePayload α)) : Prop :=
  List.Sorted (fun a b : DistancePayload α => b.distance ≤ a.distance) h

/-- Sorted ascending by distance. -/
def ascD (h : List (DistancePayload α)) : Prop :=
  List.Sorted (fun a b : DistancePayload α => a.distance ≤ b.distance) h

/-- The heap invariant of the KNN loop relative to the already-processed
entries `Q`: the heap is a sorted-descending selection of the `K` closest of
`Q`, every processed entry it discarded being no closer than anything it
kept. -/
def heapOK (dist : List ℚ → List ℚ → ℚ) (q : List ℚ) (K : ℕ)
    (h : List (DistancePayload α)) (Q : List (LocationPayload α)) : Prop :=
  descD h ∧ h.length = min K Q.length ∧
    ∃ rest, (h ++ rest).Perm (Q.map (dpOf dist q)) ∧
      ∀ x ∈ rest, h.length = K ∧ ∀ y ∈ h, y.distance ≤ x.distance

/-- Termination measure of the KNN traversal stack. -/
def sMeasure (len : ℕ) (stack : List ℕ) : ℕ :=
  (stack.map fun i => 3 ^ (len - i)).sum

/-- The additional arena of a successful split: the split node made internal,
its two fresh leaf children appended. -/
def splitArena (D : ℕ) (nodes : List (Node α)) (i : ℕ) (nInt l r : Node α) :
    List (Node α) :=
  (nodes.set i nInt) ++ [l, r]

/-- The handle renaming a successful split performs on depth-first subtree
listings: the split leaf is replaced by itself plus its two children. -/
def splitExp (i len : ℕ) (x : ℕ) : List ℕ :=
  if x = i then [i, len, len + 1] else [x]

/-- The internal node a successful split turns the leaf into. -/
def splitInternalNode (D : ℕ) (st : KDTree α) (i : ℕ) : Node α :=
  { st.m_nodes.getD i (freshNode D []) with
    m_splitDimension := (splitSel D st i).1
    m_splitValue := splitMid D st i
    m_children := (st.m_nodes.length, st.m_nodes.length + 1)
    m_locationPayloads := [] }

/-- Termination measure of the `splitOutstanding` worklist. -/
def soMeasure (D : ℕ) (nodes : List (Node α)) (stack : List ℕ) : ℕ :=
  (stack.map fun i => 2 * (nodeAt D nodes i).m_entries - 1).sum

/-- The liveness test of the ball-search loop body: the node's lower bound is
within the radius (a sentinel lower bound prunes). -/
def bLive (dist : List ℚ → List ℚ → ℚ) (D : ℕ) (q : List ℚ) (r : ℚ)
    (nodes : List (Node α)) (i : ℕ) : Bool :=
  match (nodes.getD i (freshNode D [])).pointRectDist dist q with
  | none => false
  | some p => decide (p ≤ r)

/-- The per-entry filter of the ball search: keep an entry iff its distance is
at most the radius. -/
def ballKeep (dist : List ℚ → List ℚ → ℚ) (q : List ℚ) (r : ℚ)
    (lp : LocationPayload α) : Option (DistancePayload α) :=
  if dist q lp.location ≤ r then some (dpOf dist q lp) else none

/-- The location `duplicateTest` repeats 5000 times (any fixed point works;
the exact coordinates are irrelevant to the property). -/
def dupLoc : List ℚ :=
  List.replicate 11 0

/-- The one distinct point of `duplicateTest`: it differs from `dupLoc` in
dimension 0 only, like the `nextafter` bump of the C++ test. -/
def otherLoc : List ℚ :=
  1 :: List.replicate 10 0

/-- The operation sequence of `duplicateTest`: 5000 duplicates plus one
distinct point, all with autosplit off, then one `splitOutstanding`. -/
def dupOps : List (Op ℕ) :=
  ((List.range 5000).map fun n => Op.add dupLoc n false) ++
    [Op.add otherLoc 5000 false, Op.splitOut]

/-- A two-point index refuting payload-for-payload agreement with the
brute-force tie order: two points equidistant from the query. -/
def cexOps : List (Op ℕ) :=
  [Op.add [0] 0 true, Op.add [2] 1 true]

section ArenaLemmas

variable {α : Type}

theorem nodeAt_set_self (D : ℕ) {nodes : List (Node α)} {i : ℕ} (x : Node α)
    (h : i < nodes.length) : nodeAt D (nodes.set i x) i = x := by
  simp [nodeAt, List.getD_eq_getD_get?, List.get?_eq_getElem?, List.getElem?_set_self',
    List.getElem?_eq_getElem h]

theorem nodeAt_set_ne (D : ℕ) {nodes : List (Node α)} {i j : ℕ} (x : Node α) (hne : i ≠ j) :
    nodeAt D (nodes.set i x) j = nodeAt D nodes j := by
  simp [nodeAt, List.getD_eq_getD_get?, List.get?_eq_getElem?, List.getElem?_set_ne hne]

theorem nodeAt_append_left (D : ℕ) {nodes ext : List (Node α)} {i : ℕ} (h : i < nodes.length) :
    nodeAt D (nodes ++ ext) i = nodeAt D nodes i :=
  List.getD_append _ _ _ _ h

theorem nodeAt_append_right (D : ℕ) {nodes ext : List (Node α)} {i : ℕ} (h : nodes.length ≤ i) :
    nodeAt D (nodes ++ ext) i = nodeAt D ext (i - nodes.length) :=
  List.getD_append_right _ _ _ _ h

theorem nodeAt_oob (D : ℕ) {nodes : List (Node α)} {i : ℕ} (h : nodes.length ≤ i) :
    nodeAt D nodes i = freshNode D [] :=
  List.getD_eq_default _ _ h

theorem freshNode_splitDimension (D : ℕ) (bucket : List (LocationPayload α)) :
    (freshNode D bucket : Node α).m_splitDimension = D := rfl

theorem subIdx_leaf (D : ℕ) (nodes : List (Node α)) {i : ℕ} (f : ℕ)
    (h : (nodeAt D nodes i).m_splitDimension = D) : subIdx D nodes (f + 1) i = [i] := by
  simp [subIdx, h]

theorem subIdx_internal (D : ℕ) (nodes : List (Node α)) {i : ℕ} (f : ℕ)
    (h : (nodeAt D nodes i).m_splitDimension ≠ D) :
    subIdx D nodes (f + 1) i =
      i :: (subIdx D nodes f (nodeAt D nodes i).m_children.1 ++
            subIdx D nodes f (nodeAt D nodes i).m_children.2) := by
  simp [subIdx, h]

theorem internal_lt_len (D : ℕ) {nodes : List (Node α)} {i : ℕ}
    (h : (nodeAt D nodes i).m_splitDimension ≠ D) : i < nodes.length := by
  by_contra hge
  exact h (by rw [nodeAt_oob D (Nat.le_of_not_lt hge)]; rfl)

theorem subIdx_stable (D : ℕ) {nodes : List (Node α)} (hs : StructOk D nodes) :
    ∀ f g i, nodes.length - i < f → nodes.length - i < g →
      subIdx D nodes f i = subIdx D nodes g i := by
  intro f
  induction f with
  | zero => intro g i hf; omega
  | succ f ih =>
    intro g i hf hg
    match g, hg with
    | g + 1, hg =>
      by_cases hleaf : (nodeAt D nodes i).m_splitDimension = D
      · rw [subIdx_leaf D nodes _ hleaf, subIdx_leaf D nodes _ hleaf]
      · have hi := internal_lt_len D hleaf
        obtain ⟨h1, h2, h3⟩ := hs i hi hleaf
        rw [subIdx_internal D nodes _ hleaf, subIdx_internal D nodes _ hleaf]
        rw [ih g (nodeAt D nodes i).m_children.1 (by omega) (by omega),
          ih g (nodeAt D nodes i).m_children.2 (by omega) (by omega)]

theorem subIdx_mem_lt_len (D : ℕ) {nodes : List (Node α)} (hs : StructOk D nodes) :
    ∀ f i j, i < nodes.length → j ∈ subIdx D nodes f i → j < nodes.length := by
  intro f
  induction f with
  | zero => intro i j _ hj; simp [subIdx] at hj
  | succ f ih =>
    intro i j hi hj
    by_cases hleaf : (nodeAt D nodes i).m_splitDimension = D
    · rw [subIdx_leaf D nodes _ hleaf] at hj
      simp at hj
      omega
    · obtain ⟨h1, h2, h3⟩ := hs i hi hleaf
      rw [subIdx_internal D nodes _ hleaf] at hj
      rcases List.mem_cons.mp hj with hj | hj
      · omega
      · rcases List.mem_append.mp hj with hj | hj
        · exact ih _ _ (by omega) hj
        · exact ih _ _ (by omega) hj

theorem subIdx_mem_ge (D : ℕ) {nodes : List (Node α)} (hs : StructOk D nodes) :
    ∀ f i j, j ∈ subIdx D nodes f i → i ≤ j := by
  intro f
  induction f with
  | zero => intro i j hj; simp [subIdx] at hj
  | succ f ih =>
    intro i j hj
    by_cases hleaf : (nodeAt D nodes i).m_splitDimension = D
    · rw [subIdx_leaf D nodes _ hleaf] at hj
      simp at hj; omega
    · have hi := internal_lt_len D hleaf
      obtain ⟨h1, h2, h3⟩ := hs i hi hleaf
      rw [subIdx_internal D nodes _ hleaf] at hj
      rcases List.mem_cons.mp hj with hj | hj
      · omega
      · rcases List.mem_append.mp hj with hj | hj
        · have := ih _ _ hj; omega
        · have := ih _ _ hj; omega

theorem subtreeIdx_leaf (D : ℕ) (nodes : List (Node α)) {i : ℕ}
    (h : (nodeAt D nodes i).m_splitDimension = D) : subtreeIdx D nodes i = [i] :=
  subIdx_leaf D nodes _ h

theorem subtreeIdx_internal (D : ℕ) {nodes : List (Node α)} (hs : StructOk D nodes) {i : ℕ}
    (h : (nodeAt D nodes i).m_splitDimension ≠ D) :
    subtreeIdx D nodes i =
      i :: (subtreeIdx D nodes (nodeAt D nodes i).m_children.1 ++
            subtreeIdx D nodes (nodeAt D nodes i).m_children.2) := by
  have hi := internal_lt_len D h
  obtain ⟨h1, h2, h3⟩ := hs i hi h
  rw [subtreeIdx, subIdx_internal D nodes _ h]
  rw [subIdx_stable D hs nodes.length (nodes.length + 1) _ (by omega) (by omega),
    subIdx_stable D hs nodes.length (nodes.length + 1) _ (by omega) (by omega)]
  rfl

theorem self_mem_subtreeIdx (D : ℕ) (nodes : List (Node α)) (i : ℕ) :
    i ∈ subtreeIdx D nodes i := by
  by_cases hleaf : (nodeAt D nodes i).m_splitDimension = D
  · rw [subtreeIdx_leaf D nodes hleaf]; simp
  · rw [subtreeIdx, subIdx_internal D nodes _ hleaf]; simp

theorem subtreeIdx_mem_lt (D : ℕ) {nodes : List (Node α)} (hs : StructOk D nodes) {i j : ℕ}
    (hi : i < nodes.length) (hj : j ∈ subtreeIdx D nodes i) : j < nodes.length :=
  subIdx_mem_lt_len D hs _ _ _ hi hj

theorem subtreeIdx_trans (D : ℕ) {nodes : List (Node α)} (hs : StructOk D nodes) :
    ∀ f i j, nodes.length - i < f → j ∈ subIdx D nodes f i →
      ∀ x ∈ subtreeIdx D nodes j, x ∈ subIdx D nodes f i := by
  intro f
  induction f with
  | zero => intro i j hf; omega
  | succ f ih =>
    intro i j hf hj x hx
    by_cases hleaf : (nodeAt D nodes i).m_splitDimension = D
    · rw [subIdx_leaf D nodes _ hleaf] at hj ⊢
      simp at hj
      subst hj
      rw [subtreeIdx_leaf D nodes hleaf] at hx
      simpa using hx
    · have hi := internal_lt_len D hleaf
      obtain ⟨h1, h2, h3⟩ := hs i hi hleaf
      rw [subIdx_internal D nodes _ hleaf] at hj ⊢
      rcases List.mem_cons.mp hj with hj | hj
      · have hji : j = i := hj
        rw [hji] at hx
        have heq : subtreeIdx D nodes i = subIdx D nodes (f + 1) i :=
          subIdx_stable D hs _ _ _ (by omega) hf
        rw [heq, subIdx_internal D nodes _ hleaf] at hx
        exact hx
      · rcases List.mem_append.mp hj with hj | hj
        · exact List.mem_cons_of_mem _ (List.mem_append_left _
            (ih _ _ (by omega) hj x hx))
        · exact List.mem_cons_of_mem _ (List.mem_append_right _
            (ih _ _ (by omega) hj x hx))

theorem subtreeIdx_trans' (D : ℕ) {nodes : List (Node α)} (hs : StructOk D nodes) {i j : ℕ}
    (hj : j ∈ subtreeIdx D nodes i) : ∀ x ∈ subtreeIdx D nodes j, x ∈ subtreeIdx D nodes i :=
  subtreeIdx_trans D hs _ _ _ (by omega) hj

theorem subEnt_leaf (D : ℕ) (nodes : List (Node α)) {i : ℕ}
    (h : (nodeAt D nodes i).m_splitDimension = D) :
    subEnt D nodes i =
      (nodeAt D nodes i).m_locationPayloads.take (nodeAt D nodes i).m_entries := by
  rw [subEnt, subtreeIdx_leaf D nodes h]
  simp [contribAt, h]

theorem subEnt_internal (D : ℕ) {nodes : List (Node α)} (hs : StructOk D nodes) {i : ℕ}
    (h : (nodeAt D nodes i).m_splitDimension ≠ D) :
    subEnt D nodes i =
      subEnt D nodes (nodeAt D nodes i).m_children.1 ++
      subEnt D nodes (nodeAt D nodes i).m_children.2 := by
  rw [subEnt, subtreeIdx_internal D hs h]
  simp [contribAt, h, subEnt, List.flatMap_append]

theorem subIdx_congr (D : ℕ) {nodes nodes' : List (Node α)}
    (h : ∀ j, (nodeAt D nodes' j).m_splitDimension = (nodeAt D nodes j).m_splitDimension ∧
      (nodeAt D nodes' j).m_children = (nodeAt D nodes j).m_children) :
    ∀ f i, subIdx D nodes' f i = subIdx D nodes f i := by
  intro f
  induction f with
  | zero => intro i; rfl
  | succ f ih =>
    intro i
    obtain ⟨hsd, hch⟩ := h i
    by_cases hleaf : (nodeAt D nodes i).m_splitDimension = D
    · rw [subIdx_leaf D nodes' _ (hsd.trans hleaf), subIdx_leaf D nodes _ hleaf]
    · rw [subIdx_internal D nodes' _ (fun hc => hleaf (hsd.symm.trans hc)),
        subIdx_internal D nodes _ hleaf, hch, ih, ih]

theorem mem_subEnt_iff (D : ℕ) (nodes : List (Node α)) (i : ℕ)
    (x : LocationPayload α) :
    x ∈ subEnt D nodes i ↔ ∃ j ∈ subtreeIdx D nodes i,
      (nodeAt D nodes j).m_splitDimension = D ∧
      x ∈ (nodeAt D nodes j).m_locationPayloads.take (nodeAt D nodes j).m_entries := by
  rw [subEnt, List.mem_flatMap]
  constructor
  · rintro ⟨j, hj, hx⟩
    by_cases hleaf : (nodeAt D nodes j).m_splitDimension = D
    · exact ⟨j, hj, hleaf, by simpa [contribAt, hleaf] using hx⟩
    · simp [contribAt, hleaf] at hx
  · rintro ⟨j, hj, hleaf, hx⟩
    exact ⟨j, hj, by simpa [contribAt, hleaf] using hx⟩

theorem entries_eq_subEnt_length (D : ℕ) {nodes : List (Node α)} (hs : StructOk D nodes)
    (hsz : ∀ i < nodes.length, (nodeAt D nodes i).m_splitDimension ≠ D →
      (nodeAt D nodes i).m_entries =
        (nodeAt D nodes (nodeAt D nodes i).m_children.1).m_entries +
        (nodeAt D nodes (nodeAt D nodes i).m_children.2).m_entries)
    (hll : ∀ i < nodes.length, (nodeAt D nodes i).m_splitDimension = D →
      (nodeAt D nodes i).m_locationPayloads.length = (nodeAt D nodes i).m_entries) :
    ∀ i < nodes.length, (nodeAt D nodes i).m_entries = (subEnt D nodes i).length := by
  suffices h : ∀ k i, nodes.length - i ≤ k → i < nodes.length →
      (nodeAt D nodes i).m_entries = (subEnt D nodes i).length by
    intro i hi; exact h nodes.length i (by omega) hi
  intro k
  induction k with
  | zero => intro i hk hi; omega
  | succ k ih =>
    intro i hk hi
    by_cases hleaf : (nodeAt D nodes i).m_splitDimension = D
    · rw [subEnt_leaf D nodes hleaf, List.length_take, hll i hi hleaf]
      omega
    · obtain ⟨h1, h2, h3⟩ := hs i hi hleaf
      rw [subEnt_internal D hs hleaf, List.length_append, hsz i hi hleaf,
        ← ih _ (by omega) (by omega), ← ih _ (by omega) (by omega)]

end ArenaLemmas

section BoxLemmas

variable {α : Type}

theorem inBox_cons_iff (b : ℚ × ℚ) (bs : List (ℚ × ℚ)) (x : ℚ) (xs : List ℚ) :
    inBox (b :: bs) (x :: xs) ↔ (b.1 ≤ x ∧ x ≤ b.2) ∧ inBox bs xs := by
  constructor
  · intro h
    refine ⟨by simpa using h 0 (by simp), fun d hd => ?_⟩
    simpa using h (d + 1) (by simpa using hd)
  · rintro ⟨hb, hrest⟩ d hd
    cases d with
    | zero => simpa using hb
    | succ d => simpa using hrest d (by simpa using hd)

theorem abs_clamp_le (lo hi q l : ℚ) (h1 : lo ≤ l) (h2 : l ≤ hi) :
    |(if lo > q then lo else if hi < q then hi else q) - q| ≤ |q - l| := by
  split_ifs with h3 h4
  · calc |lo - q| = lo - q := abs_of_nonneg (by linarith)
      _ ≤ l - q := by linarith
      _ ≤ |l - q| := le_abs_self _
      _ = |q - l| := abs_sub_comm _ _
  · calc |hi - q| = -(hi - q) := abs_of_nonpos (by linarith)
      _ = q - hi := by ring
      _ ≤ q - l := by linarith
      _ ≤ |q - l| := le_abs_self _
  · simpa using abs_nonneg (q - l)

theorem mul_self_clamp_le (lo hi q l : ℚ) (h1 : lo ≤ l) (h2 : l ≤ hi) :
    ((if lo > q then lo else if hi < q then hi else q) - q) *
      ((if lo > q then lo else if hi < q then hi else q) - q) ≤ (q - l) * (q - l) := by
  set c := (if lo > q then lo else if hi < q then hi else q) - q with hc
  calc c * c = |c| * |c| := (abs_mul_abs_self c).symm
    _ ≤ |q - l| * |q - l| :=
      mul_self_le_mul_self (abs_nonneg c) (abs_clamp_le lo hi q l h1 h2)
    _ = (q - l) * (q - l) := abs_mul_abs_self _

theorem L1_nonneg (a b : List ℚ) : 0 ≤ L1.distance a b := by
  unfold L1.distance
  induction a generalizing b with
  | nil => simp
  | cons x xs ih =>
    cases b with
    | nil => simp
    | cons y ys =>
      simp only [List.zipWith_cons_cons, List.sum_cons]
      have := ih ys
      have := abs_nonneg (x - y)
      linarith

theorem L2_nonneg (a b : List ℚ) : 0 ≤ L2.distance a b := by
  unfold L2.distance
  induction a generalizing b with
  | nil => simp
  | cons x xs ih =>
    cases b with
    | nil => simp
    | cons y ys =>
      simp only [List.zipWith_cons_cons, List.sum_cons]
      have := ih ys
      have := mul_self_nonneg (x - y)
      linarith

theorem metricLB_L1 (D : ℕ) : MetricLB D L1.distance := by
  intro bs q loc hb hq hl hbox
  clear hb
  induction bs generalizing q loc D with
  | nil =>
    simpa [clampIn, L1.distance] using L1_nonneg q loc
  | cons b bs ih =>
    match q, loc with
    | [], _ => simpa [clampIn, L1.distance] using L1_nonneg [] loc
    | _ :: _, [] => simp at hq hl; omega
    | x :: xs, l :: ls =>
      obtain ⟨⟨hb1, hb2⟩, hbox'⟩ := (inBox_cons_iff b bs l ls).mp hbox
      simp only [clampIn, List.zipWith_cons_cons, L1.distance, List.sum_cons]
      have hrec := ih (D - 1) xs ls (by simp at hq; omega) (by simp at hq hl; omega) hbox'
      have hhead := abs_clamp_le b.1 b.2 x l hb1 hb2
      unfold L1.distance clampIn at hrec
      exact add_le_add hhead hrec

theorem metricLB_L2 (D : ℕ) : MetricLB D L2.distance := by
  intro bs q loc hb hq hl hbox
  clear hb
  induction bs generalizing q loc D with
  | nil =>
    simpa [clampIn, L2.distance] using L2_nonneg q loc
  | cons b bs ih =>
    match q, loc with
    | [], _ => simpa [clampIn, L2.distance] using L2_nonneg [] loc
    | _ :: _, [] => simp at hq hl; omega
    | x :: xs, l :: ls =>
      obtain ⟨⟨hb1, hb2⟩, hbox'⟩ := (inBox_cons_iff b bs l ls).mp hbox
      simp only [clampIn, List.zipWith_cons_cons, L2.distance, List.sum_cons]
      have hrec := ih (D - 1) xs ls (by simp at hq; omega) (by simp at hq hl; omega) hbox'
      have hhead := mul_self_clamp_le b.1 b.2 x l hb1 hb2
      unfold L2.distance clampIn at hrec
      exact add_le_add hhead hrec

theorem getD_zipWith {β γ δ : Type} (f : β → γ → δ) (as : List β) (bs : List γ)
    (i : ℕ) (da : β) (db : γ) (dc : δ) (ha : i < as.length) (hb : i < bs.length) :
    (List.zipWith f as bs).getD i dc = f (as.getD i da) (bs.getD i db) := by
  rw [List.getD_eq_getElem _ _ (by rw [List.length_zipWith]; omega),
    List.getElem_zipWith, List.getD_eq_getElem _ _ ha, List.getD_eq_getElem _ _ hb]

theorem expandB_none (loc : List ℚ) :
    expandB none loc = some (loc.map fun x => (x, x)) := rfl

theorem expandB_some (bs : List (ℚ × ℚ)) (loc : List ℚ) :
    expandB (some bs) loc =
      some (List.zipWith (fun pr x => (min pr.1 x, max pr.2 x)) bs loc) := rfl

theorem expandB_isSome (b : Option (List (ℚ × ℚ))) (loc : List ℚ) :
    ∃ bs, expandB b loc = some bs := by
  cases b <;> simp [expandB]

theorem expandB_length {b : Option (List (ℚ × ℚ))} {loc : List ℚ} {L : ℕ}
    (hb : ∀ bs, b = some bs → bs.length = L) (hl : loc.length = L) :
    ∃ bs', expandB b loc = some bs' ∧ bs'.length = L := by
  cases b with
  | none => exact ⟨_, rfl, by simpa using hl⟩
  | some bs =>
    refine ⟨_, rfl, ?_⟩
    rw [List.length_zipWith, hb bs rfl, hl]
    omega

theorem expandB_mono {bs bs' : List (ℚ × ℚ)} {loc x : List ℚ}
    (he : expandB (some bs) loc = some bs') (hx : inBox bs x) : inBox bs' x := by
  rw [expandB_some] at he
  injection he with he
  subst he
  intro d hd
  rw [List.length_zipWith] at hd
  have h1 : d < bs.length := by omega
  have h2 : d < loc.length := by omega
  rw [getD_zipWith _ _ _ _ (0, 0) 0 (0, 0) h1 h2]
  obtain ⟨ha, hb⟩ := hx d h1
  constructor
  · exact le_trans (min_le_left _ _) ha
  · exact le_trans hb (le_max_left _ _)

theorem expandB_self {b : Option (List (ℚ × ℚ))} {bs' : List (ℚ × ℚ)} {loc : List ℚ}
    (hlen : ∀ bs, b = some bs → bs.length ≤ loc.length)
    (he : expandB b loc = some bs') : inBox bs' loc := by
  cases b with
  | none =>
    rw [expandB_none] at he
    injection he with he
    subst he
    intro d hd
    rw [List.length_map] at hd
    rw [List.getD_eq_getElem _ _ (by simpa using hd), List.getElem_map,
      List.getD_eq_getElem _ _ hd]
    exact ⟨le_refl _, le_refl _⟩
  | some bs =>
    rw [expandB_some] at he
    injection he with he
    subst he
    intro d hd
    rw [List.length_zipWith] at hd
    have h1 : d < bs.length := by omega
    have h2 : d < loc.length := by omega
    rw [getD_zipWith _ _ _ _ (0, 0) 0 (0, 0) h1 h2]
    exact ⟨min_le_right _ _, le_max_right _ _⟩

theorem foldl_expandB_keeps (L : ℕ) :
    ∀ (locs : List (List ℚ)) (bs0 : List (ℚ × ℚ)) (x : List ℚ),
      (∀ loc ∈ locs, loc.length = L) → bs0.length = L → inBox bs0 x →
      ∃ bs, locs.foldl expandB (some bs0) = some bs ∧ bs.length = L ∧ inBox bs x := by
  intro locs
  induction locs with
  | nil => exact fun bs0 x _ h0 hx => ⟨bs0, rfl, h0, hx⟩
  | cons y ys ih =>
    intro bs0 x hlen h0 hx
    obtain ⟨bs1, he1, hl1⟩ :=
      @expandB_length (some bs0) _ _ (fun bs h => by injection h with h; rw [← h]; exact h0)
        (hlen y (by simp))
    obtain ⟨bs, he, hl, hbx⟩ := ih bs1 x (fun loc hl => hlen loc (by simp [hl]))
      hl1 (expandB_mono he1 hx)
    exact ⟨bs, by simpa [he1] using he, hl, hbx⟩

theorem foldl_expandB_contains (L : ℕ) :
    ∀ (locs : List (List ℚ)) (bs0 : List (ℚ × ℚ)) (x : List ℚ),
      (∀ loc ∈ locs, loc.length = L) → bs0.length = L → x ∈ locs →
      ∃ bs, locs.foldl expandB (some bs0) = some bs ∧ bs.length = L ∧ inBox bs x := by
  intro locs
  induction locs with
  | nil => intro _ _ _ _ hx; simp at hx
  | cons y ys ih =>
    intro bs0 x hlen h0 hx
    obtain ⟨bs1, he1, hl1⟩ :=
      @expandB_length (some bs0) _ _ (fun bs h => by injection h with h; rw [← h]; exact h0)
        (hlen y (by simp))
    rcases List.mem_cons.mp hx with hx | hx
    · subst hx
      have hself : inBox bs1 x :=
        expandB_self (fun bs h => by injection h with h; rw [← h, h0, hlen x (by simp)]) he1
      obtain ⟨bs, he, hl, hbx⟩ := foldl_expandB_keeps L ys bs1 x
        (fun loc hl => hlen loc (by simp [hl])) hl1 hself
      exact ⟨bs, by simpa [he1] using he, hl, hbx⟩
    · obtain ⟨bs, he, hl, hbx⟩ := ih bs1 x (fun loc hl => hlen loc (by simp [hl])) hl1 hx
      exact ⟨bs, by simpa [he1] using he, hl, hbx⟩

theorem hullOf_contains {locs : List (List ℚ)} {L : ℕ} {x : List ℚ}
    (hlen : ∀ loc ∈ locs, loc.length = L) (hx : x ∈ locs) :
    ∃ bs, hullOf locs = some bs ∧ bs.length = L ∧ inBox bs x := by
  cases locs with
  | nil => simp at hx
  | cons y ys =>
    unfold hullOf
    rw [List.foldl_cons, expandB_none]
    rcases List.mem_cons.mp hx with hx | hx
    · subst hx
      have hself : inBox (x.map fun v => (v, v)) x := by
        intro d hd
        rw [List.length_map] at hd
        rw [List.getD_eq_getElem _ _ (by simpa using hd), List.getElem_map,
          List.getD_eq_getElem _ _ hd]
        exact ⟨le_refl _, le_refl _⟩
      exact foldl_expandB_keeps L ys _ x (fun loc hl => hlen loc (by simp [hl]))
        (by simp [hlen x (by simp)]) hself
    · exact foldl_expandB_contains L ys _ x (fun loc hl => hlen loc (by simp [hl]))
        (by simp [hlen y (by simp)]) hx

theorem hullOf_nil : hullOf ([] : List (List ℚ)) = none := rfl

theorem foldl_expandB_isSome :
    ∀ (locs : List (List ℚ)) (bs0 : List (ℚ × ℚ)),
      ∃ bs, locs.foldl expandB (some bs0) = some bs := by
  intro locs
  induction locs with
  | nil => exact fun bs0 => ⟨bs0, rfl⟩
  | cons y ys ih =>
    intro bs0
    rw [List.foldl_cons, expandB_some]
    exact ih _

theorem hullOf_eq_none {locs : List (List ℚ)} (h : hullOf locs = none) : locs = [] := by
  cases locs with
  | nil => rfl
  | cons y ys =>
    exfalso
    unfold hullOf at h
    rw [List.foldl_cons, expandB_none] at h
    obtain ⟨bs, hbs⟩ := foldl_expandB_isSome ys _
    rw [hbs] at h
    exact Option.noConfusion h

theorem foldl_expandB_attain (L : ℕ) :
    ∀ (locs : List (List ℚ)) (bs0 bs : List (ℚ × ℚ)),
      (∀ loc ∈ locs, loc.length = L) → bs0.length = L →
      locs.foldl expandB (some bs0) = some bs →
      ∀ d < L,
        ((bs.getD d (0, 0)).1 = (bs0.getD d (0, 0)).1 ∨
          ∃ loc ∈ locs, loc.getD d 0 = (bs.getD d (0, 0)).1) ∧
        ((bs.getD d (0, 0)).2 = (bs0.getD d (0, 0)).2 ∨
          ∃ loc ∈ locs, loc.getD d 0 = (bs.getD d (0, 0)).2) := by
  intro locs
  induction locs with
  | nil =>
    intro bs0 bs _ _ hf d _
    rw [List.foldl_nil] at hf
    injection hf with hf
    subst hf
    exact ⟨Or.inl rfl, Or.inl rfl⟩
  | cons y ys ih =>
    intro bs0 bs hlen h0 hf d hd
    rw [List.foldl_cons, expandB_some] at hf
    have hylen : y.length = L := hlen y (by simp)
    have h1len : (List.zipWith (fun pr x => (min pr.1 x, max pr.2 x)) bs0 y).length = L := by
      rw [List.length_zipWith, h0, hylen]; omega
    have h1d : (List.zipWith (fun pr x => (min pr.1 x, max pr.2 x)) bs0 y).getD d (0, 0)
        = (min (bs0.getD d (0, 0)).1 (y.getD d 0), max (bs0.getD d (0, 0)).2 (y.getD d 0)) :=
      getD_zipWith _ _ _ _ (0, 0) 0 (0, 0) (by omega) (by omega)
    obtain ⟨hmin, hmax⟩ := ih _ bs (fun loc hl => hlen loc (by simp [hl])) h1len hf d hd
    constructor
    · rcases hmin with hmin | ⟨loc, hloc, hval⟩
      · rw [h1d] at hmin
        rcases min_cases (bs0.getD d (0, 0)).1 (y.getD d 0) with ⟨hc, _⟩ | ⟨hc, _⟩
        · exact Or.inl (by rw [hmin]; simpa using hc)
        · exact Or.inr ⟨y, by simp, by rw [hmin]; simpa using hc.symm⟩
      · exact Or.inr ⟨loc, by simp [hloc], hval⟩
    · rcases hmax with hmax | ⟨loc, hloc, hval⟩
      · rw [h1d] at hmax
        rcases max_cases (bs0.getD d (0, 0)).2 (y.getD d 0) with ⟨hc, _⟩ | ⟨hc, _⟩
        · exact Or.inl (by rw [hmax]; simpa using hc)
        · exact Or.inr ⟨y, by simp, by rw [hmax]; simpa using hc.symm⟩
      · exact Or.inr ⟨loc, by simp [hloc], hval⟩

theorem hullOf_attain {locs : List (List ℚ)} {L : ℕ} {bs : List (ℚ × ℚ)}
    (hlen : ∀ loc ∈ locs, loc.length = L) (hh : hullOf locs = some bs) :
    ∀ d < L,
      (∃ loc ∈ locs, loc.getD d 0 = (bs.getD d (0, 0)).1) ∧
      (∃ loc ∈ locs, loc.getD d 0 = (bs.getD d (0, 0)).2) := by
  intro d hd
  cases locs with
  | nil => simp [hullOf] at hh
  | cons y ys =>
    unfold hullOf at hh
    rw [List.foldl_cons, expandB_none] at hh
    have hylen : y.length = L := hlen y (by simp)
    have h0len : (y.map fun x => (x, x)).length = L := by simpa using hylen
    have h0d : ((y.map fun x => (x, x)).getD d (0, 0)) = (y.getD d 0, y.getD d 0) := by
      rw [List.getD_eq_getElem _ _ (by omega), List.getElem_map,
        List.getD_eq_getElem _ _ (by omega)]
    obtain ⟨hmin, hmax⟩ :=
      foldl_expandB_attain L ys _ bs (fun loc hl => hlen loc (by simp [hl])) h0len hh d hd
    constructor
    · rcases hmin with hmin | ⟨loc, hloc, hval⟩
      · exact ⟨y, by simp, by rw [hmin, h0d]⟩
      · exact ⟨loc, by simp [hloc], hval⟩
    · rcases hmax with hmax | ⟨loc, hloc, hval⟩
      · exact ⟨y, by simp, by rw [hmax, h0d]⟩
      · exact ⟨loc, by simp [hloc], hval⟩

theorem chooseDim_aux (D N : ℕ) (bs : List (ℚ × ℚ)) (hN : N ≤ D) :
    ∀ (l : List (ℕ × (ℚ × ℚ))) (acc : ℕ × ℚ),
      (∀ ip ∈ l, ip.1 < N) →
      (acc = (D, 0) ∨ (acc.1 < N ∧ 0 < acc.2 ∧
        acc.2 = (bs.getD acc.1 (0, 0)).2 - (bs.getD acc.1 (0, 0)).1)) →
      (∀ ip ∈ l, ip.2 = bs.getD ip.1 (0, 0)) →
      (l.foldl (fun best ip =>
          if best.2 < ip.2.2 - ip.2.1 then (ip.1, ip.2.2 - ip.2.1) else best) acc = (D, 0) ∧
        acc = (D, 0) ∧ ∀ ip ∈ l, ip.2.2 - ip.2.1 ≤ 0) ∨
      ((l.foldl (fun best ip =>
          if best.2 < ip.2.2 - ip.2.1 then (ip.1, ip.2.2 - ip.2.1) else best) acc).1 < N ∧
        0 < (l.foldl (fun best ip =>
          if best.2 < ip.2.2 - ip.2.1 then (ip.1, ip.2.2 - ip.2.1) else best) acc).2 ∧
        (l.foldl (fun best ip =>
          if best.2 < ip.2.2 - ip.2.1 then (ip.1, ip.2.2 - ip.2.1) else best) acc).2 =
          (bs.getD (l.foldl (fun best ip =>
            if best.2 < ip.2.2 - ip.2.1 then (ip.1, ip.2.2 - ip.2.1) else best) acc).1 (0, 0)).2 -
          (bs.getD (l.foldl (fun best ip =>
            if best.2 < ip.2.2 - ip.2.1 then (ip.1, ip.2.2 - ip.2.1) else best) acc).1 (0, 0)).1) := by
  intro l
  induction l with
  | nil =>
    intro acc _ hacc _
    rcases hacc with hacc | hacc
    · exact Or.inl ⟨hacc, hacc, by simp⟩
    · exact Or.inr (by simpa using hacc)
  | cons ip l ih =>
    intro acc hidx hacc hval
    rw [List.foldl_cons]
    by_cases hup : acc.2 < ip.2.2 - ip.2.1
    · rw [if_pos hup]
      have hip : (ip.1, ip.2.2 - ip.2.1) = (D, 0) ∨
          ((ip.1, ip.2.2 - ip.2.1).1 < N ∧ 0 < (ip.1, ip.2.2 - ip.2.1).2 ∧
            (ip.1, ip.2.2 - ip.2.1).2 =
              (bs.getD (ip.1, ip.2.2 - ip.2.1).1 (0, 0)).2 -
              (bs.getD (ip.1, ip.2.2 - ip.2.1).1 (0, 0)).1) := by
        refine Or.inr ⟨hidx ip (by simp), ?_, by rw [hval ip (by simp)]⟩
        rcases hacc with hacc | hacc
        · have : acc.2 = 0 := by rw [hacc]
          simpa [this] using hup
        · have := hacc.2.1
          simp only []
          linarith
      rcases ih _ (fun x hx => hidx x (by simp [hx])) hip
          (fun x hx => hval x (by simp [hx])) with ⟨hr, hupd, _⟩ | hr
      · exfalso
        rw [Prod.mk.injEq] at hupd
        have := hidx ip (by simp)
        omega
      · exact Or.inr hr
    · rw [if_neg hup]
      rcases hacc with hacc | hacc
      · rcases ih acc (fun x hx => hidx x (by simp [hx])) (Or.inl hacc)
            (fun x hx => hval x (by simp [hx])) with ⟨hr, _, hall⟩ | hr
        · refine Or.inl ⟨hr, hacc, fun x hx => ?_⟩
          rcases List.mem_cons.mp hx with hx | hx
          · subst hx
            have : acc.2 = 0 := by rw [hacc]
            rw [this] at hup
            linarith [not_lt.mp hup]
          · exact hall x hx
        · exact Or.inr hr
      · rcases ih acc (fun x hx => hidx x (by simp [hx])) (Or.inr hacc)
            (fun x hx => hval x (by simp [hx])) with ⟨_, hupd, _⟩ | hr
        · exfalso
          have h1 := hacc.1
          rw [hupd] at h1
          simp at h1
          omega
        · exact Or.inr hr

theorem chooseDim_spec (D : ℕ) (bs : List (ℚ × ℚ)) (hD : bs.length ≤ D) :
    ((chooseDim D (some bs)).1 = D ∧ ∀ pr ∈ bs, pr.2 - pr.1 ≤ 0) ∨
    ((chooseDim D (some bs)).1 < bs.length ∧
      0 < (chooseDim D (some bs)).2 ∧
      (chooseDim D (some bs)).2 =
        (bs.getD (chooseDim D (some bs)).1 (0, 0)).2 -
        (bs.getD (chooseDim D (some bs)).1 (0, 0)).1) := by
  have henum1 : ∀ ip ∈ bs.enum, ip.1 < bs.length := by
    intro ip hip
    rw [List.mem_enum_iff_getElem?] at hip
    exact (List.getElem?_eq_some_iff.mp hip).1
  have henum2 : ∀ ip ∈ bs.enum, ip.2 = bs.getD ip.1 (0, 0) := by
    intro ip hip
    rw [List.mem_enum_iff_getElem?] at hip
    obtain ⟨h, hv⟩ := List.getElem?_eq_some_iff.mp hip
    rw [List.getD_eq_getElem _ _ h, hv]
  have hcd : chooseDim D (some bs) = bs.enum.foldl
      (fun best ip => if best.2 < ip.2.2 - ip.2.1 then (ip.1, ip.2.2 - ip.2.1) else best)
      (D, 0) := rfl
  have := chooseDim_aux D bs.length bs hD bs.enum (D, 0) henum1 (Or.inl rfl) henum2
  rw [hcd]
  rcases this with ⟨hr, _, hall⟩ | hr
  · refine Or.inl ⟨by rw [hr], fun pr hpr => ?_⟩
    obtain ⟨i, hi, hv⟩ := List.mem_iff_getElem.mp hpr
    have : (i, pr) ∈ bs.enum := by
      rw [List.mem_enum_iff_getElem?]
      simp [List.getElem?_eq_getElem hi, hv]
    simpa using hall (i, pr) this
  · exact Or.inr hr

end BoxLemmas

section SplitLemmas

variable {α : Type}

theorem foldl_add_general (l : List (LocationPayload α)) :
    ∀ n : Node α, l.foldl Node.add n =
      { m_entries := n.m_entries + l.length
        m_splitDimension := n.m_splitDimension
        m_splitValue := n.m_splitValue
        m_bounds := (l.map LocationPayload.location).foldl expandB n.m_bounds
        m_children := n.m_children
        m_locationPayloads := n.m_locationPayloads ++ l } := by
  induction l with
  | nil => intro n; simp
  | cons x xs ih =>
    intro n
    rw [List.foldl_cons, ih]
    simp [Node.add, Node.expandBounds]
    omega

theorem leftNodeOf_eq (D : ℕ) (st : KDTree α) (i : ℕ) :
    leftNodeOf D st i =
      { m_entries := (leftOf D st i).length
        m_splitDimension := D
        m_splitValue := 0
        m_bounds := hullOf ((leftOf D st i).map LocationPayload.location)
        m_children := (0, 0)
        m_locationPayloads := st.m_bucketRecycle ++ leftOf D st i } := by
  rw [leftNodeOf, foldl_add_general]
  simp [freshNode, hullOf]

theorem rightNodeOf_eq (D : ℕ) (st : KDTree α) (i : ℕ) :
    rightNodeOf D st i =
      { m_entries := (rightOf D st i).length
        m_splitDimension := D
        m_splitValue := 0
        m_bounds := hullOf ((rightOf D st i).map LocationPayload.location)
        m_children := (0, 0)
        m_locationPayloads := rightOf D st i } := by
  rw [rightNodeOf, foldl_add_general]
  simp [freshNode, hullOf]

theorem split_width_fail_eq (D : ℕ) (st : KDTree α) (i : ℕ)
    (hsel : (splitSel D st i).1 = D) :
    split D st i = (false,
      { st with
        m_nodes :=
          st.m_nodes.set i
            ({ st.m_nodes.getD i (freshNode D []) with m_splitDimension := D }) }) := by
  rw [split, if_pos hsel]

theorem split_rollback_eq (D : ℕ) (st : KDTree α) (i : ℕ)
    (hsel : (splitSel D st i).1 ≠ D)
    (hdeg : (leftNodeOf D st i).m_entries = 0 ∨ (rightNodeOf D st i).m_entries = 0) :
    split D st i = (false,
      { st with
        m_nodes :=
          st.m_nodes.set i
            ({ st.m_nodes.getD i (freshNode D []) with
               m_splitDimension := D, m_splitValue := 0, m_children := (0, 0) })
        m_bucketRecycle := st.m_bucketRecycle ++ leftOf D st i }) := by
  rw [split, if_neg hsel, if_pos hdeg]

theorem split_success_eq (D : ℕ) (st : KDTree α) (i : ℕ)
    (hsel : (splitSel D st i).1 ≠ D)
    (hdeg : ¬((leftNodeOf D st i).m_entries = 0 ∨ (rightNodeOf D st i).m_entries = 0)) :
    split D st i = (true,
      { st with
        m_nodes :=
          (st.m_nodes.set i
            ({ st.m_nodes.getD i (freshNode D []) with
               m_splitDimension := (splitSel D st i).1
               m_splitValue := splitMid D st i
               m_children := (st.m_nodes.length, st.m_nodes.length + 1)
               m_locationPayloads := [] })) ++ [leftNodeOf D st i, rightNodeOf D st i]
        m_bucketRecycle := [] }) := by
  rw [split, if_neg hsel, if_neg hdeg]

theorem leftOf_append_rightOf_perm (D : ℕ) (st : KDTree α) (i : ℕ) :
    (leftOf D st i ++ rightOf D st i).Perm
      (st.m_nodes.getD i (freshNode D [])).m_locationPayloads := by
  exact List.filter_append_perm _ _

theorem set_getD_self {β : Type} (l : List β) (i : ℕ) (d : β) (h : i < l.length) :
    l.set i (l.getD i d) = l := by
  apply List.ext_getElem
  · simp
  · intro j h1 h2
    rw [List.getElem_set]
    split
    · rename_i hij
      subst hij
      exact (List.getD_eq_getElem _ _ h).symm ▸ rfl
    · rfl

/-- Rollback cannot happen on a node whose bounds are exactly the hull of its
bucket and a dimension of positive width was selected: with exact arithmetic
the midpoint lies strictly between the attained minimum and maximum. -/
theorem rollback_unreachable (D : ℕ) (st : KDTree α) (i : ℕ)
    (htight : (st.m_nodes.getD i (freshNode D [])).m_bounds =
      hullOf ((st.m_nodes.getD i (freshNode D [])).m_locationPayloads.map
        LocationPayload.location))
    (hdims : ∀ lp ∈ (st.m_nodes.getD i (freshNode D [])).m_locationPayloads,
      lp.location.length = D)
    (hsel : (splitSel D st i).1 ≠ D) :
    ¬((leftNodeOf D st i).m_entries = 0 ∨ (rightNodeOf D st i).m_entries = 0) := by
  have hlenmap : ∀ loc ∈ (st.m_nodes.getD i (freshNode D [])).m_locationPayloads.map
      LocationPayload.location, loc.length = D := by
    intro loc hl
    obtain ⟨lp, hlp, hv⟩ := List.mem_map.mp hl
    rw [← hv]
    exact hdims lp hlp
  obtain ⟨bs, hbs⟩ : ∃ bs, (st.m_nodes.getD i (freshNode D [])).m_bounds = some bs := by
    cases hb : (st.m_nodes.getD i (freshNode D [])).m_bounds with
    | none =>
      exfalso
      apply hsel
      rw [splitSel, hb]
      rfl
    | some bs => exact ⟨bs, rfl⟩
  have hhull : hullOf ((st.m_nodes.getD i (freshNode D [])).m_locationPayloads.map
      LocationPayload.location) = some bs := htight ▸ hbs
  have hbslen : bs.length = D := by
    cases hne : (st.m_nodes.getD i (freshNode D [])).m_locationPayloads with
    | nil =>
      exfalso
      rw [hne] at hhull
      simp [hullOf] at hhull
    | cons lp rest =>
      obtain ⟨bs', hbs', hlen', _⟩ :=
        @hullOf_contains _ D lp.location hlenmap
          (by rw [hne]; simp)
      rw [hhull] at hbs'
      injection hbs' with hbs'
      rw [hbs']
      exact hlen'
  have hsel_eq : splitSel D st i = chooseDim D (some bs) := by
    rw [splitSel, hbs]
  rcases chooseDim_spec D bs (by omega) with ⟨h1, _⟩ | ⟨h1, h2, h3⟩
  · exact absurd (hsel_eq ▸ h1) hsel
  · -- positive width on the selected dimension
    have hwidth : 0 < (bs.getD (chooseDim D (some bs)).1 (0, 0)).2 -
        (bs.getD (chooseDim D (some bs)).1 (0, 0)).1 := h3 ▸ h2
    have hmid : splitMid D st i =
        ((bs.getD (chooseDim D (some bs)).1 (0, 0)).1 +
         (bs.getD (chooseDim D (some bs)).1 (0, 0)).2) / 2 := by
      rw [splitMid, hbs, hsel_eq]
      rfl
    have hmid_lo : (bs.getD (chooseDim D (some bs)).1 (0, 0)).1 < splitMid D st i := by
      rw [hmid]; linarith
    have hmid_hi : splitMid D st i < (bs.getD (chooseDim D (some bs)).1 (0, 0)).2 := by
      rw [hmid]; linarith
    obtain ⟨hminA, hmaxA⟩ :=
      @hullOf_attain _ D _ hlenmap hhull (chooseDim D (some bs)).1 (by omega)
    obtain ⟨locMin, hlocMin, hvalMin⟩ := hminA
    obtain ⟨locMax, hlocMax, hvalMax⟩ := hmaxA
    obtain ⟨lpMin, hlpMin, hvMin⟩ := List.mem_map.mp hlocMin
    obtain ⟨lpMax, hlpMax, hvMax⟩ := List.mem_map.mp hlocMax
    rintro (hdeg | hdeg)
    · rw [leftNodeOf_eq] at hdeg
      simp only [List.length_eq_zero] at hdeg
      have hmemL : lpMin ∈ leftOf D st i := by
        rw [leftOf, List.mem_filter]
        refine ⟨hlpMin, ?_⟩
        rw [hsel_eq]
        simp only [decide_eq_true_eq]
        rw [← hvMin] at hvalMin
        rw [hvalMin]
        exact hmid_lo
      rw [hdeg] at hmemL
      simp at hmemL
    · rw [rightNodeOf_eq] at hdeg
      simp only [List.length_eq_zero] at hdeg
      have hmemR : lpMax ∈ rightOf D st i := by
        rw [rightOf, List.mem_filter]
        refine ⟨hlpMax, ?_⟩
        rw [hsel_eq]
        simp only [Bool.not_eq_eq_eq_not, Bool.not_true, decide_eq_false_iff_not, not_lt]
        rw [← hvMax] at hvalMax
        rw [hvalMax]
        exact le_of_lt hmid_hi
      rw [hdeg] at hmemR
      simp at hmemR

theorem perm_flatMap_congr {β γ : Type} (L : List β) {f g : β → List γ}
    (h : ∀ x ∈ L, (f x).Perm (g x)) : (L.flatMap f).Perm (L.flatMap g) := by
  induction L with
  | nil => simp
  | cons x xs ih =>
    rw [List.flatMap_cons, List.flatMap_cons]
    exact (h x (by simp)).append (ih fun y hy => h y (by simp [hy]))

theorem splitArena_len (D : ℕ) (nodes : List (Node α)) (i : ℕ) (nInt l r : Node α) :
    (splitArena D nodes i nInt l r).length = nodes.length + 2 := by
  simp [splitArena]

theorem splitArena_nodeAt_old (D : ℕ) {nodes : List (Node α)} {i j : ℕ} {nInt l r : Node α}
    (hj : j < nodes.length) (hne : j ≠ i) :
    nodeAt D (splitArena D nodes i nInt l r) j = nodeAt D nodes j := by
  rw [splitArena, nodeAt_append_left D (by simpa using hj), nodeAt_set_ne D _ (fun h => hne h.symm)]

theorem splitArena_nodeAt_i (D : ℕ) {nodes : List (Node α)} {i : ℕ} {nInt l r : Node α}
    (hi : i < nodes.length) :
    nodeAt D (splitArena D nodes i nInt l r) i = nInt := by
  rw [splitArena, nodeAt_append_left D (by simpa using hi), nodeAt_set_self D _ hi]

theorem splitArena_nodeAt_l (D : ℕ) (nodes : List (Node α)) (i : ℕ) (nInt l r : Node α) :
    nodeAt D (splitArena D nodes i nInt l r) nodes.length = l := by
  rw [splitArena, nodeAt_append_right D (by simp)]
  simp [nodeAt]

theorem splitArena_nodeAt_r (D : ℕ) (nodes : List (Node α)) (i : ℕ) (nInt l r : Node α) :
    nodeAt D (splitArena D nodes i nInt l r) (nodes.length + 1) = r := by
  rw [splitArena, nodeAt_append_right D (by simp)]
  simp [nodeAt]

theorem splitArena_nodeAt_oob (D : ℕ) (nodes : List (Node α)) (i : ℕ) (nInt l r : Node α)
    {j : ℕ} (hj : nodes.length + 2 ≤ j) :
    nodeAt D (splitArena D nodes i nInt l r) j = freshNode D [] := by
  apply nodeAt_oob
  simpa [splitArena] using hj

theorem splitArena_structOk (D : ℕ) {nodes : List (Node α)} (hs : StructOk D nodes)
    {i : ℕ} {nInt l r : Node α} (hi : i < nodes.length)
    (hInt : nInt.m_splitDimension ≠ D)
    (hch : nInt.m_children = (nodes.length, nodes.length + 1))
    (hl : l.m_splitDimension = D) (hr : r.m_splitDimension = D) :
    StructOk D (splitArena D nodes i nInt l r) := by
  intro j hj hint
  rw [splitArena_len] at hj
  by_cases hji : j = i
  · subst hji
    rw [splitArena_nodeAt_i D hi, hch, splitArena_len]
    exact ⟨by simpa using hi, by simp, by simp⟩
  · rcases Nat.lt_or_ge j nodes.length with hlt | hge
    · rw [splitArena_nodeAt_old D hlt hji] at hint ⊢
      obtain ⟨h1, h2, h3⟩ := hs j hlt hint
      refine ⟨h1, h2, ?_⟩
      rw [splitArena_len]
      omega
    · exfalso
      rcases Nat.lt_or_ge j (nodes.length + 2) with hlt2 | hge2
      · have : j = nodes.length ∨ j = nodes.length + 1 := by omega
        rcases this with hj' | hj'
        · subst hj'
          rw [splitArena_nodeAt_l] at hint
          exact hint hl
        · subst hj'
          rw [splitArena_nodeAt_r] at hint
          exact hint hr
      · rw [splitArena_nodeAt_oob D nodes i nInt l r hge2] at hint
        exact hint rfl

theorem subIdx_splitArena (D : ℕ) {nodes : List (Node α)} (hs : StructOk D nodes)
    {i : ℕ} {nInt l r : Node α} (hi : i < nodes.length)
    (hleaf : (nodeAt D nodes i).m_splitDimension = D)
    (hInt : nInt.m_splitDimension ≠ D)
    (hch : nInt.m_children = (nodes.length, nodes.length + 1))
    (hl : l.m_splitDimension = D) (hr : r.m_splitDimension = D) :
    ∀ f j, nodes.length - j < f →
      subIdx D (splitArena D nodes i nInt l r) f j =
        (subIdx D nodes f j).flatMap (splitExp i nodes.length) := by
  intro f
  induction f with
  | zero => intro j hf; omega
  | succ f ih =>
    intro j hf
    rcases Nat.lt_or_ge j nodes.length with hjlt | hjge
    · by_cases hji : j = i
      · rw [hji] at hf ⊢
        rw [subIdx_leaf D nodes _ hleaf]
        have hnew : nodeAt D (splitArena D nodes i nInt l r) i = nInt :=
          splitArena_nodeAt_i D hi
        rw [subIdx_internal D _ _ (by rw [hnew]; exact hInt), hnew, hch]
        have hf1 : 1 ≤ f := by omega
        match f, hf1 with
        | f + 1, _ =>
          rw [subIdx_leaf D _ _ (by rw [splitArena_nodeAt_l]; exact hl),
            subIdx_leaf D _ _ (by rw [splitArena_nodeAt_r]; exact hr)]
          simp [splitExp]
      · have hnew : nodeAt D (splitArena D nodes i nInt l r) j = nodeAt D nodes j :=
          splitArena_nodeAt_old D hjlt hji
        by_cases hjleaf : (nodeAt D nodes j).m_splitDimension = D
        · rw [subIdx_leaf D nodes _ hjleaf, subIdx_leaf D _ _ (by rw [hnew]; exact hjleaf)]
          simp [splitExp, hji]
        · obtain ⟨h1, h2, h3⟩ := hs j hjlt hjleaf
          rw [subIdx_internal D nodes _ hjleaf,
            subIdx_internal D _ _ (by rw [hnew]; exact hjleaf), hnew]
          rw [List.flatMap_cons, List.flatMap_append]
          rw [ih _ (by omega), ih _ (by omega)]
          simp [splitExp, hji]
    · have hold : nodeAt D nodes j = freshNode D [] := nodeAt_oob D hjge
      rw [subIdx_leaf D nodes _ (by rw [hold]; rfl)]
      have hji : j ≠ i := by omega
      rcases Nat.lt_or_ge j (nodes.length + 2) with hlt2 | hge2
      · have : j = nodes.length ∨ j = nodes.length + 1 := by omega
        rcases this with hj' | hj'
        · subst hj'
          rw [subIdx_leaf D _ _ (by rw [splitArena_nodeAt_l]; exact hl)]
          simp [splitExp, hji]
        · subst hj'
          rw [subIdx_leaf D _ _ (by rw [splitArena_nodeAt_r]; exact hr)]
          simp [splitExp, hji]
      · rw [subIdx_leaf D _ _ (by rw [splitArena_nodeAt_oob D nodes i nInt l r hge2]; rfl)]
        simp [splitExp, hji]

theorem subtreeIdx_splitArena (D : ℕ) {nodes : List (Node α)} (hs : StructOk D nodes)
    {i : ℕ} {nInt l r : Node α} (hi : i < nodes.length)
    (hleaf : (nodeAt D nodes i).m_splitDimension = D)
    (hInt : nInt.m_splitDimension ≠ D)
    (hch : nInt.m_children = (nodes.length, nodes.length + 1))
    (hl : l.m_splitDimension = D) (hr : r.m_splitDimension = D) :
    ∀ j, subtreeIdx D (splitArena D nodes i nInt l r) j =
      (subtreeIdx D nodes j).flatMap (splitExp i nodes.length) := by
  intro j
  rw [subtreeIdx, splitArena_len,
    subIdx_splitArena D hs hi hleaf hInt hch hl hr (nodes.length + 2 + 1) j (by omega),
    subIdx_stable D hs (nodes.length + 2 + 1) (nodes.length + 1) j (by omega) (by omega)]
  rfl

theorem node_update_splitDim_self {D : ℕ} (n : Node α) (h : n.m_splitDimension = D) :
    ({ n with m_splitDimension := D } : Node α) = n := by
  cases n
  simp_all

theorem split_fail_id (D : ℕ) {st : KDTree α} {i : ℕ}
    (hleaf : (nodeAt D st.m_nodes i).m_splitDimension = D)
    (hi : i < st.m_nodes.length)
    (htight : (st.m_nodes.getD i (freshNode D [])).m_bounds =
      hullOf ((st.m_nodes.getD i (freshNode D [])).m_locationPayloads.map
        LocationPayload.location))
    (hdims : ∀ lp ∈ (st.m_nodes.getD i (freshNode D [])).m_locationPayloads,
      lp.location.length = D)
    (hfail : (split D st i).1 = false) :
    (split D st i).2 = st := by
  by_cases hsel : (splitSel D st i).1 = D
  · rw [split_width_fail_eq D st i hsel]
    have heq : ({ st.m_nodes.getD i (freshNode D []) with m_splitDimension := D } : Node α) =
        st.m_nodes.getD i (freshNode D []) :=
      node_update_splitDim_self _ hleaf
    simp only [heq, set_getD_self _ _ _ hi]
  · exfalso
    have hdeg := rollback_unreachable D st i htight hdims hsel
    rw [split_success_eq D st i hsel hdeg] at hfail
    simp at hfail

theorem split_success_nodes (D : ℕ) (st : KDTree α) (i : ℕ)
    (hsel : (splitSel D st i).1 ≠ D)
    (hdeg : ¬((leftNodeOf D st i).m_entries = 0 ∨ (rightNodeOf D st i).m_entries = 0)) :
    (split D st i).2 = { st with
      m_nodes := splitArena D st.m_nodes i (splitInternalNode D st i)
        (leftNodeOf D st i) (rightNodeOf D st i)
      m_bucketRecycle := [] } := by
  rw [split_success_eq D st i hsel hdeg]
  rfl

theorem mem_flatMap_splitExp {L : List ℕ} {i len y : ℕ}
    (h : y ∈ L.flatMap (splitExp i len)) :
    y ∈ L ∨ (i ∈ L ∧ (y = len ∨ y = len + 1)) := by
  obtain ⟨x, hx, hy⟩ := List.mem_flatMap.mp h
  by_cases hxi : x = i
  · subst hxi
    rw [splitExp, if_pos rfl] at hy
    simp at hy
    rcases hy with hy | hy | hy
    · exact Or.inl (hy ▸ hx)
    · exact Or.inr ⟨hx, Or.inl hy⟩
    · exact Or.inr ⟨hx, Or.inr hy⟩
  · rw [splitExp, if_neg hxi] at hy
    simp at hy
    exact Or.inl (hy ▸ hx)

theorem nodup_flatMap_splitExp {L : List ℕ} {i len : ℕ}
    (hnd : L.Nodup) (hlt : ∀ x ∈ L, x < len) :
    (L.flatMap (splitExp i len)).Nodup := by
  induction L with
  | nil => simp
  | cons x xs ih =>
    rw [List.flatMap_cons]
    rcases List.nodup_cons.mp hnd with ⟨hx, hxs⟩
    apply List.Nodup.append
    · by_cases hxi : x = i
      · subst hxi
        rw [splitExp, if_pos rfl]
        have := hlt x (by simp)
        simp
        omega
      · rw [splitExp, if_neg hxi]
        simp
    · exact ih hxs (fun z hz => hlt z (by simp [hz]))
    · intro z hz1 hz2
      rcases mem_flatMap_splitExp hz2 with hz | ⟨hi3, hz⟩
      · by_cases hxi : x = i
        · subst hxi
          rw [splitExp, if_pos rfl] at hz1
          simp at hz1
          rcases hz1 with hz1 | hz1 | hz1
          · exact hx (hz1 ▸ hz)
          · exact absurd (hlt z (by simp [hz])) (by omega)
          · exact absurd (hlt z (by simp [hz])) (by omega)
        · rw [splitExp, if_neg hxi] at hz1
          simp at hz1
          exact hx (hz1 ▸ hz)
      · by_cases hxi : x = i
        · subst hxi
          exact hx hi3
        · rw [splitExp, if_neg hxi] at hz1
          simp at hz1
          subst hz1
          have := hlt z (by simp)
          omega

theorem splitInternalNode_splitDimension (D : ℕ) (st : KDTree α) (i : ℕ) :
    (splitInternalNode D st i).m_splitDimension = (splitSel D st i).1 := rfl

theorem splitInternalNode_children (D : ℕ) (st : KDTree α) (i : ℕ) :
    (splitInternalNode D st i).m_children = (st.m_nodes.length, st.m_nodes.length + 1) := rfl

theorem splitInternalNode_entries (D : ℕ) (st : KDTree α) (i : ℕ) :
    (splitInternalNode D st i).m_entries = (st.m_nodes.getD i (freshNode D [])).m_entries := rfl

theorem splitInternalNode_bounds (D : ℕ) (st : KDTree α) (i : ℕ) :
    (splitInternalNode D st i).m_bounds = (st.m_nodes.getD i (freshNode D [])).m_bounds := rfl

theorem leftNodeOf_splitDimension (D : ℕ) (st : KDTree α) (i : ℕ) :
    (leftNodeOf D st i).m_splitDimension = D := by rw [leftNodeOf_eq]

theorem rightNodeOf_splitDimension (D : ℕ) (st : KDTree α) (i : ℕ) :
    (rightNodeOf D st i).m_splitDimension = D := by rw [rightNodeOf_eq]

theorem subEnt_splitArena_perm (D : ℕ) {st : KDTree α} {i : ℕ}
    (hs : StructOk D st.m_nodes)
    (hi : i < st.m_nodes.length)
    (hleaf : (nodeAt D st.m_nodes i).m_splitDimension = D)
    (hsel : (splitSel D st i).1 ≠ D)
    (hrec : st.m_bucketRecycle = [])
    (hll : (nodeAt D st.m_nodes i).m_locationPayloads.length =
      (nodeAt D st.m_nodes i).m_entries)
    {j : ℕ} (hj : j < st.m_nodes.length) :
    (subEnt D (splitArena D st.m_nodes i (splitInternalNode D st i)
      (leftNodeOf D st i) (rightNodeOf D st i)) j).Perm (subEnt D st.m_nodes j) := by
  rw [subEnt,
    subtreeIdx_splitArena D hs hi hleaf
      (by rw [splitInternalNode_splitDimension]; exact hsel)
      (splitInternalNode_children D st i)
      (leftNodeOf_splitDimension D st i) (rightNodeOf_splitDimension D st i) j,
    List.flatMap_assoc, subEnt]
  apply perm_flatMap_congr
  intro x hx
  have hxlt : x < st.m_nodes.length := subtreeIdx_mem_lt D hs hj hx
  by_cases hxi : x = i
  · rw [hxi]
    rw [splitExp, if_pos rfl]
    have hcI : contribAt D (splitArena D st.m_nodes i (splitInternalNode D st i)
        (leftNodeOf D st i) (rightNodeOf D st i)) i = [] := by
      rw [contribAt]
      simp only [splitArena_nodeAt_i D hi, splitInternalNode_splitDimension]
      rw [if_neg hsel]
    have hcL : contribAt D (splitArena D st.m_nodes i (splitInternalNode D st i)
        (leftNodeOf D st i) (rightNodeOf D st i)) st.m_nodes.length = leftOf D st i := by
      rw [contribAt]
      simp only [splitArena_nodeAt_l]
      rw [if_pos (leftNodeOf_splitDimension D st i), leftNodeOf_eq]
      simp [hrec]
    have hcR : contribAt D (splitArena D st.m_nodes i (splitInternalNode D st i)
        (leftNodeOf D st i) (rightNodeOf D st i)) (st.m_nodes.length + 1) =
        rightOf D st i := by
      rw [contribAt]
      simp only [splitArena_nodeAt_r]
      rw [if_pos (rightNodeOf_splitDimension D st i), rightNodeOf_eq]
      simp
    have hcOld : contribAt D st.m_nodes i = (nodeAt D st.m_nodes i).m_locationPayloads := by
      rw [contribAt, if_pos hleaf, ← hll, List.take_length]
    rw [show ([i, st.m_nodes.length, st.m_nodes.length + 1].flatMap
        (contribAt D (splitArena D st.m_nodes i (splitInternalNode D st i)
          (leftNodeOf D st i) (rightNodeOf D st i)))) =
      contribAt D (splitArena D st.m_nodes i (splitInternalNode D st i)
          (leftNodeOf D st i) (rightNodeOf D st i)) i ++
      (contribAt D (splitArena D st.m_nodes i (splitInternalNode D st i)
          (leftNodeOf D st i) (rightNodeOf D st i)) st.m_nodes.length ++
       (contribAt D (splitArena D st.m_nodes i (splitInternalNode D st i)
          (leftNodeOf D st i) (rightNodeOf D st i)) (st.m_nodes.length + 1) ++ []))
      from rfl]
    rw [hcI, hcL, hcR, hcOld]
    simp only [List.nil_append, List.append_nil]
    exact leftOf_append_rightOf_perm D st i
  · rw [splitExp, if_neg hxi]
    have : contribAt D (splitArena D st.m_nodes i (splitInternalNode D st i)
        (leftNodeOf D st i) (rightNodeOf D st i)) x = contribAt D st.m_nodes x := by
      rw [contribAt, contribAt, splitArena_nodeAt_old D hxlt hxi]
    simp [this]

theorem splitArena_entries_preserved (D : ℕ) (st : KDTree α) (i : ℕ)
    {j : ℕ} (hj : j < st.m_nodes.length) (hi : i < st.m_nodes.length) :
    (nodeAt D (splitArena D st.m_nodes i (splitInternalNode D st i)
      (leftNodeOf D st i) (rightNodeOf D st i)) j).m_entries =
    (nodeAt D st.m_nodes j).m_entries := by
  by_cases hji : j = i
  · rw [hji, splitArena_nodeAt_i D hi, splitInternalNode_entries]
    rfl
  · rw [splitArena_nodeAt_old D hj hji]

theorem nodeAt_def (D : ℕ) (nodes : List (Node α)) (i : ℕ) :
    nodeAt D nodes i = nodes.getD i (freshNode D []) := rfl

theorem hullOf_length {locs : List (List ℚ)} {L : ℕ} {bs : List (ℚ × ℚ)}
    (hlen : ∀ loc ∈ locs, loc.length = L) (hh : hullOf locs = some bs) :
    bs.length = L := by
  cases locs with
  | nil => simp [hullOf] at hh
  | cons y ys =>
    obtain ⟨bs', hh', hl', _⟩ := @hullOf_contains _ L y hlen (by simp)
    rw [hh] at hh'
    injection hh' with hh'
    rw [hh']
    exact hl'

theorem inv_boundsAll (D B : ℕ) {st : KDTree α} (hInv : Inv D B st) {j : ℕ}
    (hj : j < st.m_nodes.length) :
    ∀ lp ∈ subEnt D st.m_nodes j, ∃ bs, (nodeAt D st.m_nodes j).m_bounds = some bs ∧
      inBox bs lp.location ∧ bs.length = D := by
  intro lp hlp
  by_cases hjleaf : (nodeAt D st.m_nodes j).m_splitDimension = D
  · rw [subEnt_leaf D st.m_nodes hjleaf] at hlp
    have hmem : lp ∈ (nodeAt D st.m_nodes j).m_locationPayloads :=
      List.take_subset _ _ hlp
    have hdims : ∀ loc ∈ (nodeAt D st.m_nodes j).m_locationPayloads.map
        LocationPayload.location, loc.length = D := by
      intro loc hl
      obtain ⟨lp', hlp', hv⟩ := List.mem_map.mp hl
      rw [← hv]
      exact hInv.dimsBucket j hj lp' hlp'
    obtain ⟨bs, hh, hblen, hbox⟩ := @hullOf_contains _ D lp.location hdims
      (List.mem_map_of_mem _ hmem)
    refine ⟨bs, ?_, hbox, hblen⟩
    rw [hInv.tight j hj hjleaf]
    exact hh
  · obtain ⟨bs, hbs, hbox⟩ := hInv.boundsI j hj hjleaf
    exact ⟨bs, hbs, hbox lp hlp, hInv.dimsBounds j hj bs hbs⟩

theorem split_success_inv (D B : ℕ) {st : KDTree α} {i : ℕ} (hInv : Inv D B st)
    (hi : i < st.m_nodes.length)
    (hleaf : (nodeAt D st.m_nodes i).m_splitDimension = D)
    (hsel : (splitSel D st i).1 ≠ D)
    (hdeg : ¬((leftNodeOf D st i).m_entries = 0 ∨ (rightNodeOf D st i).m_entries = 0)) :
    Inv D B (split D st i).2 := by
  rw [split_success_nodes D st i hsel hdeg]
  push_neg at hdeg
  obtain ⟨hdegL, hdegR⟩ := hdeg
  have hrec := hInv.recycleNil
  have hll := hInv.leafLen i hi hleaf
  have hs := hInv.struct
  have hIntd : (splitInternalNode D st i).m_splitDimension ≠ D := by
    rw [splitInternalNode_splitDimension]; exact hsel
  have hchn := splitInternalNode_children D st i
  have hld := leftNodeOf_splitDimension D st i
  have hrd := rightNodeOf_splitDimension D st i
  have hstruct2 := splitArena_structOk D hs hi hIntd hchn hld hrd
  have hsub := subtreeIdx_splitArena D hs hi hleaf hIntd hchn hld hrd
  have hperm : ∀ {j : ℕ}, j < st.m_nodes.length →
      (subEnt D (splitArena D st.m_nodes i (splitInternalNode D st i)
        (leftNodeOf D st i) (rightNodeOf D st i)) j).Perm (subEnt D st.m_nodes j) :=
    fun {j} hj => subEnt_splitArena_perm D hs hi hleaf hsel hrec hll hj
  have hent : ∀ {j : ℕ}, j < st.m_nodes.length →
      (nodeAt D (splitArena D st.m_nodes i (splitInternalNode D st i)
        (leftNodeOf D st i) (rightNodeOf D st i)) j).m_entries =
      (nodeAt D st.m_nodes j).m_entries :=
    fun {j} hj => splitArena_entries_preserved D st i hj hi
  have hLbucket : (leftNodeOf D st i).m_locationPayloads = leftOf D st i := by
    rw [leftNodeOf_eq]
    simp [hrec]
  have hRbucket : (rightNodeOf D st i).m_locationPayloads = rightOf D st i := by
    rw [rightNodeOf_eq]
  have hLentries : (leftNodeOf D st i).m_entries = (leftOf D st i).length := by
    rw [leftNodeOf_eq]
  have hRentries : (rightNodeOf D st i).m_entries = (rightOf D st i).length := by
    rw [rightNodeOf_eq]
  have hsum : (leftOf D st i).length + (rightOf D st i).length =
      (nodeAt D st.m_nodes i).m_locationPayloads.length := by
    have h := (leftOf_append_rightOf_perm D st i).length_eq
    rw [List.length_append] at h
    exact h
  have hbne : (nodeAt D st.m_nodes i).m_locationPayloads ≠ [] := by
    intro hnil
    apply hdegL
    rw [hLentries, leftOf]
    rw [nodeAt_def] at hnil
    rw [hnil]
    simp
  have hdimsI : ∀ loc ∈ (nodeAt D st.m_nodes i).m_locationPayloads.map
      LocationPayload.location, loc.length = D := by
    intro loc hl
    obtain ⟨lp', hlp', hv⟩ := List.mem_map.mp hl
    rw [← hv]
    exact hInv.dimsBucket i hi lp' hlp'
  have hsubL : leftOf D st i ⊆ (nodeAt D st.m_nodes i).m_locationPayloads := by
    rw [leftOf, nodeAt_def]
    exact (List.filter_sublist _).subset
  have hsubR : rightOf D st i ⊆ (nodeAt D st.m_nodes i).m_locationPayloads := by
    rw [rightOf, nodeAt_def]
    exact (List.filter_sublist _).subset
  constructor
  case lenPos => rw [splitArena_len]; omega
  case struct => exact hstruct2
  case nodup0 =>
    rw [hsub 0]
    exact nodup_flatMap_splitExp hInv.nodup0
      (fun x hx => subtreeIdx_mem_lt D hs hInv.lenPos hx)
  case complete =>
    intro j hj
    rw [splitArena_len] at hj
    rw [hsub 0]
    rw [List.mem_flatMap]
    rcases Nat.lt_or_ge j st.m_nodes.length with hjlt | hjge
    · refine ⟨j, hInv.complete j hjlt, ?_⟩
      by_cases hji : j = i
      · rw [hji, splitExp, if_pos rfl]; simp
      · rw [splitExp, if_neg hji]; simp
    · refine ⟨i, hInv.complete i hi, ?_⟩
      rw [splitExp, if_pos rfl]
      have : j = st.m_nodes.length ∨ j = st.m_nodes.length + 1 := by omega
      rcases this with h | h <;> rw [h] <;> simp
  case leafLen =>
    intro j hj hjleaf
    rw [splitArena_len] at hj
    rcases Nat.lt_or_ge j st.m_nodes.length with hjlt | hjge
    · by_cases hji : j = i
      · exfalso
        rw [hji, splitArena_nodeAt_i D hi] at hjleaf
        exact hIntd hjleaf
      · rw [splitArena_nodeAt_old D hjlt hji] at hjleaf ⊢
        exact hInv.leafLen j hjlt hjleaf
    · have : j = st.m_nodes.length ∨ j = st.m_nodes.length + 1 := by omega
      rcases this with h | h
      · rw [h, splitArena_nodeAt_l, hLbucket, hLentries]
      · rw [h, splitArena_nodeAt_r, hRbucket, hRentries]
  case leafDefaults =>
    intro j hj hjleaf
    rw [splitArena_len] at hj
    rcases Nat.lt_or_ge j st.m_nodes.length with hjlt | hjge
    · by_cases hji : j = i
      · exfalso
        rw [hji, splitArena_nodeAt_i D hi] at hjleaf
        exact hIntd hjleaf
      · rw [splitArena_nodeAt_old D hjlt hji] at hjleaf ⊢
        exact hInv.leafDefaults j hjlt hjleaf
    · have : j = st.m_nodes.length ∨ j = st.m_nodes.length + 1 := by omega
      rcases this with h | h
      · rw [h, splitArena_nodeAt_l, leftNodeOf_eq]
        exact ⟨rfl, rfl⟩
      · rw [h, splitArena_nodeAt_r, rightNodeOf_eq]
        exact ⟨rfl, rfl⟩
  case tight =>
    intro j hj hjleaf
    rw [splitArena_len] at hj
    rcases Nat.lt_or_ge j st.m_nodes.length with hjlt | hjge
    · by_cases hji : j = i
      · exfalso
        rw [hji, splitArena_nodeAt_i D hi] at hjleaf
        exact hIntd hjleaf
      · rw [splitArena_nodeAt_old D hjlt hji] at hjleaf ⊢
        exact hInv.tight j hjlt hjleaf
    · have : j = st.m_nodes.length ∨ j = st.m_nodes.length + 1 := by omega
      rcases this with h | h
      · rw [h, splitArena_nodeAt_l, hLbucket, leftNodeOf_eq]
      · rw [h, splitArena_nodeAt_r, hRbucket, rightNodeOf_eq]
  case sizeL =>
    intro j hj hjint
    rw [splitArena_len] at hj
    rcases Nat.lt_or_ge j st.m_nodes.length with hjlt | hjge
    · by_cases hji : j = i
      · rw [hji] at hjint ⊢
        rw [splitArena_nodeAt_i D hi] at hjint ⊢
        rw [hchn]
        simp only []
        rw [splitArena_nodeAt_l, splitArena_nodeAt_r, splitInternalNode_entries,
          hLentries, hRentries, ← nodeAt_def, ← hll, hsum]
      · rw [splitArena_nodeAt_old D hjlt hji] at hjint ⊢
        obtain ⟨h1, h2, h3⟩ := hs j hjlt hjint
        rw [hent h3, hent (by omega)]
        exact hInv.sizeL j hjlt hjint
    · exfalso
      have : j = st.m_nodes.length ∨ j = st.m_nodes.length + 1 := by omega
      rcases this with h | h
      · rw [h, splitArena_nodeAt_l] at hjint
        exact hjint hld
      · rw [h, splitArena_nodeAt_r] at hjint
        exact hjint hrd
  case posL =>
    intro j hj hjint
    rw [splitArena_len] at hj
    rcases Nat.lt_or_ge j st.m_nodes.length with hjlt | hjge
    · by_cases hji : j = i
      · rw [hji] at hjint ⊢
        rw [splitArena_nodeAt_i D hi] at hjint ⊢
        rw [hchn]
        simp only []
        rw [splitArena_nodeAt_l, splitArena_nodeAt_r]
        exact ⟨Nat.pos_of_ne_zero hdegL, Nat.pos_of_ne_zero hdegR⟩
      · rw [splitArena_nodeAt_old D hjlt hji] at hjint ⊢
        obtain ⟨h1, h2, h3⟩ := hs j hjlt hjint
        rw [hent h3, hent (by omega)]
        exact hInv.posL j hjlt hjint
    · exfalso
      have : j = st.m_nodes.length ∨ j = st.m_nodes.length + 1 := by omega
      rcases this with h | h
      · rw [h, splitArena_nodeAt_l] at hjint
        exact hjint hld
      · rw [h, splitArena_nodeAt_r] at hjint
        exact hjint hrd
  case boundsI =>
    intro j hj hjint
    rw [splitArena_len] at hj
    rcases Nat.lt_or_ge j st.m_nodes.length with hjlt | hjge
    · by_cases hji : j = i
      · rw [hji] at hjint ⊢
        rw [splitArena_nodeAt_i D hi] at hjint ⊢
        rw [splitInternalNode_bounds]
        obtain ⟨lp0, hlp0⟩ := List.exists_mem_of_ne_nil _ hbne
        obtain ⟨bs, hh, hblen, _⟩ := @hullOf_contains _ D lp0.location hdimsI
          (List.mem_map_of_mem _ hlp0)
        refine ⟨bs, ?_, ?_⟩
        · rw [← nodeAt_def, hInv.tight i hi hleaf]
          exact hh
        · intro lp hlp
          have hlp2 : lp ∈ subEnt D st.m_nodes i := ((hperm hi).mem_iff).mp hlp
          rw [subEnt_leaf D st.m_nodes hleaf] at hlp2
          have hmem : lp ∈ (nodeAt D st.m_nodes i).m_locationPayloads :=
            List.take_subset _ _ hlp2
          obtain ⟨bs', hh', _, hbox'⟩ := @hullOf_contains _ D lp.location hdimsI
            (List.mem_map_of_mem _ hmem)
          rw [hh] at hh'
          injection hh' with hh'
          rw [hh']
          exact hbox'
      · rw [splitArena_nodeAt_old D hjlt hji] at hjint ⊢
        obtain ⟨bs, hbs, hbox⟩ := hInv.boundsI j hjlt hjint
        refine ⟨bs, hbs, fun lp hlp => hbox lp (((hperm hjlt).mem_iff).mp hlp)⟩
    · exfalso
      have : j = st.m_nodes.length ∨ j = st.m_nodes.length + 1 := by omega
      rcases this with h | h
      · rw [h, splitArena_nodeAt_l] at hjint
        exact hjint hld
      · rw [h, splitArena_nodeAt_r] at hjint
        exact hjint hrd
  case dimsBucket =>
    intro j hj lp hlp
    rw [splitArena_len] at hj
    rcases Nat.lt_or_ge j st.m_nodes.length with hjlt | hjge
    · by_cases hji : j = i
      · rw [hji, splitArena_nodeAt_i D hi] at hlp
        simp [splitInternalNode] at hlp
      · rw [splitArena_nodeAt_old D hjlt hji] at hlp
        exact hInv.dimsBucket j hjlt lp hlp
    · have : j = st.m_nodes.length ∨ j = st.m_nodes.length + 1 := by omega
      rcases this with h | h
      · rw [h, splitArena_nodeAt_l, hLbucket] at hlp
        exact hInv.dimsBucket i hi lp (hsubL hlp)
      · rw [h, splitArena_nodeAt_r, hRbucket] at hlp
        exact hInv.dimsBucket i hi lp (hsubR hlp)
  case dimsBounds =>
    intro j hj bs hbs
    rw [splitArena_len] at hj
    rcases Nat.lt_or_ge j st.m_nodes.length with hjlt | hjge
    · by_cases hji : j = i
      · rw [hji, splitArena_nodeAt_i D hi, splitInternalNode_bounds, ← nodeAt_def] at hbs
        exact hInv.dimsBounds i hi bs hbs
      · rw [splitArena_nodeAt_old D hjlt hji] at hbs
        exact hInv.dimsBounds j hjlt bs hbs
    · have : j = st.m_nodes.length ∨ j = st.m_nodes.length + 1 := by omega
      rcases this with h | h
      · rw [h, splitArena_nodeAt_l, leftNodeOf_eq] at hbs
        simp only [] at hbs
        apply @hullOf_length _ D _ _ hbs
        intro loc hl
        obtain ⟨lp', hlp', hv⟩ := List.mem_map.mp hl
        rw [← hv]
        exact hInv.dimsBucket i hi lp' (hsubL hlp')
      · rw [h, splitArena_nodeAt_r, rightNodeOf_eq] at hbs
        simp only [] at hbs
        apply @hullOf_length _ D _ _ hbs
        intro loc hl
        obtain ⟨lp', hlp', hv⟩ := List.mem_map.mp hl
        rw [← hv]
        exact hInv.dimsBucket i hi lp' (hsubR hlp')
  case recycleNil => rfl
  case waitingOk =>
    intro j hjw
    obtain ⟨hjlt, hje⟩ := hInv.waitingOk j hjw
    refine ⟨by rw [splitArena_len]; omega, ?_⟩
    rw [hent hjlt]
    exact hje

end SplitLemmas

section AddLemmas

variable {α : Type}

theorem expandBounds_splitDimension (n : Node α) (loc : List ℚ) :
    (n.expandBounds loc).m_splitDimension = n.m_splitDimension := rfl

theorem expandBounds_children (n : Node α) (loc : List ℚ) :
    (n.expandBounds loc).m_children = n.m_children := rfl

theorem expandBounds_splitValue (n : Node α) (loc : List ℚ) :
    (n.expandBounds loc).m_splitValue = n.m_splitValue := rfl

theorem expandBounds_bucket (n : Node α) (loc : List ℚ) :
    (n.expandBounds loc).m_locationPayloads = n.m_locationPayloads := rfl

theorem expandBounds_entries (n : Node α) (loc : List ℚ) :
    (n.expandBounds loc).m_entries = n.m_entries + 1 := rfl

theorem expandBounds_bounds (n : Node α) (loc : List ℚ) :
    (n.expandBounds loc).m_bounds = expandB n.m_bounds loc := rfl

theorem add_splitDimension (n : Node α) (e : LocationPayload α) :
    (n.add e).m_splitDimension = n.m_splitDimension := rfl

theorem add_children (n : Node α) (e : LocationPayload α) :
    (n.add e).m_children = n.m_children := rfl

theorem add_splitValue (n : Node α) (e : LocationPayload α) :
    (n.add e).m_splitValue = n.m_splitValue := rfl

theorem add_bucket (n : Node α) (e : LocationPayload α) :
    (n.add e).m_locationPayloads = n.m_locationPayloads ++ [e] := rfl

theorem add_entries (n : Node α) (e : LocationPayload α) :
    (n.add e).m_entries = n.m_entries + 1 := rfl

theorem add_bounds (n : Node α) (e : LocationPayload α) :
    (n.add e).m_bounds = expandB n.m_bounds e.location := rfl

theorem structOk_congr {D : ℕ} {nodes nodes' : List (Node α)}
    (hlen : nodes'.length = nodes.length)
    (h : ∀ j, (nodeAt D nodes' j).m_splitDimension = (nodeAt D nodes j).m_splitDimension ∧
      (nodeAt D nodes' j).m_children = (nodeAt D nodes j).m_children)
    (hs : StructOk D nodes) : StructOk D nodes' := by
  intro j hj hint
  rw [hlen] at hj
  rw [(h j).1] at hint
  rw [(h j).2, hlen]
  exact hs j hj hint

theorem subtreeIdx_congr {D : ℕ} {nodes nodes' : List (Node α)}
    (hlen : nodes'.length = nodes.length)
    (h : ∀ j, (nodeAt D nodes' j).m_splitDimension = (nodeAt D nodes j).m_splitDimension ∧
      (nodeAt D nodes' j).m_children = (nodeAt D nodes j).m_children) :
    ∀ i, subtreeIdx D nodes' i = subtreeIdx D nodes i := by
  intro i
  rw [subtreeIdx, subtreeIdx, hlen]
  exact subIdx_congr D h _ i

theorem subtreeIdx_sublist (D : ℕ) {nodes : List (Node α)} (hs : StructOk D nodes) :
    ∀ f i j, nodes.length - i < f → j ∈ subIdx D nodes f i →
      (subtreeIdx D nodes j).Sublist (subIdx D nodes f i) := by
  intro f
  induction f with
  | zero => intro i j hf; omega
  | succ f ih =>
    intro i j hf hj
    by_cases hleaf : (nodeAt D nodes i).m_splitDimension = D
    · rw [subIdx_leaf D nodes _ hleaf] at hj ⊢
      simp at hj
      rw [hj, subtreeIdx_leaf D nodes hleaf]
    · have hi := internal_lt_len D hleaf
      obtain ⟨h1, h2, h3⟩ := hs i hi hleaf
      rw [subIdx_internal D nodes _ hleaf] at hj ⊢
      rcases List.mem_cons.mp hj with hj | hj
      · rw [hj]
        have heq : subtreeIdx D nodes i = subIdx D nodes (f + 1) i :=
          subIdx_stable D hs _ _ _ (by omega) hf
        rw [heq, subIdx_internal D nodes _ hleaf]
      · rcases List.mem_append.mp hj with hj | hj
        · exact ((ih _ _ (by omega) hj).trans (List.sublist_append_left _ _)).cons _
        · exact ((ih _ _ (by omega) hj).trans (List.sublist_append_right _ _)).cons _

theorem subtreeIdx_sublist' (D : ℕ) {nodes : List (Node α)} (hs : StructOk D nodes)
    {i j : ℕ} (hj : j ∈ subtreeIdx D nodes i) :
    (subtreeIdx D nodes j).Sublist (subtreeIdx D nodes i) :=
  subtreeIdx_sublist D hs _ _ _ (by omega) hj

theorem subtreeIdx_nodup_of (D : ℕ) {nodes : List (Node α)} (hs : StructOk D nodes)
    {i j : ℕ} (hnd : (subtreeIdx D nodes i).Nodup) (hj : j ∈ subtreeIdx D nodes i) :
    (subtreeIdx D nodes j).Nodup :=
  hnd.sublist (subtreeIdx_sublist' D hs hj)

theorem addCore_add_master (D : ℕ) (loc : List ℚ) (e : LocationPayload α)
    (he : e.location = loc) :
    ∀ (fuel : ℕ) (nodes : List (Node α)) (i : ℕ),
      StructOk D nodes → (subtreeIdx D nodes i).Nodup → i < nodes.length →
      ∀ nodes1 L, addCore D fuel nodes i loc = some (nodes1, L) →
      AddFrame D nodes (nodes1.set L ((nodes1.getD L (freshNode D [])).add e)) i L e := by
  intro fuel
  induction fuel with
  | zero =>
    intro nodes i _ _ _ nodes1 L h
    simp [addCore] at h
  | succ fuel ih =>
    intro nodes i hs hnd hi nodes1 L h
    rw [addCore] at h
    by_cases hleaf : (nodeAt D nodes i).m_splitDimension = D
    · rw [if_pos (by rw [← nodeAt_def]; exact hleaf)] at h
      injection h with h
      injection h with h1 h2
      subst h1
      subst h2
      have hmem : i ∈ subtreeIdx D nodes i := self_mem_subtreeIdx D nodes i
      have hset : ∀ j, j ≠ i → nodeAt D (nodes.set i ((nodes.getD i (freshNode D [])).add e)) j
          = nodeAt D nodes j := fun j hj => nodeAt_set_ne D _ (fun hc => hj hc.symm)
      have hsetI : nodeAt D (nodes.set i ((nodes.getD i (freshNode D [])).add e)) i
          = (nodeAt D nodes i).add e := nodeAt_set_self D _ hi
      have hsub : subtreeIdx D nodes i = [i] := subtreeIdx_leaf D nodes hleaf
      refine ⟨by simp, ?_, ?_, ?_, ?_, ?_, hleaf, hmem, ?_, ?_, ?_⟩
      · intro j
        by_cases hji : j = i
        · rw [hji, hsetI, add_splitDimension]
        · rw [hset j hji]
      · intro j
        by_cases hji : j = i
        · rw [hji, hsetI, add_splitValue]
        · rw [hset j hji]
      · intro j
        by_cases hji : j = i
        · rw [hji, hsetI, add_children]
        · rw [hset j hji]
      · intro j hji
        rw [hset j hji]
      · rw [hsetI, add_bucket]
      · intro j hj
        rw [hsub] at hj
        simp at hj
        rw [hset j hj]
      · intro j hj
        rw [hsub] at hj
        simp at hj
        subst hj
        constructor
        · intro _
          rw [hsetI, add_entries, add_bounds, he]
          exact ⟨rfl, rfl⟩
        · intro hnotin
          exfalso
          exact hnotin (by rw [hsub]; simp)
      · intro j
        by_cases hji : j = i
        · exact Or.inr (Or.inr ⟨hji, by rw [hji, hsetI]⟩)
        · exact Or.inl (hset j hji)
    · rw [if_neg (by rw [← nodeAt_def]; exact hleaf)] at h
      obtain ⟨hc1, hc2, hc3⟩ := hs i hi hleaf
      set c := if loc.getD (nodes.getD i (freshNode D [])).m_splitDimension 0 <
          (nodes.getD i (freshNode D [])).m_splitValue
        then (nodes.getD i (freshNode D [])).m_children.1
        else (nodes.getD i (freshNode D [])).m_children.2 with hcdef
      have hcmem : c ∈ subtreeIdx D nodes i := by
        rw [subtreeIdx_internal D hs hleaf]
        rw [hcdef]
        split
        · exact List.mem_cons_of_mem _ (List.mem_append_left _
            (self_mem_subtreeIdx D nodes _))
        · exact List.mem_cons_of_mem _ (List.mem_append_right _
            (self_mem_subtreeIdx D nodes _))
      have hclt : c < nodes.length := by
        rw [hcdef, ← nodeAt_def]
        split
        · omega
        · omega
      have hcgt : i < c := by
        rw [hcdef, ← nodeAt_def]
        split
        · omega
        · omega
      set nodesA := nodes.set i ((nodes.getD i (freshNode D [])).expandBounds loc) with hAdef
      have hAlen : nodesA.length = nodes.length := by simp [hAdef]
      have hAeq : ∀ j, j ≠ i → nodeAt D nodesA j = nodeAt D nodes j :=
        fun j hj => nodeAt_set_ne D _ (fun hc => hj hc.symm)
      have hAi : nodeAt D nodesA i = (nodeAt D nodes i).expandBounds loc :=
        nodeAt_set_self D _ hi
      have hAcong : ∀ j, (nodeAt D nodesA j).m_splitDimension =
          (nodeAt D nodes j).m_splitDimension ∧
          (nodeAt D nodesA j).m_children = (nodeAt D nodes j).m_children := by
        intro j
        by_cases hji : j = i
        · rw [hji, hAi, expandBounds_splitDimension, expandBounds_children]
          exact ⟨rfl, rfl⟩
        · rw [hAeq j hji]
          exact ⟨rfl, rfl⟩
      have hAs : StructOk D nodesA := structOk_congr hAlen hAcong hs
      have hAsub : ∀ j, subtreeIdx D nodesA j = subtreeIdx D nodes j :=
        subtreeIdx_congr hAlen hAcong
      have hcnd : (subtreeIdx D nodesA c).Nodup := by
        rw [hAsub]
        exact subtreeIdx_nodup_of D hs hnd hcmem
      have hih := ih nodesA c hAs hcnd (by omega) nodes1 L h
      -- translate the frame from (nodesA, c) to (nodes, i)
      have hdisj : (subtreeIdx D nodes i).Nodup := hnd
      rw [subtreeIdx_internal D hs hleaf] at hdisj
      have hLA : L ∈ subtreeIdx D nodes c := by
        have := hih.memL
        rwa [hAsub] at this
      have hLi : L ∈ subtreeIdx D nodes i :=
        subtreeIdx_trans' D hs hcmem L hLA
      have hLc : i < L := by
        have hcL : c ≤ L := subIdx_mem_ge D hs _ _ _ hLA
        omega
      have hLne : L ≠ i := by omega
      have hleafL : (nodeAt D nodes L).m_splitDimension = D := by
        have := hih.leafL
        rwa [hAeq L hLne] at this
      refine ⟨?_, ?_, ?_, ?_, ?_, ?_, hleafL, hLi, ?_, ?_, ?_⟩
      · rw [hih.len_eq, hAlen]
      · intro j
        rw [hih.sd j, (hAcong j).1]
      · intro j
        by_cases hji : j = i
        · rw [hih.sv j, hji, hAi, expandBounds_splitValue]
        · rw [hih.sv j, hAeq j hji]
      · intro j
        rw [hih.ch j, (hAcong j).2]
      · intro j hjL
        by_cases hji : j = i
        · rw [hih.bucket_ne j hjL, hji, hAi, expandBounds_bucket]
        · rw [hih.bucket_ne j hjL, hAeq j hji]
      · rw [hih.bucket_L, hAeq L hLne]
      · intro j hj
        have hjne : j ≠ i := by
          intro hji
          exact hj (hji ▸ self_mem_subtreeIdx D nodes i)
        have hjnc : j ∉ subtreeIdx D nodesA c := by
          rw [hAsub]
          intro hjc
          exact hj (subtreeIdx_trans' D hs hcmem j hjc)
        rw [hih.outside j hjnc, hAeq j hjne]
      · intro j hj
        by_cases hji : j = i
        · subst hji
          constructor
          · intro _
            have hjnc : j ∉ subtreeIdx D nodesA c := by
              rw [hAsub]
              intro hjc
              have := subIdx_mem_ge D hs _ _ _ hjc
              omega
            rw [hih.outside j hjnc, hAi, expandBounds_entries, expandBounds_bounds, he]
            exact ⟨rfl, rfl⟩
          · intro hnotin
            exact absurd hLi hnotin
        · rw [subtreeIdx_internal D hs hleaf] at hj
          rcases List.mem_cons.mp hj with hj' | hj'
          · exact absurd hj' hji
          · have hcbar : c = (nodeAt D nodes i).m_children.1 ∨
                c = (nodeAt D nodes i).m_children.2 := by
              rw [hcdef]
              split
              · exact Or.inl rfl
              · exact Or.inr rfl
            by_cases hjc : j ∈ subtreeIdx D nodes c
            · have hins := hih.inside j (by rw [hAsub]; exact hjc)
              constructor
              · intro hLj
                obtain ⟨he1, he2⟩ := hins.1 (by rw [hAsub]; exact hLj)
                rw [hAeq j hji] at he1 he2
                exact ⟨he1, he2⟩
              · intro hLj
                rw [hins.2 (by rw [hAsub]; exact hLj), hAeq j hji]
            · constructor
              · intro hLj
                exfalso
                have hdisj2 : List.Disjoint
                    (subtreeIdx D nodes (nodeAt D nodes i).m_children.1)
                    (subtreeIdx D nodes (nodeAt D nodes i).m_children.2) :=
                  List.disjoint_of_nodup_append (List.nodup_cons.mp hdisj).2
                have hLunder : ∀ cc, j ∈ subtreeIdx D nodes cc →
                    L ∈ subtreeIdx D nodes cc :=
                  fun cc hjcc => subtreeIdx_trans' D hs hjcc L hLj
                rcases hcbar with hc' | hc'
                · have hj2 : j ∈ subtreeIdx D nodes (nodeAt D nodes i).m_children.2 := by
                    rcases List.mem_append.mp hj' with hmem1 | hmem2
                    · exfalso
                      apply hjc
                      rw [hc']
                      exact hmem1
                    · exact hmem2
                  apply hdisj2 _ (hLunder _ hj2)
                  rw [← hc']
                  exact hLA
                · have hj1 : j ∈ subtreeIdx D nodes (nodeAt D nodes i).m_children.1 := by
                    rcases List.mem_append.mp hj' with hmem1 | hmem2
                    · exact hmem1
                    · exfalso
                      apply hjc
                      rw [hc']
                      exact hmem2
                  apply hdisj2 (hLunder _ hj1)
                  rw [← hc']
                  exact hLA
              · intro _
                have hjnc : j ∉ subtreeIdx D nodesA c := by
                  rw [hAsub]
                  exact hjc
                rw [hih.outside j hjnc, hAeq j hji]
      · intro j
        by_cases hji : j = i
        · subst hji
          have hjnc : j ∉ subtreeIdx D nodesA c := by
            rw [hAsub]
            intro hjc
            have := subIdx_mem_ge D hs _ _ _ hjc
            omega
          rw [hih.outside j hjnc, hAi, he]
          exact Or.inr (Or.inl rfl)
        · rcases hih.frame j with hf | hf | ⟨hjL, hf⟩
          · rw [hf, hAeq j hji]
            exact Or.inl rfl
          · rw [hf, hAeq j hji]
            exact Or.inr (Or.inl rfl)
          · rw [hAeq j hji] at hf
            exact Or.inr (Or.inr ⟨hjL, hf⟩)

theorem addCore_isSome (D : ℕ) (loc : List ℚ) :
    ∀ (fuel : ℕ) (nodes : List (Node α)) (i : ℕ), StructOk D nodes →
      nodes.length - i < fuel → i < nodes.length →
      ∃ res, addCore D fuel nodes i loc = some res := by
  intro fuel
  induction fuel with
  | zero => intro nodes i _ hf; omega
  | succ fuel ih =>
    intro nodes i hs hf hi
    rw [addCore]
    by_cases hleaf : (nodeAt D nodes i).m_splitDimension = D
    · rw [if_pos (by rw [← nodeAt_def]; exact hleaf)]
      exact ⟨_, rfl⟩
    · rw [if_neg (by rw [← nodeAt_def]; exact hleaf)]
      obtain ⟨hc1, hc2, hc3⟩ := hs i hi hleaf
      have hAcong : ∀ j, (nodeAt D (nodes.set i ((nodes.getD i
          (freshNode D [])).expandBounds loc)) j).m_splitDimension =
          (nodeAt D nodes j).m_splitDimension ∧
          (nodeAt D (nodes.set i ((nodes.getD i
            (freshNode D [])).expandBounds loc)) j).m_children =
          (nodeAt D nodes j).m_children := by
        intro j
        by_cases hji : j = i
        · rw [hji, nodeAt_set_self D _ hi]
          exact ⟨rfl, rfl⟩
        · rw [nodeAt_set_ne D _ (fun hc => hji hc.symm)]
          exact ⟨rfl, rfl⟩
      apply ih _ _ (structOk_congr (by simp) hAcong hs)
      · rw [List.length_set, ← nodeAt_def]
        split
        · omega
        · omega
      · rw [List.length_set, ← nodeAt_def]
        split
        · omega
        · omega

theorem insertSorted_mem {x a : ℕ} : ∀ {l : List ℕ}, x ∈ insertSorted a l ↔ x = a ∨ x ∈ l := by
  intro l
  induction l with
  | nil => simp [insertSorted]
  | cons y ys ih =>
    rw [insertSorted]
    split
    · simp only [List.mem_cons]
    · split
      · rename_i h1 h2
        subst h2
        simp only [List.mem_cons]
        tauto
      · simp only [List.mem_cons, ih]
        tauto

theorem flatMap_single_append {β γ : Type} {l : List β} {f g : β → List γ}
    {a : β} {x : γ}
    (ha : g a = f a ++ [x]) (h : ∀ y ∈ l, y ≠ a → g y = f y) (hnd : l.Nodup) :
    (a ∈ l → (l.flatMap g).Perm (x :: l.flatMap f)) ∧
    (a ∉ l → l.flatMap g = l.flatMap f) := by
  induction l with
  | nil => simp
  | cons y ys ih =>
    rcases List.nodup_cons.mp hnd with ⟨hy, hys⟩
    obtain ⟨ih1, ih2⟩ := ih (fun z hz hza => h z (by simp [hz]) hza) hys
    constructor
    · intro hmem
      rw [List.flatMap_cons, List.flatMap_cons]
      by_cases hya : y = a
      · have hrest : ys.flatMap g = ys.flatMap f := ih2 (fun hc => hy (hya ▸ hc))
        rw [hya, ha, hrest, List.append_assoc]
        exact List.perm_middle
      · have hgy : g y = f y := h y (by simp) hya
        have hmem2 : a ∈ ys := by
          rcases List.mem_cons.mp hmem with hc | hc
          · exact absurd hc.symm hya
          · exact hc
        rw [hgy]
        exact ((ih1 hmem2).append_left (f y)).trans List.perm_middle
    · intro hmem
      rw [List.flatMap_cons, List.flatMap_cons]
      have hgy : g y = f y := h y (by simp) (fun hc => hmem (by simp [hc]))
      rw [hgy, ih2 (fun hc => hmem (by simp [hc]))]

theorem addframe_subtreeIdx (D : ℕ) {nodes nodes2 : List (Node α)} {i L : ℕ}
    {e : LocationPayload α} (haf : AddFrame D nodes nodes2 i L e) :
    ∀ j, subtreeIdx D nodes2 j = subtreeIdx D nodes j :=
  subtreeIdx_congr haf.len_eq (fun j => ⟨haf.sd j, haf.ch j⟩)

theorem addframe_unchanged (D B : ℕ) {st : KDTree α} (hInv : Inv D B st)
    {nodes2 : List (Node α)} {L : ℕ} {e : LocationPayload α}
    (haf : AddFrame D st.m_nodes nodes2 0 L e) {j : ℕ}
    (hL : L ∉ subtreeIdx D st.m_nodes j) :
    nodeAt D nodes2 j = nodeAt D st.m_nodes j := by
  by_cases hjlen : j < st.m_nodes.length
  · exact (haf.inside j (hInv.complete j hjlen)).2 hL
  · exact haf.outside j
      (fun hc => hjlen (subtreeIdx_mem_lt D hInv.struct hInv.lenPos hc))

theorem addframe_delta (D B : ℕ) {st : KDTree α} (hInv : Inv D B st)
    {nodes2 : List (Node α)} {L : ℕ} {e : LocationPayload α}
    (haf : AddFrame D st.m_nodes nodes2 0 L e) (j : ℕ) :
    (nodeAt D nodes2 j).m_entries = (nodeAt D st.m_nodes j).m_entries +
      (if L ∈ subtreeIdx D st.m_nodes j then 1 else 0) ∧
    (L ∈ subtreeIdx D st.m_nodes j →
      (nodeAt D nodes2 j).m_bounds = expandB (nodeAt D st.m_nodes j).m_bounds e.location) := by
  by_cases hL : L ∈ subtreeIdx D st.m_nodes j
  · rw [if_pos hL]
    have hLlen : L < st.m_nodes.length :=
      subtreeIdx_mem_lt D hInv.struct hInv.lenPos haf.memL
    have hjlen : j < st.m_nodes.length := by
      have := subIdx_mem_ge D hInv.struct _ _ _ hL
      omega
    obtain ⟨h1, h2⟩ := (haf.inside j (hInv.complete j hjlen)).1 hL
    exact ⟨h1, fun _ => h2⟩
  · rw [if_neg hL, addframe_unchanged D B hInv haf hL]
    exact ⟨rfl, fun hc => absurd hc hL⟩

theorem subEnt_addframe (D B : ℕ) {st : KDTree α} (hInv : Inv D B st)
    {nodes2 : List (Node α)} {L : ℕ} {e : LocationPayload α}
    (haf : AddFrame D st.m_nodes nodes2 0 L e) (j : ℕ) :
    (L ∈ subtreeIdx D st.m_nodes j →
      (subEnt D nodes2 j).Perm (e :: subEnt D st.m_nodes j)) ∧
    (L ∉ subtreeIdx D st.m_nodes j → subEnt D nodes2 j = subEnt D st.m_nodes j) := by
  have hLlen : L < st.m_nodes.length :=
    subtreeIdx_mem_lt D hInv.struct hInv.lenPos haf.memL
  have hcontrib_ne : ∀ x, x ≠ L → contribAt D nodes2 x = contribAt D st.m_nodes x := by
    intro x hx
    rw [contribAt, contribAt]
    by_cases hleafx : (nodeAt D st.m_nodes x).m_splitDimension = D
    · rw [if_pos (by rw [haf.sd x]; exact hleafx), if_pos hleafx]
      have hLx : L ∉ subtreeIdx D st.m_nodes x := by
        rw [subtreeIdx_leaf D st.m_nodes hleafx]
        intro hc
        simp at hc
        exact hx hc.symm
      rw [addframe_unchanged D B hInv haf hLx]
    · rw [if_neg (by rw [haf.sd x]; exact hleafx), if_neg hleafx]
  have hcontrib_L : contribAt D nodes2 L = contribAt D st.m_nodes L ++ [e] := by
    have hlf := haf.leafL
    rw [contribAt, contribAt]
    rw [if_pos (by rw [haf.sd L]; exact hlf), if_pos hlf]
    obtain ⟨hent, _⟩ := (haf.inside L (hInv.complete L hLlen)).1 (self_mem_subtreeIdx D _ L)
    rw [haf.bucket_L, hent]
    have hbl := hInv.leafLen L hLlen hlf
    rw [← hbl, List.take_length, List.take_of_length_le (by simp)]
  have hsub := addframe_subtreeIdx D haf j
  have hnd : (subtreeIdx D st.m_nodes j).Nodup := by
    by_cases hjlen : j < st.m_nodes.length
    · exact subtreeIdx_nodup_of D hInv.struct hInv.nodup0 (hInv.complete j hjlen)
    · have hleaf : (nodeAt D st.m_nodes j).m_splitDimension = D := by
        rw [nodeAt_oob D (by omega)]
        exact freshNode_splitDimension D []
      rw [subtreeIdx_leaf D st.m_nodes hleaf]
      simp
  rw [subEnt, subEnt, hsub]
  exact flatMap_single_append hcontrib_L (fun y _ hy => hcontrib_ne y hy) hnd

theorem addframe_inv (D B : ℕ) {st : KDTree α} (hInv : Inv D B st)
    {nodes2 : List (Node α)} {L : ℕ} {e : LocationPayload α}
    (hloc : e.location.length = D)
    (haf : AddFrame D st.m_nodes nodes2 0 L e) :
    Inv D B { st with m_nodes := nodes2 } := by
  have hlen := haf.len_eq
  have hLlen : L < st.m_nodes.length :=
    subtreeIdx_mem_lt D hInv.struct hInv.lenPos haf.memL
  have hLleaf := haf.leafL
  have hs2 : StructOk D nodes2 :=
    structOk_congr hlen (fun j => ⟨haf.sd j, haf.ch j⟩) hInv.struct
  have hsub := addframe_subtreeIdx D haf
  have hdelta := addframe_delta D B hInv haf
  have hentge : ∀ x, (nodeAt D st.m_nodes x).m_entries ≤ (nodeAt D nodes2 x).m_entries := by
    intro x
    rw [(hdelta x).1]
    split
    · omega
    · omega
  constructor
  case lenPos => rw [hlen]; exact hInv.lenPos
  case struct => exact hs2
  case nodup0 => rw [hsub 0]; exact hInv.nodup0
  case complete =>
    intro j hj
    rw [hlen] at hj
    rw [hsub 0]
    exact hInv.complete j hj
  case leafLen =>
    intro j hj hjleaf
    rw [hlen] at hj
    have hjleafO : (nodeAt D st.m_nodes j).m_splitDimension = D := by
      rw [← haf.sd j]; exact hjleaf
    by_cases hjL : j = L
    · have hd := (hdelta L).1
      rw [if_pos (self_mem_subtreeIdx D _ L)] at hd
      rw [hjL, haf.bucket_L, List.length_append, hd, hInv.leafLen L hLlen hLleaf]
      simp
    · have hnm : L ∉ subtreeIdx D st.m_nodes j := by
        rw [subtreeIdx_leaf D st.m_nodes hjleafO]
        intro hc
        simp at hc
        exact hjL hc.symm
      rw [addframe_unchanged D B hInv haf hnm]
      exact hInv.leafLen j hj hjleafO
  case leafDefaults =>
    intro j hj hjleaf
    rw [hlen] at hj
    rw [haf.sv j, haf.ch j]
    exact hInv.leafDefaults j hj (by rw [← haf.sd j]; exact hjleaf)
  case tight =>
    intro j hj hjleaf
    rw [hlen] at hj
    have hjleafO : (nodeAt D st.m_nodes j).m_splitDimension = D := by
      rw [← haf.sd j]; exact hjleaf
    by_cases hjL : j = L
    · have hb := ((haf.inside L (hInv.complete L hLlen)).1 (self_mem_subtreeIdx D _ L)).2
      rw [hjL, hb, hInv.tight L hLlen hLleaf, haf.bucket_L]
      rw [List.map_append, hullOf, hullOf, List.foldl_append]
      simp
    · have hnm : L ∉ subtreeIdx D st.m_nodes j := by
        rw [subtreeIdx_leaf D st.m_nodes hjleafO]
        intro hc
        simp at hc
        exact hjL hc.symm
      rw [addframe_unchanged D B hInv haf hnm]
      exact hInv.tight j hj hjleafO
  case sizeL =>
    intro j hj hjint
    rw [hlen] at hj
    have hjintO : (nodeAt D st.m_nodes j).m_splitDimension ≠ D := by
      rw [← haf.sd j]; exact hjint
    rw [haf.ch j]
    have hLj : ¬(j = L) := by
      intro hc
      rw [hc] at hjintO
      exact hjintO hLleaf
    have hndj : (subtreeIdx D st.m_nodes j).Nodup :=
      subtreeIdx_nodup_of D hInv.struct hInv.nodup0 (hInv.complete j hj)
    rw [subtreeIdx_internal D hInv.struct hjintO] at hndj
    have hdisj := (List.nodup_cons.mp hndj).2
    rw [List.nodup_append] at hdisj
    have hmem_iff : L ∈ subtreeIdx D st.m_nodes j ↔
        L ∈ subtreeIdx D st.m_nodes (nodeAt D st.m_nodes j).m_children.1 ∨
        L ∈ subtreeIdx D st.m_nodes (nodeAt D st.m_nodes j).m_children.2 := by
      rw [subtreeIdx_internal D hInv.struct hjintO, List.mem_cons, List.mem_append]
      constructor
      · rintro (hc | hc)
        · exact absurd hc.symm hLj
        · exact hc
      · exact Or.inr
    rw [(hdelta j).1,
      (hdelta (nodeAt D st.m_nodes j).m_children.1).1,
      (hdelta (nodeAt D st.m_nodes j).m_children.2).1,
      hInv.sizeL j hj hjintO]
    by_cases hm1 : L ∈ subtreeIdx D st.m_nodes (nodeAt D st.m_nodes j).m_children.1
    · have hm2 : L ∉ subtreeIdx D st.m_nodes (nodeAt D st.m_nodes j).m_children.2 :=
        hdisj.2.2 hm1
      rw [if_pos (hmem_iff.mpr (Or.inl hm1)), if_pos hm1, if_neg hm2]
      omega
    · by_cases hm2 : L ∈ subtreeIdx D st.m_nodes (nodeAt D st.m_nodes j).m_children.2
      · rw [if_pos (hmem_iff.mpr (Or.inr hm2)), if_neg hm1, if_pos hm2]
        omega
      · rw [if_neg (fun hc => (hmem_iff.mp hc).elim hm1 hm2), if_neg hm1, if_neg hm2]
        omega
  case posL =>
    intro j hj hjint
    rw [hlen] at hj
    have hjintO : (nodeAt D st.m_nodes j).m_splitDimension ≠ D := by
      rw [← haf.sd j]; exact hjint
    rw [haf.ch j]
    obtain ⟨p1, p2⟩ := hInv.posL j hj hjintO
    exact ⟨lt_of_lt_of_le p1 (hentge _), lt_of_lt_of_le p2 (hentge _)⟩
  case boundsI =>
    intro j hj hjint
    rw [hlen] at hj
    have hjintO : (nodeAt D st.m_nodes j).m_splitDimension ≠ D := by
      rw [← haf.sd j]; exact hjint
    obtain ⟨bs, hbs, hbox⟩ := hInv.boundsI j hj hjintO
    by_cases hmem : L ∈ subtreeIdx D st.m_nodes j
    · have hb2 := (hdelta j).2 hmem
      rw [hb2, hbs]
      obtain ⟨bs2, he2⟩ := expandB_isSome (some bs) e.location
      refine ⟨bs2, he2, ?_⟩
      intro lp hlp
      have hperm := (subEnt_addframe D B hInv haf j).1 hmem
      have hlp2 : lp ∈ e :: subEnt D st.m_nodes j := hperm.mem_iff.mp hlp
      rcases List.mem_cons.mp hlp2 with hlp2 | hlp2
      · rw [hlp2]
        apply expandB_self _ he2
        intro bs' hbs'
        injection hbs' with hb
        rw [← hb]
        exact le_of_eq (by rw [hInv.dimsBounds j hj bs hbs, hloc])
      · exact expandB_mono he2 (hbox lp hlp2)
    · rw [addframe_unchanged D B hInv haf hmem, hbs]
      refine ⟨bs, rfl, ?_⟩
      rw [(subEnt_addframe D B hInv haf j).2 hmem]
      exact hbox
  case dimsBucket =>
    intro j hj lp hlp
    rw [hlen] at hj
    by_cases hjL : j = L
    · rw [hjL, haf.bucket_L] at hlp
      rcases List.mem_append.mp hlp with hlp | hlp
      · exact hInv.dimsBucket L hLlen lp hlp
      · simp at hlp
        rw [hlp]
        exact hloc
    · rw [haf.bucket_ne j hjL] at hlp
      exact hInv.dimsBucket j hj lp hlp
  case dimsBounds =>
    intro j hj bs2 hbs2
    rw [hlen] at hj
    by_cases hmem : L ∈ subtreeIdx D st.m_nodes j
    · rw [(hdelta j).2 hmem] at hbs2
      obtain ⟨bs', he', hl'⟩ := expandB_length (hInv.dimsBounds j hj) hloc
      rw [he'] at hbs2
      injection hbs2 with hb
      rw [← hb]
      exact hl'
    · rw [addframe_unchanged D B hInv haf hmem] at hbs2
      exact hInv.dimsBounds j hj bs2 hbs2
  case recycleNil => exact hInv.recycleNil
  case waitingOk =>
    intro i hi
    obtain ⟨h1, h2⟩ := hInv.waitingOk i hi
    refine ⟨?_, le_trans h2 (hentge i)⟩
    show i < nodes2.length
    omega

theorem rootEntries_eq (D : ℕ) (st : KDTree α) (h : 0 < st.m_nodes.length) :
    rootEntries st = (nodeAt D st.m_nodes 0).m_entries := by
  rw [rootEntries, nodeAt_def, List.getD_eq_getElem _ _ h, List.getD_eq_getElem _ _ h]

theorem inv_rootEntries (D B : ℕ) {st : KDTree α} (hInv : Inv D B st) :
    rootEntries st = (subEnt D st.m_nodes 0).length := by
  rw [rootEntries_eq D st hInv.lenPos]
  exact entries_eq_subEnt_length D hInv.struct hInv.sizeL hInv.leafLen 0 hInv.lenPos

theorem addPoint_master (D B : ℕ) {st : KDTree α} (hInv : Inv D B st)
    (loc : List ℚ) (p : α) (auto : Bool) (hloc : loc.length = D) :
    ∃ st2, addPoint D B st loc p auto = some st2 ∧ Inv D B st2 ∧
      (subEnt D st2.m_nodes 0).Perm (⟨loc, p⟩ :: subEnt D st.m_nodes 0) := by
  obtain ⟨res, hadd⟩ := addCore_isSome D loc (st.m_nodes.length + 1) st.m_nodes 0
    hInv.struct (by omega) hInv.lenPos
  obtain ⟨nodes1, L⟩ := res
  have haf := addCore_add_master D loc ⟨loc, p⟩ rfl (st.m_nodes.length + 1) st.m_nodes 0
    hInv.struct hInv.nodup0 hInv.lenPos nodes1 L hadd
  set nodes2 := nodes1.set L ((nodes1.getD L
    (freshNode D [])).add (⟨loc, p⟩ : LocationPayload α)) with hn2
  have hLlen : L < st.m_nodes.length :=
    subtreeIdx_mem_lt D hInv.struct hInv.lenPos haf.memL
  have hlen2 : nodes2.length = st.m_nodes.length := haf.len_eq
  have hInv2 : Inv D B { st with m_nodes := nodes2 } := addframe_inv D B hInv hloc haf
  have hperm0 : (subEnt D nodes2 0).Perm
      ((⟨loc, p⟩ : LocationPayload α) :: subEnt D st.m_nodes 0) :=
    (subEnt_addframe D B hInv haf 0).1 haf.memL
  have heq : addPoint D B st loc p auto =
      (if (nodes2.getD L (freshNode D [])).shouldSplit B ∧
          (nodes2.getD L (freshNode D [])).m_entries % B = 0 then
        if auto then some (split D { st with m_nodes := nodes2 } L).2
        else some
          { st with
            m_nodes := nodes2
            waitingForSplit := insertSorted L st.waitingForSplit }
      else some { st with m_nodes := nodes2 }) := by
    unfold addPoint
    rw [hadd]
  by_cases hcond : (nodes2.getD L (freshNode D [])).shouldSplit B ∧
      (nodes2.getD L (freshNode D [])).m_entries % B = 0
  · rw [if_pos hcond] at heq
    cases auto with
    | false =>
      rw [if_neg (by simp)] at heq
      refine ⟨_, heq, ⟨hInv2.lenPos, hInv2.struct, hInv2.nodup0, hInv2.complete,
        hInv2.leafLen, hInv2.leafDefaults, hInv2.tight, hInv2.sizeL, hInv2.posL,
        hInv2.boundsI, hInv2.dimsBucket, hInv2.dimsBounds, hInv2.recycleNil, ?_⟩,
        hperm0⟩
      intro x hx
      rcases insertSorted_mem.mp hx with hxL | hm
      · constructor
        · show x < nodes2.length
          omega
        · show 1 ≤ (nodeAt D nodes2 x).m_entries
          rw [hxL]
          have hd := (addframe_delta D B hInv haf L).1
          rw [if_pos (self_mem_subtreeIdx D _ L)] at hd
          omega
      · exact hInv2.waitingOk x hm
    | true =>
      rw [if_pos rfl] at heq
      have hleaf2 : (nodeAt D nodes2 L).m_splitDimension = D := by
        rw [haf.sd L]; exact haf.leafL
      have hLlen2 : L < nodes2.length := by omega
      cases hfb : (split D ({ st with m_nodes := nodes2 } : KDTree α) L).1 with
      | false =>
        have hid : (split D ({ st with m_nodes := nodes2 } : KDTree α) L).2 =
            { st with m_nodes := nodes2 } :=
          split_fail_id D hleaf2 hLlen2 (hInv2.tight L hLlen2 hleaf2)
            (fun lp hlp => hInv2.dimsBucket L hLlen2 lp hlp) hfb
        rw [hid] at heq
        exact ⟨_, heq, hInv2, hperm0⟩
      | true =>
        have hsel : (splitSel D ({ st with m_nodes := nodes2 } : KDTree α) L).1 ≠ D := by
          intro hc
          rw [split_width_fail_eq D _ L hc] at hfb
          simp at hfb
        have hdeg : ¬((leftNodeOf D ({ st with m_nodes := nodes2 } : KDTree α) L).m_entries = 0 ∨
            (rightNodeOf D ({ st with m_nodes := nodes2 } : KDTree α) L).m_entries = 0) := by
          intro hc
          rw [split_rollback_eq D _ L hsel hc] at hfb
          simp at hfb
        have hInv3 := split_success_inv D B hInv2 hLlen2 hleaf2 hsel hdeg
        have hp3 := subEnt_splitArena_perm D hInv2.struct hLlen2 hleaf2 hsel
          hInv2.recycleNil (hInv2.leafLen L hLlen2 hleaf2)
          (show (0:ℕ) < nodes2.length by omega)
        refine ⟨_, heq, hInv3, ?_⟩
        rw [split_success_nodes D _ L hsel hdeg]
        exact hp3.trans hperm0
  · rw [if_neg hcond] at heq
    exact ⟨_, heq, hInv2, hperm0⟩

end AddLemmas

section SplitOutstandingLemmas

variable {α : Type}

theorem leftNodeOf_entries (D : ℕ) (st : KDTree α) (i : ℕ) :
    (leftNodeOf D st i).m_entries = (leftOf D st i).length := by rw [leftNodeOf_eq]

theorem rightNodeOf_entries (D : ℕ) (st : KDTree α) (i : ℕ) :
    (rightNodeOf D st i).m_entries = (rightOf D st i).length := by rw [rightNodeOf_eq]

theorem lr_sum_entries (D : ℕ) {st : KDTree α} {i : ℕ}
    (hll : (nodeAt D st.m_nodes i).m_locationPayloads.length =
      (nodeAt D st.m_nodes i).m_entries) :
    (leftOf D st i).length + (rightOf D st i).length =
      (nodeAt D st.m_nodes i).m_entries := by
  have h := (leftOf_append_rightOf_perm D st i).length_eq
  rw [List.length_append] at h
  rw [h, ← nodeAt_def]
  exact hll

theorem soLoop_master (D B : ℕ) :
    ∀ (fuel : ℕ) (st : KDTree α) (stack : List ℕ), Inv D B st →
      (∀ i ∈ stack, i < st.m_nodes.length ∧ 1 ≤ (nodeAt D st.m_nodes i).m_entries) →
      soMeasure D st.m_nodes stack < fuel →
      ∃ st2, soLoop D B fuel st stack = some st2 ∧ Inv D B st2 ∧
        st2.waitingForSplit = st.waitingForSplit ∧
        (subEnt D st2.m_nodes 0).Perm (subEnt D st.m_nodes 0) := by
  intro fuel
  induction fuel with
  | zero => intro st stack _ _ hm; omega
  | succ fuel ih =>
    intro st stack hInv hstk hm
    cases stack with
    | nil => exact ⟨st, rfl, hInv, rfl, List.Perm.refl _⟩
    | cons i rest =>
      obtain ⟨hilt, hie⟩ := hstk i (by simp)
      have hrest : ∀ j ∈ rest, j < st.m_nodes.length ∧
          1 ≤ (nodeAt D st.m_nodes j).m_entries :=
        fun j hj => hstk j (by simp [hj])
      simp only [soMeasure, List.map_cons, List.sum_cons] at hm
      rw [soLoop]
      by_cases hleaf : (nodeAt D st.m_nodes i).m_splitDimension = D
      · rw [if_pos (show (st.m_nodes.getD i (freshNode D [])).m_splitDimension = D
          from hleaf)]
        by_cases hsh : (st.m_nodes.getD i (freshNode D [])).shouldSplit B
        · rw [if_pos hsh]
          cases hfb : (split D st i).1 with
          | false =>
            simp only [hfb]
            rw [if_neg (by simp)]
            have hid : (split D st i).2 = st :=
              split_fail_id D hleaf hilt (hInv.tight i hilt hleaf)
                (fun lp hlp => hInv.dimsBucket i hilt lp hlp) hfb
            rw [hid]
            refine ih st rest hInv hrest ?_
            simp only [soMeasure]
            omega
          | true =>
            simp only [hfb, if_true]
            have hsel : (splitSel D st i).1 ≠ D := by
              intro hc
              rw [split_width_fail_eq D _ i hc] at hfb
              simp at hfb
            have hdeg : ¬((leftNodeOf D st i).m_entries = 0 ∨
                (rightNodeOf D st i).m_entries = 0) := by
              intro hc
              rw [split_rollback_eq D _ i hsel hc] at hfb
              simp at hfb
            have hdl : (leftOf D st i).length ≠ 0 := by
              rw [← leftNodeOf_entries]
              exact fun hc => hdeg (Or.inl hc)
            have hdr : (rightOf D st i).length ≠ 0 := by
              rw [← rightNodeOf_entries]
              exact fun hc => hdeg (Or.inr hc)
            have hInvS := split_success_inv D B hInv hilt hleaf hsel hdeg
            have hse := split_success_nodes D st i hsel hdeg
            have hperm0 := subEnt_splitArena_perm D hInv.struct hilt hleaf hsel
              hInv.recycleNil (hInv.leafLen i hilt hleaf) hInv.lenPos
            have hlen2 : (split D st i).2.m_nodes.length = st.m_nodes.length + 2 := by
              simp only [hse]
              rw [splitArena_len]
            have hel : (nodeAt D (split D st i).2.m_nodes st.m_nodes.length).m_entries =
                (leftOf D st i).length := by
              simp only [hse]
              rw [splitArena_nodeAt_l, leftNodeOf_entries]
            have her : (nodeAt D (split D st i).2.m_nodes
                (st.m_nodes.length + 1)).m_entries = (rightOf D st i).length := by
              simp only [hse]
              rw [splitArena_nodeAt_r, rightNodeOf_entries]
            have hpres : ∀ j, j < st.m_nodes.length →
                (nodeAt D (split D st i).2.m_nodes j).m_entries =
                (nodeAt D st.m_nodes j).m_entries := by
              intro j hj
              simp only [hse]
              exact splitArena_entries_preserved D st i hj hilt
            have hch : ((split D st i).2.m_nodes.getD i (freshNode D [])).m_children =
                (st.m_nodes.length, st.m_nodes.length + 1) := by
              simp only [hse]
              have hii : (splitArena D st.m_nodes i (splitInternalNode D st i)
                  (leftNodeOf D st i) (rightNodeOf D st i)).getD i (freshNode D []) =
                  splitInternalNode D st i := splitArena_nodeAt_i D hilt
              rw [hii]
              exact splitInternalNode_children D st i
            have hstk' : ∀ j ∈ ((st.m_nodes.length + 1) :: st.m_nodes.length :: rest),
                j < (split D st i).2.m_nodes.length ∧
                1 ≤ (nodeAt D (split D st i).2.m_nodes j).m_entries := by
              intro j hj
              rcases List.mem_cons.mp hj with hj1 | hj2
              · refine ⟨by omega, ?_⟩
                rw [hj1, her]
                omega
              · rcases List.mem_cons.mp hj2 with hj1 | hj3
                · refine ⟨by omega, ?_⟩
                  rw [hj1, hel]
                  omega
                · obtain ⟨h1, h2⟩ := hrest j hj3
                  exact ⟨by omega, by rw [hpres j h1]; exact h2⟩
            have hm' : soMeasure D (split D st i).2.m_nodes
                ((st.m_nodes.length + 1) :: st.m_nodes.length :: rest) < fuel := by
              have hrest_eq : (rest.map fun j =>
                  2 * (nodeAt D (split D st i).2.m_nodes j).m_entries - 1).sum =
                  (rest.map fun j => 2 * (nodeAt D st.m_nodes j).m_entries - 1).sum := by
                apply congrArg
                apply List.map_congr_left
                intro j hj
                rw [hpres j (hrest j hj).1]
              have hsum := lr_sum_entries D (hInv.leafLen i hilt hleaf)
              simp only [soMeasure, List.map_cons, List.sum_cons]
              rw [hrest_eq, hel, her]
              omega
            rw [hch]
            obtain ⟨st2, h1, h2, h3, h4⟩ := ih (split D st i).2
              ((st.m_nodes.length + 1) :: st.m_nodes.length :: rest) hInvS hstk' hm'
            rw [hse] at h3 h4
            exact ⟨st2, h1, h2, h3, h4.trans hperm0⟩
        · rw [if_neg hsh]
          refine ih st rest hInv hrest ?_
          simp only [soMeasure]
          omega
      · rw [if_neg (show ¬(st.m_nodes.getD i (freshNode D [])).m_splitDimension = D
          from hleaf)]
        obtain ⟨hc1, hc2, hc3⟩ := hInv.struct i hilt hleaf
        obtain ⟨hp1, hp2⟩ := hInv.posL i hilt hleaf
        have hsz := hInv.sizeL i hilt hleaf
        have hstk' : ∀ j ∈ ((nodeAt D st.m_nodes i).m_children.2 ::
            (nodeAt D st.m_nodes i).m_children.1 :: rest), j < st.m_nodes.length ∧
            1 ≤ (nodeAt D st.m_nodes j).m_entries := by
          intro j hj
          rcases List.mem_cons.mp hj with hj1 | hj2
          · rw [hj1]; exact ⟨hc3, hp2⟩
          · rcases List.mem_cons.mp hj2 with hj1 | hj3
            · rw [hj1]; exact ⟨by omega, hp1⟩
            · exact hrest j hj3
        have hm' : soMeasure D st.m_nodes ((nodeAt D st.m_nodes i).m_children.2 ::
            (nodeAt D st.m_nodes i).m_children.1 :: rest) < fuel := by
          simp only [soMeasure, List.map_cons, List.sum_cons]
          omega
        exact ih st _ hInv hstk' hm'

theorem splitOutstanding_master (D B : ℕ) {st : KDTree α} (hInv : Inv D B st) :
    ∃ st2, splitOutstanding D B st = some st2 ∧ Inv D B st2 ∧
      st2.waitingForSplit = [] ∧
      (subEnt D st2.m_nodes 0).Perm (subEnt D st.m_nodes 0) := by
  have hstk : ∀ i ∈ st.waitingForSplit.reverse, i < st.m_nodes.length ∧
      1 ≤ (nodeAt D st.m_nodes i).m_entries :=
    fun i hi => hInv.waitingOk i (List.mem_reverse.mp hi)
  have hfuel : soMeasure D st.m_nodes st.waitingForSplit.reverse <
      soFuel st st.waitingForSplit.reverse := by
    have hle : ∀ (l : List ℕ),
        (l.map fun i => 2 * (nodeAt D st.m_nodes i).m_entries - 1).sum ≤
        (l.map fun i => 2 * (st.m_nodes.getD i (freshNode 0 [])).m_entries).sum := by
      intro l
      induction l with
      | nil => simp
      | cons x xs ih =>
        simp only [List.map_cons, List.sum_cons]
        have hx : (nodeAt D st.m_nodes x).m_entries =
            (st.m_nodes.getD x (freshNode 0 [])).m_entries := by
          by_cases hxl : x < st.m_nodes.length
          · rw [nodeAt_def, List.getD_eq_getElem _ _ hxl, List.getD_eq_getElem _ _ hxl]
          · rw [nodeAt_oob D (by omega), List.getD_eq_default _ _ (by omega)]
            rfl
        omega
    have h := hle st.waitingForSplit.reverse
    rw [soMeasure, soFuel]
    omega
  obtain ⟨st1, h1, h2, h3, h4⟩ := soLoop_master D B _ st _ hInv hstk hfuel
  refine ⟨{ st1 with waitingForSplit := [] }, ?_, ?_, rfl, h4⟩
  · rw [splitOutstanding, h1]
    rfl
  · exact ⟨h2.lenPos, h2.struct, h2.nodup0, h2.complete, h2.leafLen, h2.leafDefaults,
      h2.tight, h2.sizeL, h2.posL, h2.boundsI, h2.dimsBucket, h2.dimsBounds,
      h2.recycleNil, by intro i hi; simp at hi⟩

end SplitOutstandingLemmas

section RunLemmas

variable {α : Type}

theorem init_inv (D B : ℕ) : Inv D B (KDTree.init D : KDTree α) := by
  have hleaf : ∀ i, (nodeAt D (KDTree.init D : KDTree α).m_nodes i).m_splitDimension = D := by
    intro i
    cases i with
    | zero => rfl
    | succ n => rfl
  have hsub : ∀ i, subtreeIdx D (KDTree.init D : KDTree α).m_nodes i = [i] :=
    fun i => subtreeIdx_leaf D _ (hleaf i)
  constructor
  case lenPos => simp [KDTree.init]
  case struct => intro i hi hint; exact absurd (hleaf i) hint
  case nodup0 => rw [hsub 0]; simp
  case complete =>
    intro j hj
    simp [KDTree.init] at hj
    rw [hsub 0, hj]
    simp
  case leafLen =>
    intro i hi _
    have hi0 : i = 0 := by simp [KDTree.init] at hi; omega
    rw [hi0]
    rfl
  case leafDefaults =>
    intro i hi _
    have hi0 : i = 0 := by simp [KDTree.init] at hi; omega
    rw [hi0]
    exact ⟨rfl, rfl⟩
  case tight =>
    intro i hi _
    have hi0 : i = 0 := by simp [KDTree.init] at hi; omega
    rw [hi0]
    rfl
  case sizeL => intro i hi hint; exact absurd (hleaf i) hint
  case posL => intro i hi hint; exact absurd (hleaf i) hint
  case boundsI => intro i hi hint; exact absurd (hleaf i) hint
  case dimsBucket =>
    intro i hi lp hlp
    have hi0 : i = 0 := by simp [KDTree.init] at hi; omega
    rw [hi0] at hlp
    simp [KDTree.init, nodeAt_def, freshNode] at hlp
  case dimsBounds =>
    intro i hi bs hbs
    have hi0 : i = 0 := by simp [KDTree.init] at hi; omega
    rw [hi0] at hbs
    simp [KDTree.init, nodeAt_def, freshNode] at hbs
  case recycleNil => rfl
  case waitingOk =>
    intro i hi
    simp [KDTree.init] at hi

theorem foldlM_master (D B : ℕ) :
    ∀ (ops : List (Op α)) (st : KDTree α), Inv D B st → DimOk D ops →
      ∃ st2, ops.foldlM (applyOp D B) st = some st2 ∧ Inv D B st2 ∧
        (subEnt D st2.m_nodes 0).Perm (insertedEntries ops ++ subEnt D st.m_nodes 0) := by
  intro ops
  induction ops with
  | nil =>
    intro st h _
    exact ⟨st, rfl, h, by simp [insertedEntries]⟩
  | cons op rest ih =>
    intro st hInv hdim
    cases op with
    | add loc p auto =>
      have hloc : loc.length = D := hdim ⟨loc, p⟩ (by simp [insertedEntries])
      obtain ⟨st1, h1, h2, h3⟩ := addPoint_master D B hInv loc p auto hloc
      have hdim' : DimOk D rest := fun lp hlp => hdim lp (by simp [insertedEntries, hlp])
      obtain ⟨st2, g1, g2, g3⟩ := ih st1 h2 hdim'
      refine ⟨st2, ?_, g2, ?_⟩
      · simp only [List.foldlM_cons, applyOp, h1, Option.some_bind]
        exact g1
      · exact g3.trans ((h3.append_left (insertedEntries rest)).trans List.perm_middle)
    | splitOut =>
      obtain ⟨st1, h1, h2, _, h4⟩ := splitOutstanding_master D B hInv
      have hdim' : DimOk D rest := fun lp hlp => hdim lp (by simp [insertedEntries, hlp])
      obtain ⟨st2, g1, g2, g3⟩ := ih st1 h2 hdim'
      refine ⟨st2, ?_, g2, ?_⟩
      · simp only [List.foldlM_cons, applyOp, h1, Option.some_bind]
        exact g1
      · exact g3.trans (h4.append_left (insertedEntries rest))

theorem run_master (D B : ℕ) (ops : List (Op α)) (hdim : DimOk D ops) :
    ∃ st, run D B ops = some st ∧ Inv D B st ∧
      (subEnt D st.m_nodes 0).Perm (insertedEntries ops) := by
  obtain ⟨st, h1, h2, h3⟩ := foldlM_master D B ops (KDTree.init D) (init_inv D B) hdim
  refine ⟨st, h1, h2, ?_⟩
  have hnil : subEnt D (KDTree.init D : KDTree α).m_nodes 0 = [] := by
    rw [subEnt, subtreeIdx_leaf D _ (show (nodeAt D (KDTree.init D : KDTree α).m_nodes
      0).m_splitDimension = D from rfl)]
    simp [contribAt, nodeAt_def, KDTree.init, freshNode]
  rw [hnil] at h3
  simpa using h3

end RunLemmas

section HeapLemmas

variable {α : Type}

theorem hInsert_perm (dp : DistancePayload α) :
    ∀ h : List (DistancePayload α), (hInsert dp h).Perm (dp :: h) := by
  intro h
  induction h with
  | nil => exact List.Perm.refl _
  | cons x xs ih =>
    rw [hInsert]
    split
    · exact List.Perm.refl _
    · exact (ih.cons x).trans (List.Perm.swap dp x xs)

theorem hInsert_length (dp : DistancePayload α) (h : List (DistancePayload α)) :
    (hInsert dp h).length = h.length + 1 := by
  rw [(hInsert_perm dp h).length_eq]
  rfl

theorem hInsert_descD (dp : DistancePayload α) :
    ∀ {h : List (DistancePayload α)}, descD h → descD (hInsert dp h) := by
  intro h
  induction h with
  | nil => intro _; simp [hInsert, descD]
  | cons x xs ih =>
    intro hs
    rw [descD, List.sorted_cons] at hs
    obtain ⟨hx, hxs⟩ := hs
    rw [hInsert]
    split
    · rename_i hlt
      rw [descD, List.sorted_cons]
      refine ⟨?_, List.sorted_cons.mpr ⟨hx, hxs⟩⟩
      intro y hy
      rcases List.mem_cons.mp hy with hy | hy
      · rw [hy]
        exact le_of_lt hlt
      · exact le_trans (hx y hy) (le_of_lt hlt)
    · rename_i hge
      rw [descD, List.sorted_cons]
      refine ⟨?_, ih hxs⟩
      intro y hy
      have hy2 : y ∈ dp :: xs := (hInsert_perm dp xs).mem_iff.mp hy
      rcases List.mem_cons.mp hy2 with hy2 | hy2
      · rw [hy2]
        exact le_of_not_lt hge
      · exact hx y hy2

theorem heapOK_perm (dist : List ℚ → List ℚ → ℚ) (q : List ℚ) (K : ℕ)
    {h : List (DistancePayload α)} {Q Q' : List (LocationPayload α)}
    (hQ : Q.Perm Q') (hOK : heapOK dist q K h Q) : heapOK dist q K h Q' := by
  obtain ⟨h1, h2, rest, h3, h4⟩ := hOK
  exact ⟨h1, by rw [← hQ.length_eq]; exact h2, rest, h3.trans (hQ.map _), h4⟩

theorem heapOK_top_le {dist : List ℚ → List ℚ → ℚ} {q : List ℚ} {K : ℕ}
    {top : DistancePayload α} {t : List (DistancePayload α)}
    {Q : List (LocationPayload α)} (hOK : heapOK dist q K (top :: t) Q) :
    ∀ y ∈ top :: t, y.distance ≤ top.distance := by
  obtain ⟨h1, _, _, _, _⟩ := hOK
  rw [descD, List.sorted_cons] at h1
  intro y hy
  rcases List.mem_cons.mp hy with hy | hy
  · exact le_of_eq (congrArg DistancePayload.distance hy)
  · exact h1.1 y hy

theorem heapOK_prune (dist : List ℚ → List ℚ → ℚ) (q : List ℚ) (K : ℕ)
    {h : List (DistancePayload α)} {Q E : List (LocationPayload α)}
    (hOK : heapOK dist q K h Q) (hfull : K ≤ h.length)
    (hbig : ∀ lp ∈ E, ∀ y ∈ h, y.distance ≤ dist q lp.location) :
    heapOK dist q K h (Q ++ E) := by
  obtain ⟨h1, h2, rest, h3, h4⟩ := hOK
  have hlenK : h.length = K := by omega
  refine ⟨h1, ?_, rest ++ E.map (dpOf dist q), ?_, ?_⟩
  · rw [List.length_append]
    omega
  · rw [← List.append_assoc, List.map_append]
    exact h3.append_right _
  · intro x hx
    rcases List.mem_append.mp hx with hx | hx
    · exact h4 x hx
    · obtain ⟨lp, hlp, hv⟩ := List.mem_map.mp hx
      refine ⟨hlenK, ?_⟩
      intro y hy
      rw [← hv]
      exact hbig lp hlp y hy

theorem heapOK_insert_room (dist : List ℚ → List ℚ → ℚ) (q : List ℚ) (K : ℕ)
    {h : List (DistancePayload α)} {Q : List (LocationPayload α)}
    (hOK : heapOK dist q K h Q) (hroom : h.length < K) (lp : LocationPayload α) :
    heapOK dist q K (hInsert (dpOf dist q lp) h) (Q ++ [lp]) := by
  obtain ⟨h1, h2, rest, h3, h4⟩ := hOK
  have hrest_nil : rest = [] := by
    cases rest with
    | nil => rfl
    | cons a as => exact absurd (h4 a (by simp)).1 (by omega)
  rw [hrest_nil, List.append_nil] at h3
  refine ⟨hInsert_descD _ h1, ?_, [], ?_, by simp⟩
  · rw [hInsert_length, List.length_append]
    simp only [List.length_cons, List.length_nil]
    omega
  · rw [List.append_nil, List.map_append]
    exact (hInsert_perm _ h).trans ((h3.cons _).trans (List.perm_append_singleton _ _).symm)

theorem heapOK_replace (dist : List ℚ → List ℚ → ℚ) (q : List ℚ) (K : ℕ)
    {top : DistancePayload α} {t : List (DistancePayload α)}
    {Q : List (LocationPayload α)}
    (hOK : heapOK dist q K (top :: t) Q) (hfull : ¬((top :: t).length < K))
    (lp : LocationPayload α) (hlt : dist q lp.location < top.distance) :
    heapOK dist q K (hInsert (dpOf dist q lp) t) (Q ++ [lp]) := by
  obtain ⟨h1, h2, rest, h3, h4⟩ := hOK
  have hlenK : (top :: t).length = K := by
    simp only [List.length_cons] at hfull h2 ⊢
    omega
  rw [descD, List.sorted_cons] at h1
  obtain ⟨htop, ht⟩ := h1
  refine ⟨hInsert_descD _ ht, ?_, top :: rest, ?_, ?_⟩
  · rw [hInsert_length, List.length_append]
    simp only [List.length_cons, List.length_nil] at hlenK h2 ⊢
    omega
  · rw [List.map_append]
    exact ((hInsert_perm _ t).append_right _).trans
      ((List.perm_middle.cons _).trans
        ((h3.cons _).trans (List.perm_append_singleton _ _).symm))
  · intro x hx
    rcases List.mem_cons.mp hx with hx | hx
    · refine ⟨by rw [hInsert_length]; simp only [List.length_cons] at hlenK; omega, ?_⟩
      intro y hy
      have hy2 : y ∈ dpOf dist q lp :: t := (hInsert_perm _ t).mem_iff.mp hy
      rw [hx]
      rcases List.mem_cons.mp hy2 with hy2 | hy2
      · rw [hy2]
        exact le_of_lt hlt
      · exact htop y hy2
    · obtain ⟨hxK, hxall⟩ := h4 x hx
      refine ⟨by rw [hInsert_length]; simp only [List.length_cons] at hxK; omega, ?_⟩
      intro y hy
      have hy2 : y ∈ dpOf dist q lp :: t := (hInsert_perm _ t).mem_iff.mp hy
      rcases List.mem_cons.mp hy2 with hy2 | hy2
      · rw [hy2]
        exact le_trans (le_of_lt hlt) (hxall top (by simp))
      · exact hxall y (by simp [hy2])

theorem heapOK_keep (dist : List ℚ → List ℚ → ℚ) (q : List ℚ) (K : ℕ)
    {top : DistancePayload α} {t : List (DistancePayload α)}
    {Q : List (LocationPayload α)}
    (hOK : heapOK dist q K (top :: t) Q) (hfull : ¬((top :: t).length < K))
    (lp : LocationPayload α) (hge : ¬(dist q lp.location < top.distance)) :
    heapOK dist q K (top :: t) (Q ++ [lp]) := by
  refine heapOK_prune dist q K hOK (by omega) ?_
  intro lp' hlp'
  have : lp' = lp := by simpa using hlp'
  rw [this]
  intro y hy
  exact le_trans (heapOK_top_le hOK y hy) (le_of_not_lt hge)

theorem bucketStep_heapOK (dist : List ℚ → List ℚ → ℚ) (q : List ℚ) (K : ℕ) (hK : 0 < K)
    {h : List (DistancePayload α)} {Q : List (LocationPayload α)}
    (hOK : heapOK dist q K h Q) (lp : LocationPayload α) :
    heapOK dist q K (bucketStep dist q K h lp) (Q ++ [lp]) := by
  cases h with
  | nil =>
    have hb : bucketStep dist q K [] lp = hInsert (dpOf dist q lp) [] := by
      simp only [bucketStep]
      rw [if_pos (by simpa using hK)]
      rfl
    rw [hb]
    exact heapOK_insert_room dist q K hOK (by simpa using hK) lp
  | cons top t =>
    by_cases hfull : (top :: t).length < K
    · have hb : bucketStep dist q K (top :: t) lp = hInsert (dpOf dist q lp) (top :: t) := by
        simp only [bucketStep]
        rw [if_pos hfull]
        rfl
      rw [hb]
      exact heapOK_insert_room dist q K hOK hfull lp
    · by_cases hlt : dist q lp.location < top.distance
      · have hb : bucketStep dist q K (top :: t) lp = hInsert (dpOf dist q lp) t := by
          simp only [bucketStep]
          rw [if_neg hfull, if_pos hlt]
          rfl
        rw [hb]
        exact heapOK_replace dist q K hOK hfull lp hlt
      · have hb : bucketStep dist q K (top :: t) lp = top :: t := by
          simp only [bucketStep]
          rw [if_neg hfull, if_neg hlt]
        rw [hb]
        exact heapOK_keep dist q K hOK hfull lp hlt

theorem foldl_bucketStep_heapOK (dist : List ℚ → List ℚ → ℚ) (q : List ℚ) (K : ℕ)
    (hK : 0 < K) :
    ∀ (l : List (LocationPayload α)) (h : List (DistancePayload α))
      (Q : List (LocationPayload α)), heapOK dist q K h Q →
      heapOK dist q K (l.foldl (bucketStep dist q K) h) (Q ++ l) := by
  intro l
  induction l with
  | nil =>
    intro h Q hOK
    simpa using hOK
  | cons x xs ih =>
    intro h Q hOK
    have h1 := bucketStep_heapOK dist q K hK hOK x
    have h2 := ih _ _ h1
    rw [List.foldl_cons]
    have he : (Q ++ [x]) ++ xs = Q ++ x :: xs := by simp
    rw [← he]
    exact h2

theorem heapOK_nil (dist : List ℚ → List ℚ → ℚ) (q : List ℚ) (K : ℕ) :
    heapOK dist q K ([] : List (DistancePayload α)) [] := by
  refine ⟨by simp [descD], by simp, [], by simp, by simp⟩

end HeapLemmas

section SearchLemmas

variable {α : Type}

theorem inv_subEnt_dims (D B : ℕ) {st : KDTree α} (hInv : Inv D B st) {j : ℕ}
    (hj : j < st.m_nodes.length) :
    ∀ lp ∈ subEnt D st.m_nodes j, lp.location.length = D := by
  intro lp hlp
  obtain ⟨x, hx, hleaf, hmem⟩ := (mem_subEnt_iff D st.m_nodes j lp).mp hlp
  have hxlt : x < st.m_nodes.length := subtreeIdx_mem_lt D hInv.struct hj hx
  exact hInv.dimsBucket x hxlt lp (List.take_subset _ _ hmem)

theorem prd_le_subEnt (D B : ℕ) {st : KDTree α} (hInv : Inv D B st)
    {dist : List ℚ → List ℚ → ℚ} (hml : MetricLB D dist) {q : List ℚ}
    (hq : q.length = D) {i : ℕ} (hi : i < st.m_nodes.length) {p : ℚ}
    (hp : (nodeAt D st.m_nodes i).pointRectDist dist q = some p) :
    ∀ lp ∈ subEnt D st.m_nodes i, p ≤ dist q lp.location := by
  intro lp hlp
  obtain ⟨bs, hbs, hbox, hbl⟩ := inv_boundsAll D B hInv hi lp hlp
  have hloc := inv_subEnt_dims D B hInv hi lp hlp
  simp only [Node.pointRectDist, hbs] at hp
  injection hp with hp
  rw [← hp]
  exact hml bs q lp.location hbl hq hloc hbox

theorem prd_none_empty (D B : ℕ) {st : KDTree α} (hInv : Inv D B st)
    (dist : List ℚ → List ℚ → ℚ) {q : List ℚ} {i : ℕ}
    (hi : i < st.m_nodes.length)
    (hp : (nodeAt D st.m_nodes i).pointRectDist dist q = none) :
    subEnt D st.m_nodes i = [] := by
  cases hse : subEnt D st.m_nodes i with
  | nil => rfl
  | cons lp rest =>
    obtain ⟨bs, hbs, _, _⟩ := inv_boundsAll D B hInv hi lp (by rw [hse]; simp)
    rw [Node.pointRectDist] at hp
    simp only [hbs] at hp
    exact absurd hp (by simp)

theorem three_pow_lt {len i c1 c2 : ℕ} (h1 : i < c1) (h2 : c1 < c2) (h3 : c2 < len) :
    3 ^ (len - c1) + 3 ^ (len - c2) < 3 ^ (len - i) := by
  have ha : 3 ^ (len - c1) ≤ 3 ^ (len - i - 1) :=
    Nat.pow_le_pow_right (by omega) (by omega)
  have hb : 3 ^ (len - c2) ≤ 3 ^ (len - i - 1) :=
    Nat.pow_le_pow_right (by omega) (by omega)
  have hsplit : len - i = (len - i - 1) + 1 := by omega
  have hc : 3 ^ (len - i) = 3 * 3 ^ (len - i - 1) := by
    conv_lhs => rw [hsplit]
    rw [pow_succ']
  have hpos : 0 < 3 ^ (len - i - 1) := Nat.pow_pos (by omega)
  omega

theorem searchLoop_cons (dist : List ℚ → List ℚ → ℚ) (D K : ℕ) (q : List ℚ)
    (nodes : List (Node α)) (fuel i : ℕ) (rest : List ℕ)
    (h : List (DistancePayload α)) :
    searchLoop dist D q K nodes (fuel + 1) (i :: rest) h =
      if sLive dist D q K nodes i h = true
      then
        (if (nodeAt D nodes i).m_splitDimension = D then
          searchLoop dist D q K nodes fuel rest
            ((nodeAt D nodes i).searchBucket dist q K h)
        else
          searchLoop dist D q K nodes fuel ((nodeAt D nodes i).addChildren q rest) h)
      else searchLoop dist D q K nodes fuel rest h := rfl

theorem searchLoop_master (dist : List ℚ → List ℚ → ℚ) (D B K : ℕ) (q : List ℚ)
    {st : KDTree α} (hInv : Inv D B st) (hml : MetricLB D dist)
    (hq : q.length = D) (hK : 0 < K) :
    ∀ (fuel : ℕ) (S : List ℕ) (h : List (DistancePayload α))
      (Q : List (LocationPayload α)),
      (∀ i ∈ S, i < st.m_nodes.length) →
      sMeasure st.m_nodes.length S < fuel →
      heapOK dist q K h Q →
      ∃ h2, searchLoop dist D q K st.m_nodes fuel S h = some h2 ∧
        heapOK dist q K h2 (Q ++ S.flatMap (subEnt D st.m_nodes)) := by
  intro fuel
  induction fuel with
  | zero => intro S h Q _ hm _; omega
  | succ fuel ih =>
    intro S h Q hS hm hOK
    cases S with
    | nil =>
      refine ⟨h, rfl, ?_⟩
      simpa using hOK
    | cons i rest =>
      have hilt : i < st.m_nodes.length := hS i (by simp)
      have hrest : ∀ j ∈ rest, j < st.m_nodes.length := fun j hj => hS j (by simp [hj])
      simp only [sMeasure, List.map_cons, List.sum_cons] at hm
      have hpow : 0 < 3 ^ (st.m_nodes.length - i) := Nat.pow_pos (by omega)
      rw [searchLoop_cons]
      by_cases hlivep : sLive dist D q K st.m_nodes i h = true
      case neg =>
        rw [if_neg hlivep]
        rw [Bool.not_eq_true, sLive.eq_def, Bool.or_eq_false_iff] at hlivep
        obtain ⟨hl1, hl2⟩ := hlivep
        rw [← nodeAt_def] at hl2
        have hnotroom : ¬(h.length < K) := by simpa using hl1
        cases h with
        | nil =>
          exfalso
          simp at hnotroom
          omega
        | cons top t =>
          have hbig : ∀ lp ∈ subEnt D st.m_nodes i,
              ∀ y ∈ top :: t, y.distance ≤ dist q lp.location := by
            cases hprd : (nodeAt D st.m_nodes i).pointRectDist dist q with
            | none =>
              rw [prd_none_empty D B hInv dist hilt hprd]
              intro lp hlp
              simp at hlp
            | some p =>
              have htople : top.distance ≤ p := by
                simp only [hprd, gtO] at hl2
                exact le_of_not_lt (by simpa using hl2)
              intro lp hlp y hy
              exact le_trans (le_trans (heapOK_top_le hOK y hy) htople)
                (prd_le_subEnt D B hInv hml hq hilt hprd lp hlp)
          have hOK2 : heapOK dist q K (top :: t) (Q ++ subEnt D st.m_nodes i) :=
            heapOK_prune dist q K hOK (by omega) hbig
          obtain ⟨h2, hh2, hOK3⟩ := ih rest (top :: t) (Q ++ subEnt D st.m_nodes i)
            hrest (by simp only [sMeasure]; omega) hOK2
          refine ⟨h2, hh2, ?_⟩
          rw [List.flatMap_cons, ← List.append_assoc]
          exact hOK3
      case pos =>
        rw [if_pos hlivep]
        by_cases hleaf : (nodeAt D st.m_nodes i).m_splitDimension = D
        · rw [if_pos hleaf]
          have hOK2 : heapOK dist q K
              ((nodeAt D st.m_nodes i).searchBucket dist q K h)
              (Q ++ subEnt D st.m_nodes i) := by
            rw [subEnt_leaf D st.m_nodes hleaf]
            exact foldl_bucketStep_heapOK dist q K hK _ h Q hOK
          obtain ⟨h2, hh2, hOK3⟩ := ih rest _ (Q ++ subEnt D st.m_nodes i)
            hrest (by simp only [sMeasure]; omega) hOK2
          refine ⟨h2, hh2, ?_⟩
          rw [List.flatMap_cons, ← List.append_assoc]
          exact hOK3
        · rw [if_neg hleaf]
          obtain ⟨hc1, hc2, hc3⟩ := hInv.struct i hilt hleaf
          have hintEnt := subEnt_internal D hInv.struct hleaf
          rw [Node.addChildren]
          by_cases hside : q.getD (nodeAt D st.m_nodes i).m_splitDimension 0 <
              (nodeAt D st.m_nodes i).m_splitValue
          · rw [if_pos hside]
            have hS' : ∀ j ∈ ((nodeAt D st.m_nodes i).m_children.1 ::
                (nodeAt D st.m_nodes i).m_children.2 :: rest),
                j < st.m_nodes.length := by
              intro j hj
              rcases List.mem_cons.mp hj with hj | hj
              · omega
              · rcases List.mem_cons.mp hj with hj | hj
                · omega
                · exact hrest j hj
            have hm' : sMeasure st.m_nodes.length ((nodeAt D st.m_nodes i).m_children.1 ::
                (nodeAt D st.m_nodes i).m_children.2 :: rest) < fuel := by
              simp only [sMeasure, List.map_cons, List.sum_cons]
              have := three_pow_lt hc1 hc2 hc3
              omega
            obtain ⟨h2, hh2, hOK3⟩ := ih _ h Q hS' hm' hOK
            simp only [List.flatMap_cons] at hOK3
            refine ⟨h2, hh2, ?_⟩
            rw [List.flatMap_cons, hintEnt, List.append_assoc]
            exact hOK3
          · rw [if_neg hside]
            have hS' : ∀ j ∈ ((nodeAt D st.m_nodes i).m_children.2 ::
                (nodeAt D st.m_nodes i).m_children.1 :: rest),
                j < st.m_nodes.length := by
              intro j hj
              rcases List.mem_cons.mp hj with hj | hj
              · omega
              · rcases List.mem_cons.mp hj with hj | hj
                · omega
                · exact hrest j hj
            have hm' : sMeasure st.m_nodes.length ((nodeAt D st.m_nodes i).m_children.2 ::
                (nodeAt D st.m_nodes i).m_children.1 :: rest) < fuel := by
              simp only [sMeasure, List.map_cons, List.sum_cons]
              have := three_pow_lt hc1 hc2 hc3
              omega
            obtain ⟨h2, hh2, hOK3⟩ := ih _ h Q hS' hm' hOK
            refine ⟨h2, hh2, ?_⟩
            refine heapOK_perm dist q K ?_ hOK3
            simp only [List.flatMap_cons]
            rw [hintEnt]
            refine List.Perm.append_left Q ?_
            rw [← List.append_assoc]
            exact List.perm_append_comm.append_right _

theorem insD_perm (x : DistancePayload α) :
    ∀ l : List (DistancePayload α), (insD x l).Perm (x :: l) := by
  intro l
  induction l with
  | nil => exact List.Perm.refl _
  | cons y ys ih =>
    rw [insD]
    split
    · exact List.Perm.refl _
    · exact (ih.cons y).trans (List.Perm.swap x y ys)

theorem sortD_perm : ∀ l : List (DistancePayload α), (sortD l).Perm l := by
  intro l
  induction l with
  | nil => exact List.Perm.refl _
  | cons x xs ih => exact (insD_perm x (sortD xs)).trans (ih.cons x)

theorem insD_sorted (x : DistancePayload α) :
    ∀ {l : List (DistancePayload α)},
      List.Sorted (fun a b : DistancePayload α => a.distance ≤ b.distance) l →
      List.Sorted (fun a b : DistancePayload α => a.distance ≤ b.distance) (insD x l) := by
  intro l
  induction l with
  | nil => intro _; simp [insD]
  | cons y ys ih =>
    intro hs
    rw [List.sorted_cons] at hs
    obtain ⟨hy, hys⟩ := hs
    rw [insD]
    split
    · rename_i hle
      rw [List.sorted_cons]
      refine ⟨?_, List.sorted_cons.mpr ⟨hy, hys⟩⟩
      intro b hb
      rcases List.mem_cons.mp hb with hb | hb
      · rw [hb]
        exact hle
      · exact le_trans hle (hy b hb)
    · rename_i hgt
      rw [List.sorted_cons]
      refine ⟨?_, ih hys⟩
      intro b hb
      have hb2 := (insD_perm x ys).mem_iff.mp hb
      rcases List.mem_cons.mp hb2 with hb2 | hb2
      · rw [hb2]
        exact le_of_not_le hgt
      · exact hy b hb2

theorem sortD_sorted : ∀ l : List (DistancePayload α),
    List.Sorted (fun a b : DistancePayload α => a.distance ≤ b.distance) (sortD l) := by
  intro l
  induction l with
  | nil => simp [sortD]
  | cons x xs ih => exact insD_sorted x ih

theorem sorted_map_distance {l : List (DistancePayload α)}
    (h : List.Sorted (fun a b : DistancePayload α => a.distance ≤ b.distance) l) :
    List.Sorted (fun a b : ℚ => a ≤ b) (l.map DistancePayload.distance) := by
  induction l with
  | nil => simp
  | cons x xs ih =>
    rw [List.sorted_cons] at h
    rw [List.map_cons, List.sorted_cons]
    refine ⟨?_, ih h.2⟩
    intro b hb
    obtain ⟨y, hy, hv⟩ := List.mem_map.mp hb
    rw [← hv]
    exact h.1 y hy

theorem sorted_take_unique : ∀ (u w v : List ℚ),
    List.Sorted (fun a b : ℚ => a ≤ b) u → List.Sorted (fun a b : ℚ => a ≤ b) w →
    (u ++ v).Perm w → (∀ x ∈ v, ∀ y ∈ u, y ≤ x) → u = w.take u.length := by
  intro u
  induction u with
  | nil => intro w v _ _ _ _; rfl
  | cons a u' ih =>
    intro w v hu hw hperm hsep
    cases w with
    | nil =>
      exfalso
      have hle := hperm.length_eq
      simp at hle
    | cons b w' =>
      rw [List.sorted_cons] at hu hw
      obtain ⟨ha, hu'⟩ := hu
      obtain ⟨hb, hw'⟩ := hw
      have hab : a = b := by
        have hbmem : b ∈ (a :: u') ++ v := hperm.mem_iff.mpr (by simp)
        have hamem : a ∈ b :: w' := hperm.mem_iff.mp (by simp)
        have h1 : a ≤ b := by
          rcases List.mem_append.mp hbmem with hbm | hbm
          · rcases List.mem_cons.mp hbm with hbm | hbm
            · exact le_of_eq hbm.symm
            · exact ha b hbm
          · exact hsep b hbm a (by simp)
        have h2 : b ≤ a := by
          rcases List.mem_cons.mp hamem with ham | ham
          · exact le_of_eq ham.symm
          · exact hb a ham
        linarith
      subst hab
      have hperm' : (u' ++ v).Perm w' := (List.perm_cons a).mp (by simpa using hperm)
      have hres := ih w' v hu' hw' hperm' (fun x hx y hy => hsep x hx y (by simp [hy]))
      simp only [List.length_cons, List.take_succ_cons]
      rw [← hres]

theorem take_min {β : Type} (l : List β) (k : ℕ) : l.take k = l.take (min k l.length) := by
  rcases Nat.le_total k l.length with hle | hle
  · rw [Nat.min_def, if_pos hle]
  · rw [Nat.min_def]
    by_cases hkl : k ≤ l.length
    · rw [if_pos hkl]
    · rw [if_neg hkl, List.take_of_length_le hle, List.take_length]

theorem descD_reverse {h : List (DistancePayload α)} (hd : descD h) :
    List.Sorted (fun a b : DistancePayload α => a.distance ≤ b.distance) h.reverse := by
  induction h with
  | nil => simp
  | cons x xs ih =>
    rw [descD, List.sorted_cons] at hd
    rw [List.reverse_cons]
    refine List.pairwise_append.mpr ⟨ih hd.2, by simp, ?_⟩
    intro a ha b hb
    simp at hb
    rw [hb]
    exact hd.1 a (by simpa using ha)

theorem searchK_master (dist : List ℚ → List ℚ → ℚ) (D B : ℕ) {st : KDTree α}
    (hInv : Inv D B st) (hml : MetricLB D dist) {q : List ℚ} (hq : q.length = D)
    (k : ℕ) :
    ∃ res, searchK dist D st q k = some res ∧
      res.length = min k (rootEntries st) ∧
      List.Sorted (fun a b : DistancePayload α => a.distance ≤ b.distance) res ∧
      ∃ rest, (res ++ rest).Perm ((subEnt D st.m_nodes 0).map (dpOf dist q)) ∧
        ∀ x ∈ rest, ∀ y ∈ res, y.distance ≤ x.distance := by
  have hN : rootEntries st = (subEnt D st.m_nodes 0).length := inv_rootEntries D B hInv
  have hk2eq : (if rootEntries st < k then rootEntries st else k) =
      min k (rootEntries st) := by
    split <;> omega
  by_cases hk2 : 0 < (if rootEntries st < k then rootEntries st else k)
  · have hfuel : sMeasure st.m_nodes.length [0] < searchFuel st.m_nodes := by
      simp only [sMeasure, searchFuel, List.map_cons, List.map_nil, List.sum_cons,
        List.sum_nil, Nat.sub_zero]
      omega
    obtain ⟨h2, hh2, hOK⟩ := searchLoop_master dist D B _ q hInv hml hq hk2
      (searchFuel st.m_nodes) [0] [] []
      (fun i hi => by simp at hi; rw [hi]; exact hInv.lenPos) hfuel
      (heapOK_nil dist q _)
    rw [show ([] : List (LocationPayload α)) ++ [0].flatMap (subEnt D st.m_nodes) =
      subEnt D st.m_nodes 0 by simp] at hOK
    obtain ⟨hdesc, hlen, rest, hperm, hrest⟩ := hOK
    rw [← hN, hk2eq] at hlen
    refine ⟨h2.reverse, ?_, ?_, descD_reverse hdesc, rest, ?_, ?_⟩
    · simp only [searchK]
      rw [if_pos hk2, hh2]
      rfl
    · rw [List.length_reverse, hlen]
      omega
    · exact ((List.reverse_perm h2).append_right rest).trans hperm
    · intro x hx y hy
      exact (hrest x hx).2 y (List.mem_reverse.mp hy)
  · have h0 : min k (rootEntries st) = 0 := by omega
    refine ⟨[], ?_, by simp [h0], by simp, (subEnt D st.m_nodes 0).map (dpOf dist q),
      ?_, by simp⟩
    · simp only [searchK]
      rw [if_neg hk2]
    · simp only [List.nil_append]
      exact List.Perm.refl _

end SearchLemmas

section BallLemmas

variable {α : Type}

theorem ballLoop_cons (dist : List ℚ → List ℚ → ℚ) (D : ℕ) (q : List ℚ) (r : ℚ)
    (nodes : List (Node α)) (fuel i : ℕ) (rest : List ℕ)
    (acc : List (DistancePayload α)) :
    ballLoop dist D q r nodes (fuel + 1) (i :: rest) acc =
      if bLive dist D q r nodes i = true then
        (if (nodeAt D nodes i).m_splitDimension = D then
          ballLoop dist D q r nodes fuel rest
            (acc ++ ((nodeAt D nodes i).m_locationPayloads.take
              (nodeAt D nodes i).m_entries).filterMap (ballKeep dist q r))
        else ballLoop dist D q r nodes fuel ((nodeAt D nodes i).addChildren q rest) acc)
      else ballLoop dist D q r nodes fuel rest acc := rfl

theorem ballLoop_master (dist : List ℚ → List ℚ → ℚ) (D B : ℕ) (q : List ℚ) (r : ℚ)
    {st : KDTree α} (hInv : Inv D B st) (hml : MetricLB D dist) (hq : q.length = D) :
    ∀ (fuel : ℕ) (S : List ℕ) (acc : List (DistancePayload α)),
      (∀ i ∈ S, i < st.m_nodes.length) →
      sMeasure st.m_nodes.length S < fuel →
      ∃ acc2, ballLoop dist D q r st.m_nodes fuel S acc = some acc2 ∧
        acc2.Perm (acc ++ (S.flatMap (subEnt D st.m_nodes)).filterMap
          (ballKeep dist q r)) := by
  intro fuel
  induction fuel with
  | zero => intro S acc _ hm; omega
  | succ fuel ih =>
    intro S acc hS hm
    cases S with
    | nil => exact ⟨acc, rfl, by simp⟩
    | cons i rest =>
      have hilt : i < st.m_nodes.length := hS i (by simp)
      have hrest : ∀ j ∈ rest, j < st.m_nodes.length := fun j hj => hS j (by simp [hj])
      simp only [sMeasure, List.map_cons, List.sum_cons] at hm
      have hpow : 0 < 3 ^ (st.m_nodes.length - i) := Nat.pow_pos (by omega)
      rw [ballLoop_cons]
      by_cases hlive : bLive dist D q r st.m_nodes i = true
      · rw [if_pos hlive]
        by_cases hleaf : (nodeAt D st.m_nodes i).m_splitDimension = D
        · rw [if_pos hleaf]
          obtain ⟨acc2, h1, h2⟩ := ih rest _ hrest (by simp only [sMeasure]; omega)
          refine ⟨acc2, h1, ?_⟩
          refine h2.trans ?_
          simp only [List.flatMap_cons, List.filterMap_append, List.append_assoc]
          rw [subEnt_leaf D st.m_nodes hleaf]
        · rw [if_neg hleaf]
          obtain ⟨hc1, hc2, hc3⟩ := hInv.struct i hilt hleaf
          have hintEnt := subEnt_internal D hInv.struct hleaf
          rw [Node.addChildren]
          by_cases hside : q.getD (nodeAt D st.m_nodes i).m_splitDimension 0 <
              (nodeAt D st.m_nodes i).m_splitValue
          · rw [if_pos hside]
            have hS' : ∀ j ∈ ((nodeAt D st.m_nodes i).m_children.1 ::
                (nodeAt D st.m_nodes i).m_children.2 :: rest),
                j < st.m_nodes.length := by
              intro j hj
              rcases List.mem_cons.mp hj with hj | hj
              · omega
              · rcases List.mem_cons.mp hj with hj | hj
                · omega
                · exact hrest j hj
            have hm' : sMeasure st.m_nodes.length ((nodeAt D st.m_nodes i).m_children.1 ::
                (nodeAt D st.m_nodes i).m_children.2 :: rest) < fuel := by
              simp only [sMeasure, List.map_cons, List.sum_cons]
              have := three_pow_lt hc1 hc2 hc3
              omega
            obtain ⟨acc2, h1, h2⟩ := ih _ acc hS' hm'
            refine ⟨acc2, h1, ?_⟩
            refine h2.trans ?_
            simp only [List.flatMap_cons]
            rw [hintEnt]
            simp only [List.filterMap_append, List.append_assoc]
            exact List.Perm.refl _
          · rw [if_neg hside]
            have hS' : ∀ j ∈ ((nodeAt D st.m_nodes i).m_children.2 ::
                (nodeAt D st.m_nodes i).m_children.1 :: rest),
                j < st.m_nodes.length := by
              intro j hj
              rcases List.mem_cons.mp hj with hj | hj
              · omega
              · rcases List.mem_cons.mp hj with hj | hj
                · omega
                · exact hrest j hj
            have hm' : sMeasure st.m_nodes.length ((nodeAt D st.m_nodes i).m_children.2 ::
                (nodeAt D st.m_nodes i).m_children.1 :: rest) < fuel := by
              simp only [sMeasure, List.map_cons, List.sum_cons]
              have := three_pow_lt hc1 hc2 hc3
              omega
            obtain ⟨acc2, h1, h2⟩ := ih _ acc hS' hm'
            refine ⟨acc2, h1, ?_⟩
            refine h2.trans ?_
            simp only [List.flatMap_cons]
            rw [hintEnt]
            simp only [List.filterMap_append, List.append_assoc]
            refine List.Perm.append_left acc ?_
            rw [← List.append_assoc, ← List.append_assoc]
            exact List.perm_append_comm.append_right _
      · rw [if_neg hlive]
        have hlive2 := hlive
        rw [Bool.not_eq_true, bLive.eq_def] at hlive2
        rw [← nodeAt_def] at hlive2
        have hents : (subEnt D st.m_nodes i).filterMap (ballKeep dist q r) = [] := by
          cases hprd : (nodeAt D st.m_nodes i).pointRectDist dist q with
          | none =>
            rw [prd_none_empty D B hInv dist hilt hprd]
            rfl
          | some p =>
            rw [hprd] at hlive2
            have hpr : ¬(p ≤ r) := by simpa using hlive2
            rw [List.filterMap_eq_nil_iff]
            intro lp hlp
            rw [ballKeep, if_neg ?_]
            have hple := prd_le_subEnt D B hInv hml hq hilt hprd lp hlp
            intro hc
            exact hpr (le_trans hple hc)
        obtain ⟨acc2, h1, h2⟩ := ih rest acc hrest (by simp only [sMeasure]; omega)
        refine ⟨acc2, h1, ?_⟩
        refine h2.trans ?_
        rw [List.flatMap_cons, List.filterMap_append, hents, List.nil_append]

theorem searchBall_master (dist : List ℚ → List ℚ → ℚ) (D B : ℕ) (q : List ℚ) (r : ℚ)
    {st : KDTree α} (hInv : Inv D B st) (hml : MetricLB D dist) (hq : q.length = D) :
    ∃ res, searchBall dist D st q r = some res ∧
      List.Sorted (fun a b : DistancePayload α => a.distance ≤ b.distance) res ∧
      (∀ x ∈ res, x.distance ≤ r) ∧
      res.Perm ((subEnt D st.m_nodes 0).filterMap (ballKeep dist q r)) := by
  have hfuel : sMeasure st.m_nodes.length [0] < searchFuel st.m_nodes := by
    simp only [sMeasure, searchFuel, List.map_cons, List.map_nil, List.sum_cons,
      List.sum_nil, Nat.sub_zero]
    omega
  obtain ⟨acc2, h1, h2⟩ := ballLoop_master dist D B q r hInv hml hq
    (searchFuel st.m_nodes) [0] []
    (fun i hi => by simp at hi; rw [hi]; exact hInv.lenPos) hfuel
  rw [show ([] : List (DistancePayload α)) ++
      ([0].flatMap (subEnt D st.m_nodes)).filterMap (ballKeep dist q r) =
      (subEnt D st.m_nodes 0).filterMap (ballKeep dist q r) by simp] at h2
  have hperm : (sortD acc2).Perm ((subEnt D st.m_nodes 0).filterMap (ballKeep dist q r)) :=
    (sortD_perm acc2).trans h2
  refine ⟨sortD acc2, ?_, sortD_sorted acc2, ?_, hperm⟩
  · rw [searchBall, h1]
    rfl
  · intro x hx
    have hx2 : x ∈ (subEnt D st.m_nodes 0).filterMap (ballKeep dist q r) :=
      hperm.mem_iff.mp hx
    obtain ⟨lp, _, hv⟩ := List.mem_filterMap.mp hx2
    rw [ballKeep] at hv
    by_cases hle : dist q lp.location ≤ r
    · rw [if_pos hle] at hv
      injection hv with hv
      rw [← hv]
      exact hle
    · rw [if_neg hle] at hv
      exact absurd hv (by simp)

end BallLemmas

section OneNearestLemmas

variable {α : Type}

theorem bounds_isSome_of_entries (D B : ℕ) {st : KDTree α} (hInv : Inv D B st)
    {i : ℕ} (hi : i < st.m_nodes.length)
    (he : 1 ≤ (nodeAt D st.m_nodes i).m_entries) :
    ∃ bs, (nodeAt D st.m_nodes i).m_bounds = some bs := by
  by_cases hleaf : (nodeAt D st.m_nodes i).m_splitDimension = D
  · have hll := hInv.leafLen i hi hleaf
    have hne : (nodeAt D st.m_nodes i).m_locationPayloads ≠ [] := by
      intro hc
      rw [hc] at hll
      simp at hll
      omega
    rw [hInv.tight i hi hleaf]
    cases hh : hullOf ((nodeAt D st.m_nodes i).m_locationPayloads.map
        LocationPayload.location) with
    | none =>
      exfalso
      have hmap := hullOf_eq_none hh
      exact hne (by simpa using hmap)
    | some bs => exact ⟨bs, rfl⟩
  · obtain ⟨bs, hbs, _⟩ := hInv.boundsI i hi hleaf
    exact ⟨bs, hbs⟩

theorem bestStep_bucketStep (dist : List ℚ → List ℚ → ℚ) (q : List ℚ)
    {h : List (DistancePayload α)} (hlen : h.length ≤ 1) (lp : LocationPayload α) :
    bestStep dist q h.head? lp = (bucketStep dist q 1 h lp).head? ∧
      (bucketStep dist q 1 h lp).length ≤ 1 := by
  cases h with
  | nil =>
    refine ⟨rfl, ?_⟩
    simp [bucketStep, hInsert]
  | cons x t =>
    have ht : t = [] := by
      simp only [List.length_cons] at hlen
      exact List.eq_nil_of_length_eq_zero (by omega)
    subst ht
    have hL : bestStep dist q ([x].head?) lp =
        (if dist q lp.location < x.distance then some (dpOf dist q lp) else some x) :=
      rfl
    have hR : bucketStep dist q 1 [x] lp =
        (if dist q lp.location < x.distance then [dpOf dist q lp] else [x]) := by
      simp only [bucketStep]
      rw [if_neg (show ¬([x].length < 1) by simp)]
      by_cases hlt : dist q lp.location < x.distance
      · rw [if_pos hlt, if_pos hlt]
        rfl
      · rw [if_neg hlt, if_neg hlt]
    constructor
    · rw [hL, hR]
      by_cases hlt : dist q lp.location < x.distance
      · rw [if_pos hlt, if_pos hlt]
        rfl
      · rw [if_neg hlt, if_neg hlt]
        rfl
    · rw [hR]
      by_cases hlt : dist q lp.location < x.distance
      · rw [if_pos hlt]
        simp
      · rw [if_neg hlt]
        simp

theorem foldl_bestStep_bucketStep (dist : List ℚ → List ℚ → ℚ) (q : List ℚ) :
    ∀ (l : List (LocationPayload α)) (h : List (DistancePayload α)), h.length ≤ 1 →
      l.foldl (bestStep dist q) h.head? = (l.foldl (bucketStep dist q 1) h).head? ∧
      (l.foldl (bucketStep dist q 1) h).length ≤ 1 := by
  intro l
  induction l with
  | nil => intro h hl; exact ⟨rfl, hl⟩
  | cons x xs ih =>
    intro h hl
    obtain ⟨e1, e2⟩ := bestStep_bucketStep dist q hl x
    rw [List.foldl_cons, List.foldl_cons, e1]
    exact ih _ e2

theorem searchOneLoop_cons (dist : List ℚ → List ℚ → ℚ) (D : ℕ) (q : List ℚ)
    (nodes : List (Node α)) (fuel i : ℕ) (rest : List ℕ)
    (best : Option (DistancePayload α)) :
    searchOneLoop dist D q nodes (fuel + 1) (i :: rest) best =
      if bestGt best ((nodeAt D nodes i).pointRectDist dist q) = true then
        (if (nodeAt D nodes i).m_splitDimension = D then
          searchOneLoop dist D q nodes fuel rest
            ((nodeAt D nodes i).m_locationPayloads.foldl (bestStep dist q) best)
        else searchOneLoop dist D q nodes fuel ((nodeAt D nodes i).addChildren q rest) best)
      else searchOneLoop dist D q nodes fuel rest best := rfl

theorem searchOne_bisim (dist : List ℚ → List ℚ → ℚ) (D B : ℕ) (q : List ℚ)
    {st : KDTree α} (hInv : Inv D B st) :
    ∀ (fuel : ℕ) (S : List ℕ) (h : List (DistancePayload α)),
      (∀ i ∈ S, i < st.m_nodes.length ∧ 1 ≤ (nodeAt D st.m_nodes i).m_entries) →
      h.length ≤ 1 →
      searchOneLoop dist D q st.m_nodes fuel S h.head? =
        (searchLoop dist D q 1 st.m_nodes fuel S h).map List.head? := by
  intro fuel
  induction fuel with
  | zero => intro S h _ _; rfl
  | succ fuel ih =>
    intro S h hS hl
    cases S with
    | nil => rfl
    | cons i rest =>
      obtain ⟨hilt, hie⟩ := hS i (by simp)
      have hrest : ∀ j ∈ rest, j < st.m_nodes.length ∧
          1 ≤ (nodeAt D st.m_nodes j).m_entries :=
        fun j hj => hS j (by simp [hj])
      obtain ⟨bs, hbs⟩ := bounds_isSome_of_entries D B hInv hilt hie
      have hprd : (nodeAt D st.m_nodes i).pointRectDist dist q =
          some (dist (clampIn bs q) q) := by
        rw [Node.pointRectDist.eq_def, hbs]
      have hlive_eq : bestGt h.head? ((nodeAt D st.m_nodes i).pointRectDist dist q) =
          sLive dist D q 1 st.m_nodes i h := by
        cases h with
        | nil =>
          have hstep : sLive dist D q 1 st.m_nodes i [] = true := rfl
          rw [hstep, hprd]
          rfl
        | cons x t =>
          have ht : t = [] := by
            simp only [List.length_cons] at hl
            exact List.eq_nil_of_length_eq_zero (by omega)
          subst ht
          have hstep : sLive dist D q 1 st.m_nodes i [x] =
              gtO x.distance ((nodeAt D st.m_nodes i).pointRectDist dist q) := rfl
          rw [hstep, hprd]
          rfl
      rw [searchOneLoop_cons, searchLoop_cons, hlive_eq]
      by_cases hsl : sLive dist D q 1 st.m_nodes i h = true
      · rw [if_pos hsl, if_pos hsl]
        by_cases hleaf : (nodeAt D st.m_nodes i).m_splitDimension = D
        · rw [if_pos hleaf, if_pos hleaf]
          have htake : (nodeAt D st.m_nodes i).m_locationPayloads.take
              (nodeAt D st.m_nodes i).m_entries =
              (nodeAt D st.m_nodes i).m_locationPayloads := by
            rw [← hInv.leafLen i hilt hleaf]
            exact List.take_length _
          obtain ⟨e1, e2⟩ := foldl_bestStep_bucketStep dist q
            (nodeAt D st.m_nodes i).m_locationPayloads h hl
          rw [Node.searchBucket, htake, e1]
          exact ih rest _ hrest e2
        · rw [if_neg hleaf, if_neg hleaf]
          have hch : ∀ j ∈ (nodeAt D st.m_nodes i).addChildren q rest,
              j < st.m_nodes.length ∧ 1 ≤ (nodeAt D st.m_nodes j).m_entries := by
            intro j hj
            obtain ⟨hc1, hc2, hc3⟩ := hInv.struct i hilt hleaf
            obtain ⟨hp1, hp2⟩ := hInv.posL i hilt hleaf
            rw [Node.addChildren] at hj
            split at hj
            · rcases List.mem_cons.mp hj with hj | hj
              · rw [hj]
                exact ⟨by omega, hp1⟩
              · rcases List.mem_cons.mp hj with hj | hj
                · rw [hj]
                  exact ⟨hc3, hp2⟩
                · exact hrest j hj
            · rcases List.mem_cons.mp hj with hj | hj
              · rw [hj]
                exact ⟨hc3, hp2⟩
              · rcases List.mem_cons.mp hj with hj | hj
                · rw [hj]
                  exact ⟨by omega, hp1⟩
                · exact hrest j hj
          exact ih _ h hch hl
      · rw [if_neg hsl, if_neg hsl]
        exact ih rest h hrest hl

theorem search_master (dist : List ℚ → List ℚ → ℚ) (D B : ℕ) {st : KDTree α}
    (hInv : Inv D B st) (hml : MetricLB D dist) {q : List ℚ} (hq : q.length = D) :
    (0 < rootEntries st →
      ∃ b, search dist D st q = some (some b) ∧ searchK dist D st q 1 = some [b]) ∧
    (rootEntries st = 0 →
      search dist D st q = some none ∧ searchK dist D st q 1 = some []) := by
  constructor
  · intro hroot
    have hk2 : (if rootEntries st < 1 then rootEntries st else 1) = 1 := by
      split <;> omega
    have hfuel : sMeasure st.m_nodes.length [0] < searchFuel st.m_nodes := by
      simp only [sMeasure, searchFuel, List.map_cons, List.map_nil, List.sum_cons,
        List.sum_nil, Nat.sub_zero]
      omega
    have hstack0 : ∀ i ∈ ([0] : List ℕ), i < st.m_nodes.length := by
      intro i hi
      simp at hi
      rw [hi]
      exact hInv.lenPos
    obtain ⟨h2, hh2, hOK⟩ := searchLoop_master dist D B 1 q hInv hml hq one_pos
      (searchFuel st.m_nodes) [0] [] [] hstack0 hfuel (heapOK_nil dist q _)
    rw [show ([] : List (LocationPayload α)) ++ [0].flatMap (subEnt D st.m_nodes) =
      subEnt D st.m_nodes 0 by simp] at hOK
    obtain ⟨_, hlen, _, _, _⟩ := hOK
    have hN := inv_rootEntries D B hInv
    have hlen1 : h2.length = 1 := by
      rw [hlen]
      omega
    obtain ⟨b, hb⟩ : ∃ b, h2 = [b] := by
      cases h2 with
      | nil => simp at hlen1
      | cons b t =>
        cases t with
        | nil => exact ⟨b, rfl⟩
        | cons c u => simp at hlen1
    subst hb
    have hroot_ent : 1 ≤ (nodeAt D st.m_nodes 0).m_entries := by
      rw [← rootEntries_eq D st hInv.lenPos]
      omega
    refine ⟨b, ?_, ?_⟩
    · simp only [search]
      rw [if_pos hroot]
      have hbis := searchOne_bisim dist D B q hInv (searchFuel st.m_nodes) [0] []
        (by intro i hi; simp at hi; rw [hi]; exact ⟨hInv.lenPos, hroot_ent⟩) (by simp)
      rw [show ([] : List (DistancePayload α)).head? = none from rfl] at hbis
      rw [hbis, hh2]
      rfl
    · simp only [searchK]
      rw [hk2, if_pos one_pos, hh2]
      rfl
  · intro hzero
    constructor
    · simp only [search]
      rw [if_neg (by omega)]
    · simp only [searchK]
      rw [hzero, if_pos Nat.zero_lt_one, if_neg (lt_irrefl 0)]

end OneNearestLemmas

section ClaimSupport

variable {α : Type}

theorem chooseDim_of_nonpos (D : ℕ) (bs : List (ℚ × ℚ)) (hD : bs.length ≤ D)
    (hw : ∀ pr ∈ bs, pr.2 - pr.1 ≤ 0) : (chooseDim D (some bs)).1 = D := by
  rcases chooseDim_spec D bs hD with ⟨h1, _⟩ | ⟨h1, h2, h3⟩
  · exact h1
  · exfalso
    have hmem : bs.getD (chooseDim D (some bs)).1 (0, 0) ∈ bs := by
      rw [List.getD_eq_getElem _ _ h1]
      exact List.getElem_mem _
    have hle := hw _ hmem
    rw [← h3] at hle
    linarith

theorem addPoint_false_frame (D B : ℕ) {st : KDTree α} (hInv : Inv D B st)
    (loc : List ℚ) (p : α) (hloc : loc.length = D) :
    ∃ st2 L, addPoint D B st loc p false = some st2 ∧
      st2.m_nodes.length = st.m_nodes.length ∧
      (∀ j, (nodeAt D st2.m_nodes j).m_splitDimension =
          (nodeAt D st.m_nodes j).m_splitDimension ∧
        (nodeAt D st2.m_nodes j).m_splitValue = (nodeAt D st.m_nodes j).m_splitValue ∧
        (nodeAt D st2.m_nodes j).m_children = (nodeAt D st.m_nodes j).m_children) ∧
      L < st.m_nodes.length ∧
      (nodeAt D st.m_nodes L).m_splitDimension = D ∧
      (nodeAt D st2.m_nodes L).m_locationPayloads =
        (nodeAt D st.m_nodes L).m_locationPayloads ++ [⟨loc, p⟩] ∧
      (∀ j, j ≠ L → (nodeAt D st2.m_nodes j).m_locationPayloads =
        (nodeAt D st.m_nodes j).m_locationPayloads) ∧
      (∀ j, j ∉ subtreeIdx D st.m_nodes 0 →
        nodeAt D st2.m_nodes j = nodeAt D st.m_nodes j) ∧
      (∀ j, (nodeAt D st2.m_nodes j).m_entries = (nodeAt D st.m_nodes j).m_entries +
        (if L ∈ subtreeIdx D st.m_nodes j then 1 else 0)) ∧
      (∀ j, nodeAt D st2.m_nodes j = nodeAt D st.m_nodes j ∨
        nodeAt D st2.m_nodes j = (nodeAt D st.m_nodes j).expandBounds loc ∨
        (j = L ∧ nodeAt D st2.m_nodes j = (nodeAt D st.m_nodes j).add ⟨loc, p⟩)) ∧
      (st2.waitingForSplit = st.waitingForSplit ∨
        st2.waitingForSplit = insertSorted L st.waitingForSplit) ∧
      st2.m_bucketRecycle = st.m_bucketRecycle := by
  obtain ⟨res, hadd⟩ := addCore_isSome D loc (st.m_nodes.length + 1) st.m_nodes 0
    hInv.struct (by omega) hInv.lenPos
  obtain ⟨nodes1, L⟩ := res
  have haf := addCore_add_master D loc ⟨loc, p⟩ rfl (st.m_nodes.length + 1) st.m_nodes 0
    hInv.struct hInv.nodup0 hInv.lenPos nodes1 L hadd
  set nodes2 := nodes1.set L ((nodes1.getD L
    (freshNode D [])).add (⟨loc, p⟩ : LocationPayload α)) with hn2
  have hLlen : L < st.m_nodes.length :=
    subtreeIdx_mem_lt D hInv.struct hInv.lenPos haf.memL
  have hdelta := addframe_delta D B hInv haf
  have heq : addPoint D B st loc p false =
      (if (nodes2.getD L (freshNode D [])).shouldSplit B ∧
          (nodes2.getD L (freshNode D [])).m_entries % B = 0 then
        some
          { st with
            m_nodes := nodes2
            waitingForSplit := insertSorted L st.waitingForSplit }
      else some { st with m_nodes := nodes2 }) := by
    unfold addPoint
    rw [hadd]
    rfl
  have h2sd : ∀ j, (nodeAt D nodes2 j).m_splitDimension =
      (nodeAt D st.m_nodes j).m_splitDimension ∧
      (nodeAt D nodes2 j).m_splitValue = (nodeAt D st.m_nodes j).m_splitValue ∧
      (nodeAt D nodes2 j).m_children = (nodeAt D st.m_nodes j).m_children :=
    fun j => ⟨haf.sd j, haf.sv j, haf.ch j⟩
  have h7 : ∀ j, (nodeAt D nodes2 j).m_entries = (nodeAt D st.m_nodes j).m_entries +
      (if L ∈ subtreeIdx D st.m_nodes j then 1 else 0) := fun j => (hdelta j).1
  by_cases hcond : (nodes2.getD L (freshNode D [])).shouldSplit B ∧
      (nodes2.getD L (freshNode D [])).m_entries % B = 0
  · rw [if_pos hcond] at heq
    exact ⟨_, L, heq, haf.len_eq, h2sd, hLlen, haf.leafL, haf.bucket_L, haf.bucket_ne,
      haf.outside, h7, haf.frame, Or.inr rfl, rfl⟩
  · rw [if_neg hcond] at heq
    exact ⟨_, L, heq, haf.len_eq, h2sd, hLlen, haf.leafL, haf.bucket_L, haf.bucket_ne,
      haf.outside, h7, haf.frame, Or.inl rfl, rfl⟩

theorem insertedEntries_append (a b : List (Op α)) :
    insertedEntries (a ++ b) = insertedEntries a ++ insertedEntries b := by
  induction a with
  | nil => rfl
  | cons op rest ih =>
    cases op with
    | add loc p auto => simp [insertedEntries, ih]
    | splitOut => simp [insertedEntries, ih]

theorem insertedEntries_map_add (loc : List ℚ) :
    ∀ l : List ℕ, insertedEntries (l.map fun n => (Op.add loc n false : Op ℕ)) =
      l.map fun n => (⟨loc, n⟩ : LocationPayload ℕ) := by
  intro l
  induction l with
  | nil => rfl
  | cons x xs ih => simp [insertedEntries, ih]

theorem filterMap_ballKeep_eq (dist : List ℚ → List ℚ → ℚ) (q : List ℚ) (r : ℚ) :
    ∀ l : List (LocationPayload α),
      l.filterMap (ballKeep dist q r) =
        (l.map (dpOf dist q)).filter (fun x => decide (x.distance ≤ r)) := by
  intro l
  induction l with
  | nil => rfl
  | cons x xs ih =>
    by_cases hle : dist q x.location ≤ r
    · have h1 : ballKeep dist q r x = some (dpOf dist q x) := if_pos hle
      have h2 : decide ((dpOf dist q x).distance ≤ r) = true := decide_eq_true hle
      simp only [List.filterMap_cons, h1, List.map_cons, List.filter_cons, h2, if_true, ih]
    · have h1 : ballKeep dist q r x = none := if_neg hle
      have h2 : decide ((dpOf dist q x).distance ≤ r) = false := decide_eq_false hle
      simp only [List.filterMap_cons, h1, List.map_cons, List.filter_cons, h2, ih]
      simp

end ClaimSupport

section Claims

variable {α : Type}

/-- C2: on every reachable index state, the point-to-box lower bound
`pointRectDist` of any node is at most the metric distance from the query to
every entry stored in that node's subtree, for both the L1 and the squared-L2
metrics; this is exactly the soundness of the pruning test. -/
theorem C2_pointRectDist_lower_bound (D B : ℕ) (ops : List (Op α))
    (hdim : DimOk D ops) (q : List ℚ) (hq : q.length = D) :
    ∃ st, run D B ops = some st ∧
      ∀ j, j < st.m_nodes.length → ∀ lp ∈ subEnt D st.m_nodes j,
        (∀ p, (nodeAt D st.m_nodes j).pointRectDist L1.distance q = some p →
          p ≤ L1.distance q lp.location) ∧
        (∀ p, (nodeAt D st.m_nodes j).pointRectDist L2.distance q = some p →
          p ≤ L2.distance q lp.location) := by
  obtain ⟨st, hrun, hInv, _⟩ := run_master D B ops hdim
  refine ⟨st, hrun, ?_⟩
  intro j hj lp hlp
  exact ⟨fun p hp => prd_le_subEnt D B hInv (metricLB_L1 D) hq hj hp lp hlp,
    fun p hp => prd_le_subEnt D B hInv (metricLB_L2 D) hq hj hp lp hlp⟩

theorem C2_pointRectDist_lower_bound_witness :
    ∃ st, run 1 2 ([] : List (Op ℕ)) = some st ∧
      ∀ j, j < st.m_nodes.length → ∀ lp ∈ subEnt 1 st.m_nodes j,
        (∀ p, (nodeAt 1 st.m_nodes j).pointRectDist L1.distance [0] = some p →
          p ≤ L1.distance [0] lp.location) ∧
        (∀ p, (nodeAt 1 st.m_nodes j).pointRectDist L2.distance [0] = some p →
          p ≤ L2.distance [0] lp.location) :=
  C2_pointRectDist_lower_bound 1 2 []
    (fun lp hlp => absurd hlp (by simp [insertedEntries])) [0] rfl

/-- C3: after any successful operation sequence, the root's entry count —
`size()` — equals the number of `addPoint` calls performed. -/
theorem C3_size_invariant (D B : ℕ) (ops : List (Op α)) (hdim : DimOk D ops) :
    ∃ st, run D B ops = some st ∧
      rootEntries st = (insertedEntries ops).length := by
  obtain ⟨st, hrun, hInv, hperm⟩ := run_master D B ops hdim
  refine ⟨st, hrun, ?_⟩
  rw [inv_rootEntries D B hInv, hperm.length_eq]

theorem C3_size_invariant_witness :
    ∃ st, run 1 2 [Op.add [0] (0 : ℕ) false] = some st ∧
      rootEntries st = (insertedEntries [Op.add [0] (0 : ℕ) false]).length :=
  C3_size_invariant 1 2 [Op.add [0] 0 false]
    (by intro lp hlp; simp [insertedEntries] at hlp; rw [hlp]; rfl)

/-- C4: `split` is atomic on failure: when every bounds width is nonpositive,
or when the midpoint partition would leave a child empty, the call returns
failure and the node arena is exactly what it was — the leaf keeps its bucket
and entry count and no live children are added. -/
theorem C4_split_failure_atomic (D B : ℕ) {st : KDTree α} (hInv : Inv D B st)
    (i : ℕ) (hi : i < st.m_nodes.length)
    (hleaf : (nodeAt D st.m_nodes i).m_splitDimension = D)
    (hcond : (∀ bs, (nodeAt D st.m_nodes i).m_bounds = some bs →
        ∀ pr ∈ bs, pr.2 - pr.1 ≤ 0) ∨
      leftOf D st i = [] ∨ rightOf D st i = []) :
    (split D st i).1 = false ∧ (split D st i).2.m_nodes = st.m_nodes := by
  have hleafg : (st.m_nodes.getD i (freshNode D [])).m_splitDimension = D := hleaf
  by_cases hsel : (splitSel D st i).1 = D
  · rw [split_width_fail_eq D st i hsel]
    refine ⟨rfl, ?_⟩
    show (st.m_nodes.set i ({ st.m_nodes.getD i (freshNode D []) with
        m_splitDimension := D } : Node α)) = st.m_nodes
    rw [node_update_splitDim_self _ hleafg, set_getD_self _ _ _ hi]
  · have hdeg : leftOf D st i = [] ∨ rightOf D st i = [] := by
      rcases hcond with hw | hd
      · exfalso
        apply hsel
        rw [splitSel]
        cases hbs : (st.m_nodes.getD i (freshNode D [])).m_bounds with
        | none => rfl
        | some bs =>
          have hbl : bs.length = D := hInv.dimsBounds i hi bs hbs
          exact chooseDim_of_nonpos D bs (le_of_eq hbl) (hw bs hbs)
      · exact hd
    have hdeg2 : (leftNodeOf D st i).m_entries = 0 ∨
        (rightNodeOf D st i).m_entries = 0 := by
      rcases hdeg with h | h
      · left
        rw [leftNodeOf_entries, h]
        rfl
      · right
        rw [rightNodeOf_entries, h]
        rfl
    rw [split_rollback_eq D st i hsel hdeg2]
    refine ⟨rfl, ?_⟩
    show (st.m_nodes.set i ({ st.m_nodes.getD i (freshNode D []) with
        m_splitDimension := D, m_splitValue := 0, m_children := (0, 0) } : Node α)) =
      st.m_nodes
    have hnode : ({ st.m_nodes.getD i (freshNode D []) with
        m_splitDimension := D, m_splitValue := 0, m_children := (0, 0) } : Node α) =
        st.m_nodes.getD i (freshNode D []) := by
      obtain ⟨hsv, hch⟩ := hInv.leafDefaults i hi hleaf
      rw [nodeAt_def] at hsv hch
      cases hh : st.m_nodes.getD i (freshNode D [])
      rw [hh] at hleafg hsv hch
      simp_all
    rw [hnode, set_getD_self _ _ _ hi]

theorem C4_split_failure_atomic_witness :
    (split 2 (KDTree.init 2 : KDTree ℕ) 0).1 = false ∧
    (split 2 (KDTree.init 2 : KDTree ℕ) 0).2.m_nodes =
      (KDTree.init 2 : KDTree ℕ).m_nodes :=
  C4_split_failure_atomic 2 4 (init_inv 2 4) 0 (by simp [KDTree.init]) rfl
    (Or.inl (fun bs hbs => absurd hbs (by simp [KDTree.init, nodeAt_def, freshNode])))

/-- C5: in every reachable index state, each internal node's entry count is
the sum of its children's entry counts and both are strictly positive, and
every node's bounds contain the location of every entry stored through it. -/
theorem C5_reachable_invariants (D B : ℕ) (ops : List (Op α)) (hdim : DimOk D ops) :
    ∃ st, run D B ops = some st ∧
      (∀ i, i < st.m_nodes.length → (nodeAt D st.m_nodes i).m_splitDimension ≠ D →
        (nodeAt D st.m_nodes i).m_entries =
          (nodeAt D st.m_nodes (nodeAt D st.m_nodes i).m_children.1).m_entries +
          (nodeAt D st.m_nodes (nodeAt D st.m_nodes i).m_children.2).m_entries ∧
        0 < (nodeAt D st.m_nodes (nodeAt D st.m_nodes i).m_children.1).m_entries ∧
        0 < (nodeAt D st.m_nodes (nodeAt D st.m_nodes i).m_children.2).m_entries) ∧
      (∀ i, i < st.m_nodes.length → ∀ lp ∈ subEnt D st.m_nodes i,
        ∃ bs, (nodeAt D st.m_nodes i).m_bounds = some bs ∧ inBox bs lp.location) := by
  obtain ⟨st, hrun, hInv, _⟩ := run_master D B ops hdim
  refine ⟨st, hrun, ?_, ?_⟩
  · intro i hi hint
    obtain ⟨p1, p2⟩ := hInv.posL i hi hint
    exact ⟨hInv.sizeL i hi hint, p1, p2⟩
  · intro i hi lp hlp
    obtain ⟨bs, h1, h2, _⟩ := inv_boundsAll D B hInv hi lp hlp
    exact ⟨bs, h1, h2⟩

theorem C5_reachable_invariants_witness :
    ∃ st, run 1 2 [Op.add [0] (0 : ℕ) false] = some st ∧
      (∀ i, i < st.m_nodes.length → (nodeAt 1 st.m_nodes i).m_splitDimension ≠ 1 →
        (nodeAt 1 st.m_nodes i).m_entries =
          (nodeAt 1 st.m_nodes (nodeAt 1 st.m_nodes i).m_children.1).m_entries +
          (nodeAt 1 st.m_nodes (nodeAt 1 st.m_nodes i).m_children.2).m_entries ∧
        0 < (nodeAt 1 st.m_nodes (nodeAt 1 st.m_nodes i).m_children.1).m_entries ∧
        0 < (nodeAt 1 st.m_nodes (nodeAt 1 st.m_nodes i).m_children.2).m_entries) ∧
      (∀ i, i < st.m_nodes.length → ∀ lp ∈ subEnt 1 st.m_nodes i,
        ∃ bs, (nodeAt 1 st.m_nodes i).m_bounds = some bs ∧ inBox bs lp.location) :=
  C5_reachable_invariants 1 2 [Op.add [0] 0 false]
    (by intro lp hlp; simp [insertedEntries] at hlp; rw [hlp]; rfl)

/-- C7: the `splitOutstanding` worklist pops each pending handle; a leaf at or
above the bucket threshold gets a split attempt whose two fresh children are
pushed on success and whose failure leaves the state unchanged; a leaf below
the threshold is skipped; and the call always succeeds on a reachable state
with the pending-split set empty afterwards and the stored entries preserved. -/
theorem C7_splitOutstanding_drain (D B : ℕ) {st : KDTree α} (hInv : Inv D B st) :
    (∀ (fuel i : ℕ) (rest : List ℕ),
      (nodeAt D st.m_nodes i).m_splitDimension = D →
      (nodeAt D st.m_nodes i).shouldSplit B →
      soLoop D B (fuel + 1) st (i :: rest) =
        (if (split D st i).1 = true then
          soLoop D B fuel (split D st i).2
            (((split D st i).2.m_nodes.getD i (freshNode D [])).m_children.2 ::
             ((split D st i).2.m_nodes.getD i (freshNode D [])).m_children.1 :: rest)
        else soLoop D B fuel (split D st i).2 rest)) ∧
    (∀ i, i < st.m_nodes.length → (nodeAt D st.m_nodes i).m_splitDimension = D →
      (split D st i).1 = false → (split D st i).2 = st) ∧
    (∀ (fuel i : ℕ) (rest : List ℕ),
      (nodeAt D st.m_nodes i).m_splitDimension = D →
      ¬(nodeAt D st.m_nodes i).shouldSplit B →
      soLoop D B (fuel + 1) st (i :: rest) = soLoop D B fuel st rest) ∧
    ∃ st2, splitOutstanding D B st = some st2 ∧ Inv D B st2 ∧
      st2.waitingForSplit = [] ∧
      (subEnt D st2.m_nodes 0).Perm (subEnt D st.m_nodes 0) := by
  refine ⟨?_, ?_, ?_, splitOutstanding_master D B hInv⟩
  · intro fuel i rest hleaf hsh
    rw [soLoop]
    rw [if_pos (show (st.m_nodes.getD i (freshNode D [])).m_splitDimension = D from hleaf),
      if_pos (show (st.m_nodes.getD i (freshNode D [])).shouldSplit B from hsh)]
  · intro i hi hleaf hfail
    exact split_fail_id D hleaf hi (hInv.tight i hi hleaf)
      (fun lp hlp => hInv.dimsBucket i hi lp hlp) hfail
  · intro fuel i rest hleaf hsh
    rw [soLoop]
    rw [if_pos (show (st.m_nodes.getD i (freshNode D [])).m_splitDimension = D from hleaf),
      if_neg (show ¬(st.m_nodes.getD i (freshNode D [])).shouldSplit B from hsh)]

theorem C7_splitOutstanding_drain_witness :
    ∃ st2, splitOutstanding 2 4 (KDTree.init 2 : KDTree ℕ) = some st2 ∧
      Inv 2 4 st2 ∧ st2.waitingForSplit = [] ∧
      (subEnt 2 st2.m_nodes 0).Perm (subEnt 2 (KDTree.init 2 : KDTree ℕ).m_nodes 0) :=
  (C7_splitOutstanding_drain 2 4 (init_inv 2 4)).2.2.2

/-- C10: `addPoint` with autosplit off never changes the tree structure: the
arena keeps its length and every node its leaf/internal status, split
dimension, split value and child handles; the only changes are the widened
bounds and incremented entry counts on the descent path, one entry appended
to the reached leaf's bucket, and possibly that leaf's handle recorded in the
pending-split set. -/
theorem C10_addPoint_frame (D B : ℕ) {st : KDTree α} (hInv : Inv D B st)
    (loc : List ℚ) (p : α) (hloc : loc.length = D) :
    ∃ st2 L, addPoint D B st loc p false = some st2 ∧
      st2.m_nodes.length = st.m_nodes.length ∧
      (∀ j, (nodeAt D st2.m_nodes j).m_splitDimension =
          (nodeAt D st.m_nodes j).m_splitDimension ∧
        (nodeAt D st2.m_nodes j).m_splitValue = (nodeAt D st.m_nodes j).m_splitValue ∧
        (nodeAt D st2.m_nodes j).m_children = (nodeAt D st.m_nodes j).m_children) ∧
      L < st.m_nodes.length ∧
      (nodeAt D st.m_nodes L).m_splitDimension = D ∧
      (nodeAt D st2.m_nodes L).m_locationPayloads =
        (nodeAt D st.m_nodes L).m_locationPayloads ++ [⟨loc, p⟩] ∧
      (∀ j, j ≠ L → (nodeAt D st2.m_nodes j).m_locationPayloads =
        (nodeAt D st.m_nodes j).m_locationPayloads) ∧
      (∀ j, j ∉ subtreeIdx D st.m_nodes 0 →
        nodeAt D st2.m_nodes j = nodeAt D st.m_nodes j) ∧
      (∀ j, (nodeAt D st2.m_nodes j).m_entries = (nodeAt D st.m_nodes j).m_entries +
        (if L ∈ subtreeIdx D st.m_nodes j then 1 else 0)) ∧
      (∀ j, nodeAt D st2.m_nodes j = nodeAt D st.m_nodes j ∨
        nodeAt D st2.m_nodes j = (nodeAt D st.m_nodes j).expandBounds loc ∨
        (j = L ∧ nodeAt D st2.m_nodes j = (nodeAt D st.m_nodes j).add ⟨loc, p⟩)) ∧
      (st2.waitingForSplit = st.waitingForSplit ∨
        st2.waitingForSplit = insertSorted L st.waitingForSplit) ∧
      st2.m_bucketRecycle = st.m_bucketRecycle :=
  addPoint_false_frame D B hInv loc p hloc

theorem C10_addPoint_frame_witness :
    ∃ st2 L, addPoint 1 2 (KDTree.init 1 : KDTree ℕ) [0] (0 : ℕ) false = some st2 ∧
      st2.m_nodes.length = (KDTree.init 1 : KDTree ℕ).m_nodes.length ∧
      (nodeAt 1 st2.m_nodes L).m_locationPayloads =
        (nodeAt 1 (KDTree.init 1 : KDTree ℕ).m_nodes L).m_locationPayloads ++
          [⟨[0], 0⟩] := by
  obtain ⟨st2, L, h1, h2, _, _, _, h6, _⟩ :=
    C10_addPoint_frame 1 2 (init_inv 1 2) [0] 0 rfl
  exact ⟨st2, L, h1, h2, h6⟩

/-- C6: `search` agrees with `searchK` at k = 1 on every reachable state: on a
non-empty index the single nearest neighbour is returned as the one element of
the k = 1 list, and on an empty index `search` returns the no-result sentinel
while `searchK` returns the empty list. -/
theorem C6_search_single_nearest (D B : ℕ) (ops : List (Op α)) (hdim : DimOk D ops)
    (dist : List ℚ → List ℚ → ℚ) (hml : MetricLB D dist) (q : List ℚ)
    (hq : q.length = D) :
    ∃ st, run D B ops = some st ∧
      (0 < rootEntries st →
        ∃ b, search dist D st q = some (some b) ∧ searchK dist D st q 1 = some [b]) ∧
      (rootEntries st = 0 →
        search dist D st q = some none ∧ searchK dist D st q 1 = some []) := by
  obtain ⟨st, hrun, hInv, _⟩ := run_master D B ops hdim
  exact ⟨st, hrun, search_master dist D B hInv hml hq⟩

theorem C6_search_single_nearest_witness :
    ∃ st, run 1 2 ([] : List (Op ℕ)) = some st ∧
      (0 < rootEntries st →
        ∃ b, search L2.distance 1 st [0] = some (some b) ∧
          searchK L2.distance 1 st [0] 1 = some [b]) ∧
      (rootEntries st = 0 →
        search L2.distance 1 st [0] = some none ∧
          searchK L2.distance 1 st [0] 1 = some []) :=
  C6_search_single_nearest 1 2 [] (fun lp hlp => absurd hlp (by simp [insertedEntries]))
    L2.distance (metricLB_L2 1) [0] rfl

/-- C9: correctness of ball search, modelled from the spec because
`searchBall` is absent from `src/KDTree.h`: on every reachable state the
result is sorted ascending by distance, every result is within the radius,
and the results are exactly (as a multiset) the inserted entries whose
distance to the query is at most the radius. -/
theorem C9_searchBall_correct (D B : ℕ) (ops : List (Op α)) (hdim : DimOk D ops)
    (dist : List ℚ → List ℚ → ℚ) (hml : MetricLB D dist) (q : List ℚ)
    (hq : q.length = D) (r : ℚ) :
    ∃ st res, run D B ops = some st ∧ searchBall dist D st q r = some res ∧
      List.Sorted (fun a b : DistancePayload α => a.distance ≤ b.distance) res ∧
      (∀ x ∈ res, x.distance ≤ r) ∧
      res.Perm (((insertedEntries ops).map (dpOf dist q)).filter
        (fun x => decide (x.distance ≤ r))) := by
  obtain ⟨st, hrun, hInv, hperm0⟩ := run_master D B ops hdim
  obtain ⟨res, h1, h2, h3, h4⟩ := searchBall_master dist D B q r hInv hml hq
  refine ⟨st, res, hrun, h1, h2, h3, ?_⟩
  refine h4.trans ?_
  rw [filterMap_ballKeep_eq dist q r (subEnt D st.m_nodes 0)]
  exact List.Perm.filter _ (hperm0.map (dpOf dist q))

theorem C9_searchBall_correct_witness :
    ∃ st res, run 1 2 ([] : List (Op ℕ)) = some st ∧
      searchBall L2.distance 1 st [0] 0 = some res ∧
      ∀ x ∈ res, x.distance ≤ 0 := by
  obtain ⟨st, res, h1, h2, _, h4, _⟩ := C9_searchBall_correct 1 2 []
    (fun lp hlp => absurd hlp (by simp [insertedEntries])) L2.distance
    (metricLB_L2 1) [0] rfl 0
  exact ⟨st, res, h1, h2, h4⟩

/-- C8: duplicate robustness: inserting the same point 5000 times plus one
distinct point with autosplit off, then running `splitOutstanding`, terminates
(the fuelled loops succeed), and `searchK` for 80 neighbours of the duplicated
point returns exactly 80 results. -/
theorem C8_duplicate_robustness :
    ∃ st res, run 11 32 dupOps = some st ∧
      searchK L2.distance 11 st dupLoc 80 = some res ∧ res.length = 80 := by
  have hIE : insertedEntries dupOps =
      ((List.range 5000).map fun n => (⟨dupLoc, n⟩ : LocationPayload ℕ)) ++
        [⟨otherLoc, 5000⟩] := by
    rw [dupOps, insertedEntries_append, insertedEntries_map_add]
    rfl
  have hlen : (insertedEntries dupOps).length = 5001 := by
    rw [hIE]
    simp
  have hdim : DimOk 11 dupOps := by
    intro lp hlp
    rw [hIE] at hlp
    rcases List.mem_append.mp hlp with h | h
    · obtain ⟨n, _, hv⟩ := List.mem_map.mp h
      rw [← hv]
      simp [dupLoc]
    · simp at h
      rw [h]
      simp [otherLoc]
  obtain ⟨st, hrun, hInv, hperm⟩ := run_master 11 32 dupOps hdim
  have hq : dupLoc.length = 11 := by simp [dupLoc]
  obtain ⟨res, hres, hreslen, _, _⟩ := searchK_master L2.distance 11 32 hInv
    (metricLB_L2 11) hq 80
  refine ⟨st, res, hrun, hres, ?_⟩
  rw [hreslen, inv_rootEntries 11 32 hInv, hperm.length_eq, hlen]
  omega

/-- C1: amended KNN correctness: on every reachable state `searchK` returns
exactly `min k N` results sorted ascending by distance, its distance list
equals the brute-force reference's distance list, and the results are a valid
bottom-k selection of the inserted entries (every omitted entry is at least as
far as every returned one); the original payload-for-payload agreement with
the brute-force tie order is refuted by the counterexample. -/
theorem C1_knn_amended (D B : ℕ) (ops : List (Op α)) (hdim : DimOk D ops)
    (dist : List ℚ → List ℚ → ℚ) (hml : MetricLB D dist) (q : List ℚ)
    (hq : q.length = D) (k : ℕ) :
    ∃ st res, run D B ops = some st ∧ searchK dist D st q k = some res ∧
      res.length = min k (insertedEntries ops).length ∧
      List.Sorted (fun a b : DistancePayload α => a.distance ≤ b.distance) res ∧
      res.map DistancePayload.distance =
        (bruteKnn dist q k (insertedEntries ops)).map DistancePayload.distance ∧
      ∃ rest, (res ++ rest).Perm ((insertedEntries ops).map (dpOf dist q)) ∧
        ∀ x ∈ rest, ∀ y ∈ res, y.distance ≤ x.distance := by
  obtain ⟨st, hrun, hInv, hperm0⟩ := run_master D B ops hdim
  obtain ⟨res, hres, hlen, hsorted, rest, hperm, hsep⟩ :=
    searchK_master dist D B hInv hml hq k
  have hNlen : rootEntries st = (insertedEntries ops).length := by
    rw [inv_rootEntries D B hInv, hperm0.length_eq]
  have hpermI : (res ++ rest).Perm ((insertedEntries ops).map (dpOf dist q)) :=
    hperm.trans (hperm0.map (dpOf dist q))
  refine ⟨st, res, hrun, hres, by rw [hlen, hNlen], hsorted, ?_, rest, hpermI, hsep⟩
  have hu := sorted_map_distance hsorted
  have hwS := sorted_map_distance (sortD_sorted ((insertedEntries ops).map (dpOf dist q)))
  have hpermW : ((res.map DistancePayload.distance) ++
      (rest.map DistancePayload.distance)).Perm
      ((sortD ((insertedEntries ops).map (dpOf dist q))).map DistancePayload.distance) := by
    rw [← List.map_append]
    exact (hpermI.trans (sortD_perm ((insertedEntries ops).map (dpOf dist q))).symm).map
      DistancePayload.distance
  have hsep2 : ∀ x ∈ rest.map DistancePayload.distance,
      ∀ y ∈ res.map DistancePayload.distance, y ≤ x := by
    intro x hx y hy
    obtain ⟨a, ha, hva⟩ := List.mem_map.mp hx
    obtain ⟨b, hb, hvb⟩ := List.mem_map.mp hy
    rw [← hva, ← hvb]
    exact hsep a ha b hb
  have hkey := sorted_take_unique (res.map DistancePayload.distance)
    ((sortD ((insertedEntries ops).map (dpOf dist q))).map DistancePayload.distance)
    (rest.map DistancePayload.distance) hu hwS hpermW hsep2
  have hWlen : ((sortD ((insertedEntries ops).map (dpOf dist q))).map
      DistancePayload.distance).length = (insertedEntries ops).length := by
    rw [List.length_map, (sortD_perm ((insertedEntries ops).map (dpOf dist q))).length_eq,
      List.length_map]
  have hlen2 : res.length = min k (insertedEntries ops).length := by
    rw [hlen, hNlen]
  show res.map DistancePayload.distance =
    (bruteKnn dist q k (insertedEntries ops)).map DistancePayload.distance
  rw [show bruteKnn dist q k (insertedEntries ops) =
      (sortD ((insertedEntries ops).map (dpOf dist q))).take k from rfl,
    List.map_take, hkey, List.length_map, hlen2, ← hWlen, ← take_min]

theorem C1_knn_amended_witness :
    ∃ st res, run 1 2 ([] : List (Op ℕ)) = some st ∧
      searchK L2.distance 1 st [0] 0 = some res ∧
      res.length = min 0 (insertedEntries ([] : List (Op ℕ))).length := by
  obtain ⟨st, res, h1, h2, h3, _⟩ := C1_knn_amended 1 2 []
    (fun lp hlp => absurd hlp (by simp [insertedEntries])) L2.distance
    (metricLB_L2 1) [0] rfl 0
  exact ⟨st, res, h1, h2, h3⟩

/-- Counterexample to C1's payload-for-payload clause: two points equidistant
from the query; the index returns the entry with payload 1 while the
brute-force tie-consistent (insertion-order-stable) reference returns the
entry with payload 0, so the payload lists differ while the distances agree. -/
theorem C1_payload_mismatch :
    (run 1 2 cexOps).bind (fun st => searchK L2.distance 1 st [1] 1) =
      some [⟨1, 1⟩] ∧
    bruteKnn L2.distance [1] 1 (insertedEntries cexOps) = [⟨1, 0⟩] ∧
    ¬(([⟨(1 : ℚ), (1 : ℕ)⟩] : List (DistancePayload ℕ)).map DistancePayload.payload =
      ([⟨(1 : ℚ), (0 : ℕ)⟩] : List (DistancePayload ℕ)).map DistancePayload.payload) := by
  refine ⟨by with_unfolding_all rfl, by with_unfolding_all rfl, by simp⟩

end Claims

end KD

